import Mathlib

/-!
# SuperChessPrep: the PGN viewer of `daily-exercises.js`

A shallow embedding of the PGN mainline extractor, the recursive PGN renderer, the
variation preview and the mainline navigation of
`src/frontend/pages/exercises/daily-exercises.js`.

* The regular expressions of the source are values of `Re`, run by a small backtracking
  matcher that follows the priority rules of ECMAScript (greedy quantifiers, ordered
  alternation, leftmost match, no empty iteration of a quantifier).
* JavaScript strings are lists of characters (`List Char`), converted from and to `String`
  at the boundary of each embedded function.
* The chess-rules collaborator (`chess.js`) is the parameter `Rules`.
* Three counting loops of the file (lines 432, 838 and 993) declare their counter as `and`
  and read `i` in the body and in the step. No scope of the file declares `i`, so the first
  evaluation of such a body raises a ReferenceError; the embedding follows the code as it is
  written (`scanMainline`, `findMatchingParen`, `parseMoveSquares`).
-/

namespace SuperChessPrep

/-! ## Regular expressions -/

/-- Capture groups of one match attempt: group number and captured text, newest first. -/
abbrev Caps (α : Type) := List (Nat × List α)

/-- State of a match attempt: the input still to be read and the groups captured. -/
abbrev MState (α : Type) := List α × Caps α

/-- Regular expressions over an alphabet `α`, as far as the source uses them. -/
inductive Re (α : Type) where
  /-- The empty pattern. -/
  | eps : Re α
  /-- One character of a class, e.g. `[a-h]`, `\d`, `x`. -/
  | chr (p : α → Bool) : Re α
  /-- Concatenation. -/
  | seq (a b : Re α) : Re α
  /-- Ordered alternation `a|b`. -/
  | alt (a b : Re α) : Re α
  /-- Greedy `a?`. -/
  | opt (a : Re α) : Re α
  /-- Greedy `a*`. -/
  | star (a : Re α) : Re α
  /-- Capture group number `n`. -/
  | group (n : Nat) (a : Re α) : Re α
  /-- End of input `$` (no `m` flag in the source). -/
  | eos : Re α

namespace Re

/-- Greedy `a+`. -/
def plus {α : Type} (a : Re α) : Re α := seq a (star a)

/-- Concatenation of a list of patterns. -/
def cat {α : Type} : List (Re α) → Re α
  | [] => eps
  | [a] => a
  | a :: rest => seq a (cat rest)

/-- Whether the pattern matches the empty string. -/
def nullable {α : Type} : Re α → Bool
  | eps => true
  | chr _ => false
  | seq a b => nullable a && nullable b
  | alt a b => nullable a || nullable b
  | opt _ => true
  | star _ => true
  | group _ a => nullable a
  | eos => true

/-- Iterations of a greedy quantifier without upper bound: each iteration has to consume
input (an iteration that matches the empty string is not considered), more iterations are
preferred to fewer. `fuel` bounds the number of iterations by the length of the input. -/
def starAux {α : Type} (step : MState α → List (MState α)) : Nat → MState α → List (MState α)
  | 0, st => [st]
  | fuel + 1, st =>
    (((step st).filter (fun st2 => decide (st2.1.length < st.1.length))).flatMap
      (starAux step fuel)) ++ [st]

/-- All ways to match `r` at the head of the input, in the priority order of a
backtracking matcher: the first entry is the match that `exec` reports when nothing
follows `r` in the pattern. -/
def run {α : Type} : Re α → MState α → List (MState α)
  | eps, st => [st]
  | chr p, st =>
    match st.1 with
    | [] => []
    | c :: rest => if p c then [(rest, st.2)] else []
  | seq a b, st => (run a st).flatMap (fun st2 => run b st2)
  | alt a b, st => run a st ++ run b st
  | opt a, st =>
    ((run a st).filter (fun st2 => decide (st2.1.length < st.1.length))) ++ [st]
  | star a, st => starAux (fun st2 => run a st2) st.1.length st
  | group n a, st =>
    (run a st).map (fun st2 => (st2.1, (n, st.1.take (st.1.length - st2.1.length)) :: st2.2))
  | eos, st => if st.1.isEmpty then [st] else []

end Re

/-- Result of a successful match: text of the whole match (`m[0]`) and the groups. -/
structure Match (α : Type) where
  /-- The matched text `m[0]`. -/
  whole : List α
  /-- The capture groups. -/
  caps : Caps α

/-- Capture group `n` of a match (`m[n]`), `none` when the group took no part (`undefined`). -/
def Match.grp {α : Type} (m : Match α) (n : Nat) : Option (List α) :=
  (m.caps.find? (fun e => e.1 == n)).map (fun e => e.2)

/-- Match of `r` at the very start of `s`: a pattern that begins with `^`. -/
def matchStart {α : Type} (r : Re α) (s : List α) : Option (Match α) :=
  ((Re.run r (s, [])).head?).map
    (fun st => { whole := s.take (s.length - st.1.length), caps := st.2 })

/-- Leftmost match of `r` in `s`: the text before the match and the match (`String.match`,
`RegExp.exec` from index 0). -/
def search {α : Type} (r : Re α) : List α → Option (List α × Match α)
  | [] => (matchStart r []).map (fun m => ([], m))
  | c :: rest =>
    match matchStart r (c :: rest) with
    | some m => some ([], m)
    | none => (search r rest).map (fun x => (c :: x.1, x.2))

/-- The call `s.replace(/r/g, rep)` by fuel: every match is replaced, the scan resumes after
the match, and after an empty match one character is copied. -/
def replaceAllAux {α : Type} (r : Re α) (rep : List α) : Nat → List α → List α
  | 0, s => s
  | fuel + 1, s =>
    match search r s with
    | none => s
    | some (before, m) =>
      let after := s.drop (before.length + m.whole.length)
      match m.whole, after with
      | [], [] => before ++ rep
      | [], c :: rest => before ++ rep ++ c :: replaceAllAux r rep fuel rest
      | _ :: _, _ => before ++ rep ++ replaceAllAux r rep fuel after

/-- The call `s.replace(/r/g, rep)`. -/
def replaceAll {α : Type} (r : Re α) (rep : List α) (s : List α) : List α :=
  replaceAllAux r rep (s.length + 1) s

/-- The call `s.replace(/r/, rep)` without the `g` flag: the first match only. -/
def replaceFirst {α : Type} (r : Re α) (rep : List α) (s : List α) : List α :=
  match search r s with
  | none => s
  | some (before, m) => before ++ rep ++ s.drop (before.length + m.whole.length)

/-- The loop `while ((match = re.exec(s)) !== null) out.push(match[n])` of a pattern with
the `g` flag, by fuel; the loop of the source does not end on an empty match, which is
reported as `none`. -/
def execAllAux {α : Type} (r : Re α) (n : Nat) : Nat → List α → Option (List (Option (List α)))
  | 0, _ => none
  | fuel + 1, s =>
    match search r s with
    | none => some []
    | some (before, m) =>
      match m.whole with
      | [] => none
      | _ :: _ =>
        (execAllAux r n fuel (s.drop (before.length + m.whole.length))).map
          (fun rest => m.grp n :: rest)

/-! ## Character classes of the source patterns -/

/-- White space and line terminators of ECMAScript: the class `\s`, and what `trim()` strips. -/
def isSpace (c : Char) : Bool :=
  c == ' ' || c == '\t' || c == '\n' || c == '\r' || c.toNat == 0x0B || c.toNat == 0x0C ||
  c.toNat == 0xA0 || c.toNat == 0x1680 || (0x2000 ≤ c.toNat && c.toNat ≤ 0x200A) ||
  c.toNat == 0x2028 || c.toNat == 0x2029 || c.toNat == 0x202F || c.toNat == 0x205F ||
  c.toNat == 0x3000 || c.toNat == 0xFEFF

/-- The class `\d`. -/
def isDigit (c : Char) : Bool := '0' ≤ c && c ≤ '9'

/-- The literal character `c`. -/
def lit (c : Char) : Re Char := Re.chr (fun d => d == c)

/-- The literal text `s`. -/
def lits (s : String) : Re Char := Re.cat (s.toList.map lit)

/-- The class `[...]` of the characters of `s`. -/
def oneOf (s : String) : Re Char := Re.chr (fun d => s.toList.contains d)

/-- The class `[^...]` of the characters not in `s`. -/
def noneOf (s : String) : Re Char := Re.chr (fun d => !s.toList.contains d)

/-- The call `s.trim()`. -/
def trim (s : List Char) : List Char :=
  ((s.dropWhile isSpace).reverse.dropWhile isSpace).reverse

/-! ## Patterns of `daily-exercises.js` -/

/-- The move grammar shared by the extractor, the renderer and the preview:
`[NBRQK]?[a-h]?[1-8]?x?[a-h][1-8](?:=[NBRQ])?[+#]?|O-O-O|O-O`. -/
def sanRe : Re Char :=
  Re.alt
    (Re.cat [Re.opt (oneOf "NBRQK"), Re.opt (oneOf "abcdefgh"), Re.opt (oneOf "12345678"),
      Re.opt (lit 'x'), oneOf "abcdefgh", oneOf "12345678",
      Re.opt (Re.seq (lit '=') (oneOf "NBRQ")), Re.opt (oneOf "+#")])
    (Re.alt (lits "O-O-O") (lits "O-O"))

/-- The game results `(1-0|0-1|1\/2-1\/2|\*)`. -/
def resultAlt : Re Char :=
  Re.group 1 (Re.alt (lits "1-0") (Re.alt (lits "0-1") (Re.alt (lits "1/2-1/2") (lit '*'))))

/-- Header tags, line 425: `/\[[^\]]+\]\s*/g`. -/
def headerRe : Re Char :=
  Re.cat [lit '[', Re.plus (noneOf "]"), lit ']', Re.star (Re.chr isSpace)]

/-- NAG tokens to strip, line 464: `/\$\d+/g`. -/
def nagStripRe : Re Char := Re.seq (lit '$') (Re.plus (Re.chr isDigit))

/-- Trailing result, line 467: `/\s*(1-0|0-1|1\/2-1\/2|\*)\s*$/`. -/
def resultStripRe : Re Char :=
  Re.cat [Re.star (Re.chr isSpace), resultAlt, Re.star (Re.chr isSpace), Re.eos]

/-- White-space runs, line 470: `/\s+/g`. -/
def spacesRe : Re Char := Re.plus (Re.chr isSpace)

/-- The extractor's move pattern, line 474: `/(?:\d+\.+\s*)?(san)/g`. -/
def moveRegex : Re Char :=
  Re.seq
    (Re.opt (Re.cat [Re.plus (Re.chr isDigit), Re.plus (lit '.'), Re.star (Re.chr isSpace)]))
    (Re.group 1 sanRe)

/-- The move-number pattern of line 643 without its trailing `\s*`: `(\d+)(\.+)`. -/
def numCoreRe : Re Char :=
  Re.seq (Re.group 1 (Re.plus (Re.chr isDigit))) (Re.group 2 (Re.plus (lit '.')))

/-- Move numbers in the renderer, line 643: `/^(\d+)(\.+)\s*/`. -/
def numRe : Re Char :=
  Re.cat [Re.group 1 (Re.plus (Re.chr isDigit)), Re.group 2 (Re.plus (lit '.')),
    Re.star (Re.chr isSpace)]

/-- Results in the renderer, line 660: `/^(1-0|0-1|1\/2-1\/2|\*)/`. -/
def resRe : Re Char := resultAlt

/-- NAG tokens in the renderer, line 667: `/^\$(\d+)/`. -/
def nagRe : Re Char := Re.seq (lit '$') (Re.group 1 (Re.plus (Re.chr isDigit)))

/-- Moves with glyphs in the renderer, line 678: `/^(san)([!?]+)?/`. -/
def moveRe : Re Char :=
  Re.seq (Re.group 1 sanRe) (Re.opt (Re.group 2 (Re.plus (oneOf "!?"))))

/-- The preview pattern, line 746: `/^(\d+)(\.+)\s*(san)(\s*\$\d+)?([!?]*)?/`. -/
def previewRe : Re Char :=
  Re.cat [Re.group 1 (Re.plus (Re.chr isDigit)), Re.group 2 (Re.plus (lit '.')),
    Re.star (Re.chr isSpace), Re.group 3 sanRe,
    Re.opt (Re.group 4 (Re.cat [Re.star (Re.chr isSpace), lit '$', Re.plus (Re.chr isDigit)])),
    Re.opt (Re.group 5 (Re.star (oneOf "!?")))]

/-- The preview fallback, line 750: `/^(san)/`. -/
def moveOnlyRe : Re Char := Re.group 1 sanRe

/-- Annotation directives, lines 866-868: `/\[%evp[^\]]*\]/g` and its siblings for `%csl`
and `%cal`. -/
def directiveRe (name : String) : Re Char :=
  Re.cat [lits ("[%" ++ name), Re.star (noneOf "]"), lit ']']

/-! ## Character kinds of the move grammar -/

/-- The kinds of characters that the classes of the move grammar tell apart. -/
inductive Kind where
  /-- One of `N`, `B`, `R`, `Q`. -/
  | piece : Kind
  /-- The letter `K`. -/
  | king : Kind
  /-- A file letter `a` to `h`. -/
  | file : Kind
  /-- A rank digit `1` to `8`. -/
  | rank : Kind
  /-- The letter `x`. -/
  | capture : Kind
  /-- The sign `=`. -/
  | equals : Kind
  /-- One of `+`, `#`. -/
  | check : Kind
  /-- The letter `O`. -/
  | castle : Kind
  /-- The sign `-`. -/
  | dash : Kind
  /-- Every other character. -/
  | other : Kind
  deriving DecidableEq, Repr

/-- The kind of a character. -/
def kind (d : Char) : Kind :=
  if d = 'N' ∨ d = 'B' ∨ d = 'R' ∨ d = 'Q' then Kind.piece
  else if d = 'K' then Kind.king
  else if d = 'a' ∨ d = 'b' ∨ d = 'c' ∨ d = 'd' ∨ d = 'e' ∨ d = 'f' ∨ d = 'g' ∨ d = 'h' then
    Kind.file
  else if d = '1' ∨ d = '2' ∨ d = '3' ∨ d = '4' ∨ d = '5' ∨ d = '6' ∨ d = '7' ∨ d = '8' then
    Kind.rank
  else if d = 'x' then Kind.capture
  else if d = '=' then Kind.equals
  else if d = '+' ∨ d = '#' then Kind.check
  else if d = 'O' then Kind.castle
  else if d = '-' then Kind.dash
  else Kind.other

/-- All kinds. -/
def Kind.all : List Kind :=
  [Kind.piece, Kind.king, Kind.file, Kind.rank, Kind.capture, Kind.equals, Kind.check,
    Kind.castle, Kind.dash, Kind.other]

/-- The move grammar `sanRe` read over the kinds of characters. -/
def sanReK : Re Kind :=
  Re.alt
    (Re.cat [Re.opt (Re.chr (fun k => k == Kind.piece || k == Kind.king)),
      Re.opt (Re.chr (fun k => k == Kind.file)), Re.opt (Re.chr (fun k => k == Kind.rank)),
      Re.opt (Re.chr (fun k => k == Kind.capture)), Re.chr (fun k => k == Kind.file),
      Re.chr (fun k => k == Kind.rank),
      Re.opt (Re.seq (Re.chr (fun k => k == Kind.equals)) (Re.chr (fun k => k == Kind.piece))),
      Re.opt (Re.chr (fun k => k == Kind.check))])
    (Re.alt
      (Re.cat [Re.chr (fun k => k == Kind.castle), Re.chr (fun k => k == Kind.dash),
        Re.chr (fun k => k == Kind.castle), Re.chr (fun k => k == Kind.dash),
        Re.chr (fun k => k == Kind.castle)])
      (Re.cat [Re.chr (fun k => k == Kind.castle), Re.chr (fun k => k == Kind.dash),
        Re.chr (fun k => k == Kind.castle)]))

/-- The pattern `r` over `β` read over `α` through `f`. -/
def Re.comap {α β : Type} (f : α → β) : Re β → Re α
  | Re.eps => Re.eps
  | Re.chr p => Re.chr (fun c => p (f c))
  | Re.seq a b => Re.seq (Re.comap f a) (Re.comap f b)
  | Re.alt a b => Re.alt (Re.comap f a) (Re.comap f b)
  | Re.opt a => Re.opt (Re.comap f a)
  | Re.star a => Re.star (Re.comap f a)
  | Re.group n a => Re.group n (Re.comap f a)
  | Re.eos => Re.eos

/-- Patterns without `$`. -/
def Re.noEos {α : Type} : Re α → Bool
  | Re.eps => true
  | Re.chr _ => true
  | Re.seq a b => Re.noEos a && Re.noEos b
  | Re.alt a b => Re.noEos a && Re.noEos b
  | Re.opt a => Re.noEos a
  | Re.star a => Re.noEos a
  | Re.group _ a => Re.noEos a
  | Re.eos => false

/-- Patterns built from classes, concatenation, alternation and `?` only. -/
def Re.simple {α : Type} : Re α → Bool
  | Re.eps => true
  | Re.chr _ => true
  | Re.seq a b => Re.simple a && Re.simple b
  | Re.alt a b => Re.simple a && Re.simple b
  | Re.opt a => Re.simple a
  | _ => false

/-- No class of the pattern holds the character `c`. -/
def Re.rejects {α : Type} (c : α) : Re α → Bool
  | Re.chr p => !p c
  | Re.seq a b => Re.rejects c a && Re.rejects c b
  | Re.alt a b => Re.rejects c a && Re.rejects c b
  | Re.opt a => Re.rejects c a
  | Re.star a => Re.rejects c a
  | Re.group _ a => Re.rejects c a
  | _ => true

/-- The inputs left by the matches of a simple pattern, in priority order. -/
def Re.rests {α : Type} : Re α → List α → List (List α)
  | Re.eps, s => [s]
  | Re.chr _, [] => []
  | Re.chr p, c :: t => if p c then [t] else []
  | Re.seq a b, s => (Re.rests a s).flatMap (fun t => Re.rests b t)
  | Re.alt a b, s => Re.rests a s ++ Re.rests b s
  | Re.opt a, s => ((Re.rests a s).filter (fun t => decide (t.length < s.length))) ++ [s]
  | _, _ => []

/-- The words of a simple pattern over the alphabet `all`. -/
def Re.words {α : Type} (all : List α) : Re α → List (List α)
  | Re.eps => [[]]
  | Re.chr p => (all.filter p).map (fun c => [c])
  | Re.seq a b => (Re.words all a).flatMap (fun u => (Re.words all b).map (fun v => u ++ v))
  | Re.alt a b => Re.words all a ++ Re.words all b
  | Re.opt a => Re.words all a ++ [[]]
  | _ => []

/-- Whether the whole of `san` is a move of the move grammar. -/
def isSan (san : List Char) : Bool := (Re.run sanRe (san, [])).any (fun st => st.1.isEmpty)

/-! ## Helpers of the source -/

/-- What stops an embedded function before it returns. -/
inductive JsError where
  /-- A read of an identifier that no enclosing scope declares. -/
  | referenceError (name : String) : JsError
  /-- A property access on `null` or `undefined`, or a property write on a primitive value in
  strict mode. -/
  | typeError : JsError
  /-- The bounded recursion of the embedding used up its fuel; with the fuel that the
  embedding passes this is never the case, see `parseAndRenderPgn_returns` and
  `collectMoves_returns`. -/
  | outOfFuel : JsError
  deriving DecidableEq, Repr

/-- The call `s.slice(a, b)` for `0 ≤ a` and `0 ≤ b`. -/
def slice (s : List Char) (a b : Nat) : List Char := (s.take b).drop a

/-- The call `s.indexOf(c, start)`: `none` stands for `-1`. -/
def indexOfFrom (s : List Char) (c : Char) (start : Nat) : Option Nat :=
  ((s.drop start).findIdx? (fun d => d == c)).map (fun k => start + k)

/-! ## Numbers

The numbers of the source are doubles. The natural numbers that occur here are held as the
natural numbers that a double can hold, and `2^1024` stands for `Infinity`. Below `2^53`
every natural number is such a value. -/

/-- The number of times `n` is halved until it is below `2^53`; `fuel` bounds the count. -/
def excessBits : Nat → Nat → Nat
  | 0, _ => 0
  | fuel + 1, n => if n < 9007199254740992 then 0 else excessBits fuel (n / 2) + 1

/-- The natural number with a significand of 53 bits that is nearest to `n`, the one with the
even significand when two are equally near: the rounding of every arithmetic result and of
every number that is read from text. -/
def toDouble (n : Nat) : Nat :=
  let e := excessBits n n
  let q := n / 2 ^ e
  let r := n % 2 ^ e
  if e = 0 then n
  else if 2 ^ (e - 1) < r ∨ (2 ^ (e - 1) = r ∧ q % 2 = 1) then (q + 1) * 2 ^ e
  else q * 2 ^ e

/-- The value that stands for `Infinity`: `2^1024`, the first power of two above the
doubles. -/
def infinity : Nat := 2 ^ 256 * 2 ^ 256 * 2 ^ 256 * 2 ^ 256

/-- The Number value of a natural number: its rounding, `Infinity` when that is out of the
range of the doubles. -/
def toNumber (n : Nat) : Nat := if infinity ≤ toDouble n then infinity else toDouble n

/-- The rounding of an integer, by its absolute value. -/
def roundInt (x : Int) : Int :=
  if x < 0 then -((toDouble x.natAbs : Nat) : Int) else ((toDouble x.toNat : Nat) : Int)

/-- The shortest decimal `c * 10^e` that is read as the double `v`, as `(c, e)`: the
exponents are tried from the given one downwards, and of two decimals with the same exponent
the one nearer to `v` is taken, the even one when both are equally near. -/
def shortestDecimal (v : Nat) : Nat → Nat × Nat
  | 0 => (v, 0)
  | e + 1 =>
    let lo := v / 10 ^ (e + 1)
    let r := v % 10 ^ (e + 1)
    let okLo := decide (0 < lo) && decide (toDouble (lo * 10 ^ (e + 1)) = v)
    let okHi := decide (toDouble ((lo + 1) * 10 ^ (e + 1)) = v)
    if okLo && okHi then
      if 2 * r < 10 ^ (e + 1) then (lo, e + 1)
      else if 10 ^ (e + 1) < 2 * r then (lo + 1, e + 1)
      else if lo % 2 = 0 then (lo, e + 1) else (lo + 1, e + 1)
    else if okLo then (lo, e + 1)
    else if okHi then (lo + 1, e + 1)
    else shortestDecimal v e

/-- The string of a number in a template literal (`Number::toString`, radix 10) for the
values held here: the decimal digits below `2^53`; above, the digits of the shortest decimal
that is read as the same double, followed by zeros up to 21 digits and in the form `d.ddde+n`
beyond; `Infinity`. -/
def numToString (v : Nat) : String :=
  if v < 9007199254740992 then toString v
  else if infinity ≤ v then "Infinity"
  else
    let d := (toString v).length
    let ce := shortestDecimal v d
    let s := toString ce.1
    let n := s.length + ce.2
    if n ≤ 21 then s ++ String.mk (List.replicate ce.2 '0')
    else if s.length = 1 then s ++ "e+" ++ toString (n - 1)
    else
      String.mk (s.toList.take 1) ++ "." ++ String.mk (s.toList.drop 1) ++ "e+" ++
        toString (n - 1)

/-- The integer that a run of decimal digits writes. -/
def digitsValue (digits : List Char) : Nat :=
  digits.foldl (fun n c => 10 * n + (c.toNat - '0'.toNat)) 0

/-- The call `parseInt(s)` on a run of decimal digits: the Number value of the integer that
the digits write, rounded as the engines do for every count of digits. -/
def parseInt (digits : List Char) : Nat := toNumber (digitsValue digits)

/-- The function `convertNag`, lines 767-794: the display symbol of a NAG code, the empty
string for a code that is not in the table. The callers pass `$` followed by digits; the
lookup `nagMap[nag]` is taken on the own keys of the table. -/
def convertNag (nag : String) : String :=
  match nag with
  | "$1" => "!"
  | "$2" => "?"
  | "$3" => "!!"
  | "$4" => "??"
  | "$5" => "!?"
  | "$6" => "?!"
  | "$10" => "="
  | "$11" => "="
  | "$13" => "∞"
  | "$14" => "⩲"
  | "$15" => "⩱"
  | "$16" => "±"
  | "$17" => "∓"
  | "$18" => "+−"
  | "$19" => "−+"
  | "$22" => "⨀"
  | "$32" => "⟳"
  | "$36" => "→"
  | "$40" => "↑"
  | "$44" => "=∞"
  | "$132" => "⇆"
  | "$138" => "⨁"
  | _ => ""

/-- The keys of the table `nagMap` of `convertNag`, lines 768-791. -/
def nagCodes : List String :=
  ["$1", "$2", "$3", "$4", "$5", "$6", "$10", "$11", "$13", "$14", "$15", "$16", "$17", "$18",
    "$19", "$22", "$32", "$36", "$40", "$44", "$132", "$138"]

/-- The function `cleanComment`, lines 863-870. -/
def cleanComment (text : List Char) : List Char :=
  if text.isEmpty then []
  else
    trim (replaceAll (directiveRe "cal") [] (replaceAll (directiveRe "csl") []
      (replaceAll (directiveRe "evp") [] text)))

/-- The names of the directives that `cleanComment` strips. -/
def directiveNames : List String := ["evp", "csl", "cal"]

/-- The text holds a directive of the given name: `[%name`, followed somewhere by `]`. -/
def hasDirective (name : String) (s : List Char) : Prop :=
  ∃ pre mid post, s = pre ++ (("[%" ++ name).toList ++ (mid ++ ']' :: post))

/-- The square brackets of the text are not nested: between two `[` stands a `]`. -/
def flatBrackets (s : List Char) : Prop :=
  ∀ pre mid post, s = pre ++ '[' :: (mid ++ '[' :: post) → ']' ∈ mid

/-- The check of `flatBrackets` by a scan of the text, from outside a bracket
(`inside = false`) or from inside one: no `[` is met inside a bracket. -/
def flatScan : Bool → List Char → Bool
  | _, [] => true
  | false, c :: rest => flatScan (c == '[') rest
  | true, c :: rest => if c = '[' then false else flatScan (c != ']') rest

/-- The function `escapeHtml`, lines 872-877. -/
def escapeHtml (text : List Char) : List Char :=
  replaceAll (lit '>') "&gt;".toList
    (replaceAll (lit '<') "&lt;".toList (replaceAll (lit '&') "&amp;".toList text))

/-- The function `findMatchingParen`, lines 834-861. The loop is
`for (let and = start; and < str.length; i++)` and its body begins with
`const char = str[i]`: the counter is declared under the name `and`, while the body, the
step and the `return i` read `i`, which no scope of the file declares. When the loop
condition holds, the first evaluation of the body therefore raises a ReferenceError;
otherwise the loop is skipped and the function returns `-1`. -/
def findMatchingParen (str : List Char) (start : Nat) : Except JsError Int :=
  if start < str.length then .error (.referenceError "i") else .ok (-1)

/-- The function `getVariationPreview`, lines 744-761. -/
def getVariationPreview (content : String) : String :=
  match matchStart previewRe content.toList with
  | none =>
    match matchStart moveOnlyRe content.toList with
    | some m => String.mk ((m.grp 1).getD [])
    | none => String.mk (slice content.toList 0 20) ++ "..."
  | some m =>
    let moveNum := String.mk ((m.grp 1).getD [])
    let dots := String.mk ((m.grp 2).getD [])
    let move := String.mk ((m.grp 3).getD [])
    let nag :=
      match m.grp 4 with
      | some g => if g.isEmpty then "" else convertNag (String.mk (trim g))
      | none => ""
    let annotation := String.mk ((m.grp 5).getD [])
    moveNum ++ dots ++ " " ++ move ++ nag ++ annotation

/-! ## The first move of a variation body -/

/-- The first move of a variation body, as the source text writes it: the move number, its
dots, white space, the SAN, then optionally one NAG (white space, `$`, digits) and the
annotation glyphs. -/
structure FirstMove where
  /-- The digits of the move number. -/
  number : List Char
  /-- The dots after the number. -/
  dots : List Char
  /-- The white space between the dots and the SAN. -/
  gap : List Char
  /-- The SAN of the move. -/
  san : List Char
  /-- The NAG directly after the SAN: the white space before `$` and the digits. -/
  nag : Option (List Char × List Char)
  /-- The glyphs `!` and `?` after the SAN or after the NAG. -/
  glyphs : List Char

/-- The text of an optional NAG: the white space, `$` and the digits. -/
def nagText (nag : Option (List Char × List Char)) : List Char :=
  match nag with
  | none => []
  | some (sp, ds) => sp ++ '$' :: ds

/-- The capture group 4 of the preview pattern for an optional NAG. -/
def nagCaps (nag : Option (List Char × List Char)) : Caps Char :=
  match nag with
  | none => []
  | some (sp, ds) => [(4, sp ++ '$' :: ds)]

/-- The text of a first move. -/
def FirstMove.text (f : FirstMove) : List Char :=
  f.number ++ (f.dots ++ (f.gap ++ (f.san ++ (nagText f.nag ++ f.glyphs))))

/-- The parts of a first move other than the SAN are what their names say. -/
def FirstMove.wellFormed (f : FirstMove) : Bool :=
  !f.number.isEmpty && f.number.all isDigit && !f.dots.isEmpty && f.dots.all (fun c => c == '.') &&
  f.gap.all isSpace &&
  (match f.nag with
   | none => true
   | some (sp, ds) => sp.all isSpace && !ds.isEmpty && ds.all isDigit) &&
  f.glyphs.all (fun c => c == '!' || c == '?')

/-- The label the preview is expected to show for a first move: number, dots, one space,
SAN, the symbol of the NAG, the glyphs. -/
def FirstMove.label (f : FirstMove) : String :=
  String.mk f.number ++ String.mk f.dots ++ " " ++ String.mk f.san ++
  (match f.nag with
   | none => ""
   | some (_, ds) => convertNag (String.mk ('$' :: ds))) ++
  String.mk f.glyphs

/-- The move that the move grammar reads at the start of a text: its match of first
priority, the SAN that the renderer and the preview take there. -/
def firstSan (s : List Char) : Option (List Char) :=
  (matchStart sanRe s).map (fun m => m.whole)

/-- Whether a NAG stands at the start of a text: white space, `$` and a digit. -/
def startsNag (s : List Char) : Bool :=
  match s.dropWhile isSpace with
  | '$' :: d :: _ => isDigit d
  | _ => false

/-- The parts of `f` are the parts of the first move of the text `f.text ++ tail`, each read
as far as it goes: the SAN is the move that the move grammar reads behind the white space;
the NAG, when there is one, holds all the digits at its place, and when there is none, no NAG
stands behind the SAN; the glyphs are all the glyphs at their place. Every text that starts
with a move number, dots and a move of the grammar is split in this way. -/
def endsFirstMove (f : FirstMove) (tail : List Char) : Bool :=
  (firstSan (f.san ++ (nagText f.nag ++ (f.glyphs ++ tail))) == some f.san) &&
  (match tail with
   | [] => true
   | c :: _ => !(c == '!' || c == '?')) &&
  (match f.nag with
   | some _ =>
     (match f.glyphs ++ tail with
      | [] => true
      | c :: _ => !isDigit c)
   | none => !startsNag (f.glyphs ++ tail))

/-! ## The mainline extractor -/

/-- The scan loop of `extractMainlineMoves`, lines 432-461:
`for (let and = 0; and < text.length; i++)` with the body starting at
`const char = text[i]`. As in `findMatchingParen` the counter is declared as `and` and the
body reads `i`, declared nowhere: for a non-empty `text` the first evaluation of the body
raises a ReferenceError; for an empty `text` the loop is skipped and the buffer `result`
stays empty. -/
def scanMainline (text : List Char) : Except JsError (List Char) :=
  if 0 < text.length then .error (.referenceError "i") else .ok []

/-- Lines 463-481 of `extractMainlineMoves`: the buffer `result` is freed of NAG tokens, of
the trailing result and of white-space runs, then the moves are collected with
`moveRegex`. -/
def collectMoves (result : List Char) : Except JsError (List String) :=
  let r1 := replaceAll nagStripRe [' '] result
  let r2 := replaceFirst resultStripRe [] r1
  let r3 := trim (replaceAll spacesRe [' '] r2)
  match execAllAux moveRegex 1 (r3.length + 1) r3 with
  | some ms => .ok (ms.map (fun m => String.mk (m.getD [])))
  | none => .error .outOfFuel

/-- The function `extractMainlineMoves`, lines 421-482. -/
def extractMainlineMoves (pgn : String) : Except JsError (List String) :=
  if pgn = "" then .ok []
  else
    let text := trim (replaceAll headerRe [] pgn.toList)
    match scanMainline text with
    | .error e => .error e
    | .ok result => collectMoves result

/-! ## The chess-rules collaborator -/

/-- What `game.move(san)` returns for an accepted move. -/
structure MoveResult where
  /-- The normalised SAN of the move, `result.san`. -/
  san : String
  /-- The square the piece leaves, `result.from`. -/
  src : String
  /-- The square the piece reaches, `result.to`. -/
  dst : String
  deriving DecidableEq, Repr

/-- The chess-rules collaborator (`chess.js`, not part of the repository), taken as a
parameter: positions of type `P`, the position of `new Chess()`, `game.fen()`,
`game.load(fen)` and `game.move(san)`; `move` answers `none` for a move it rejects, and the
game then keeps its position. -/
structure Rules (P : Type) where
  /-- The position of `new Chess()`. -/
  init : P
  /-- The FEN of a position, `game.fen()`. -/
  fen : P → String
  /-- The position of the game after `game.load(fen)`. -/
  load : P → String → P
  /-- The answer of `game.move(san)`: the move record and the new position, or `none`. -/
  move : P → String → Option (MoveResult × P)

/-! ## The renderer -/

/-- The markup units that `parseAndRenderPgn` appends to `html`. -/
inductive Node where
  /-- A comment: `<span class="move-comment">`. -/
  | comment (text : String) : Node
  /-- A variation block of `renderVariation`: the preview and the nested content. -/
  | variation (preview : String) (content : List Node) : Node
  /-- A move number: `<span class="move-number">`. -/
  | moveNumber (label : String) : Node
  /-- A NAG symbol: `<span class="move-nag">`. -/
  | nag (symbol : String) : Node
  /-- An accepted mainline move: `<span class="move-link" data-index data-fen>`. -/
  | mainMove (index : Nat) (fen : String) (label : String) : Node
  /-- An accepted variation move:
  `<span class="variation-move clickable" data-fen data-parent-fen>`. -/
  | varMove (fen : String) (parentFen : String) (label : String) : Node
  /-- A rejected move: `<span class="variation-move invalid">`, no data attribute. -/
  | invalid (label : String) : Node

mutual
/-- The markup string of a node, as the template literals of the source build it. -/
def Node.html : Node → String
  | .comment text =>
    "<span class=\"move-comment\">" ++ String.mk (escapeHtml text.toList) ++ "</span> "
  | .variation preview content =>
    "<div class=\"variation-line\"><span class=\"variation-toggle\">+</span>" ++
    "<span class=\"variation-header\">" ++ preview ++ "</span>" ++
    "<div class=\"variation-content\">" ++ Node.htmlList content ++ "</div></div>"
  | .moveNumber label => "<span class=\"move-number\">" ++ label ++ "</span>"
  | .nag symbol => "<span class=\"move-nag\">" ++ symbol ++ "</span>"
  | .mainMove index fen label =>
    "<span class=\"move-link\" data-index=\"" ++ toString index ++ "\" data-fen=\"" ++ fen ++
    "\">" ++ label ++ "</span> "
  | .varMove fen parentFen label =>
    "<span class=\"variation-move clickable\" data-fen=\"" ++ fen ++ "\" data-parent-fen=\"" ++
    parentFen ++ "\">" ++ label ++ "</span> "
  | .invalid label => "<span class=\"variation-move invalid\">" ++ label ++ "</span> "
/-- The markup string of a sequence of nodes. -/
def Node.htmlList : List Node → String
  | [] => ""
  | n :: rest => Node.html n ++ Node.htmlList rest
end

/-- The `data-fen` attribute of a node: the FEN after the move, for the nodes that carry
one. -/
def Node.fen? : Node → Option String
  | .mainMove _ fen _ => some fen
  | .varMove fen _ _ => some fen
  | _ => none

/-- The `data-index` attribute of a node: the ply index, for the nodes that carry one. -/
def Node.index? : Node → Option Nat
  | .mainMove index _ _ => some index
  | _ => none

/-- The `data-parent-fen` attribute of a node. -/
def Node.parentFen? : Node → Option String
  | .varMove _ parentFen _ => some parentFen
  | _ => none

/-- Whether the click handlers react to the node: its class list holds `move-link`, or
`variation-move` together with `clickable`. -/
def Node.clickable : Node → Bool
  | .mainMove _ _ _ => true
  | .varMove _ _ _ => true
  | _ => false

/-- The ply indices carried by a sequence of nodes, in order. -/
def mainIndices (nodes : List Node) : List Nat := nodes.filterMap Node.index?

/-- The local variables of one call of `parseAndRenderPgn`. -/
structure Scope (P : Type) where
  /-- The nodes appended to `html` so far. -/
  html : List Node
  /-- The cursor `pos`. -/
  pos : Nat
  /-- The counter `plyCount`. -/
  plyCount : Nat
  /-- The variable `lastShownMoveNum`. -/
  lastShownMoveNum : Nat
  /-- The position of the scope's `game`. -/
  game : P
  /-- The variable `lastFenBeforeMove`. -/
  lastFenBeforeMove : String

/-- Lines 594-606: the variables of a call with the given `startingFen` (`none` for
`null`); an empty string is falsy and loads nothing. -/
def startScope {P : Type} (R : Rules P) (startingFen : Option String) : Scope P :=
  let game :=
    match startingFen with
    | some f => if f = "" then R.init else R.load R.init f
    | none => R.init
  { html := [], pos := 0, plyCount := 0, lastShownMoveNum := 0, game := game,
    lastFenBeforeMove := R.fen game }

/-- Lines 644-656: a move-number token. `digits` is `numMatch[1]`, `dots` is
`numMatch[2]`, `len` the length of `numMatch[0]`. -/
def emitNumber {P : Type} (sc : Scope P) (pos : Nat) (digits dots : List Char) (len : Nat) :
    Scope P :=
  let moveNum := parseInt digits
  if 1 < dots.length then
    { sc with html := sc.html ++ [Node.moveNumber (numToString moveNum ++ "...")],
              pos := pos + len }
  else if moveNum ≠ sc.lastShownMoveNum then
    { sc with html := sc.html ++ [Node.moveNumber (numToString moveNum ++ ".")],
              lastShownMoveNum := moveNum, pos := pos + len }
  else { sc with pos := pos + len }

/-- Lines 668-674: a NAG token, `tok` is `nagMatch[0]`. -/
def emitNag {P : Type} (sc : Scope P) (pos : Nat) (tok : List Char) : Scope P :=
  let symbol := convertNag (String.mk tok)
  if symbol = "" then { sc with pos := pos + tok.length }
  else { sc with html := sc.html ++ [Node.nag symbol], pos := pos + tok.length }

/-- Lines 679-707: a SAN token `san` with its glyphs `annotation`; `len` is the length of
`moveMatch[0]`. -/
def emitMove {P : Type} (R : Rules P) (isVariation : Bool) (sc : Scope P) (pos : Nat)
    (san annotation : String) (len : Nat) : Scope P :=
  let lastFenBeforeMove := R.fen sc.game
  match R.move sc.game san with
  | some (moveResult, game) =>
    let fenAfterMove := R.fen game
    if isVariation then
      { sc with html := sc.html ++
                  [Node.varMove fenAfterMove lastFenBeforeMove (moveResult.san ++ annotation)],
                game := game, lastFenBeforeMove := lastFenBeforeMove, pos := pos + len }
    else
      { sc with html := sc.html ++
                  [Node.mainMove sc.plyCount fenAfterMove (moveResult.san ++ annotation)],
                plyCount := sc.plyCount + 1,
                game := game, lastFenBeforeMove := lastFenBeforeMove, pos := pos + len }
  | none =>
    { sc with html := sc.html ++ [Node.invalid (san ++ annotation)],
              lastFenBeforeMove := lastFenBeforeMove, pos := pos + len }

/-- Lines 643-711: the token at the cursor when it is neither a comment nor a variation;
`rest` is `movesText.slice(pos)`. -/
def emitToken {P : Type} (R : Rules P) (isVariation : Bool) (sc : Scope P) (pos : Nat)
    (rest : List Char) : Scope P :=
  match matchStart numRe rest with
  | some m => emitNumber sc pos ((m.grp 1).getD []) ((m.grp 2).getD []) m.whole.length
  | none =>
    match matchStart resRe rest with
    | some m => { sc with pos := pos + m.whole.length }
    | none =>
      match matchStart nagRe rest with
      | some m => emitNag sc pos m.whole
      | none =>
        match matchStart moveRe rest with
        | some m =>
          emitMove R isVariation sc pos (String.mk ((m.grp 1).getD []))
            (String.mk ((m.grp 2).getD [])) m.whole.length
        | none => { sc with pos := pos + 1 }

/-- Whether the token at the cursor is read as a move, line 678: the patterns of lines 643,
660 and 667 do not match and the move pattern does. -/
def readsMove (rest : List Char) : Bool :=
  (matchStart numRe rest).isNone && (matchStart resRe rest).isNone &&
    (matchStart nagRe rest).isNone && (matchStart moveRe rest).isSome

/-- The loop of `parseAndRenderPgn`, lines 608-714, with `renderVariation`, lines 722-738,
for the nested call. Each iteration and each nested call uses one unit of `fuel`. -/
def parseLoop {P : Type} (R : Rules P) (isVariation : Bool) :
    Nat → List Char → Scope P → Except JsError (List Node)
  | 0, _, _ => .error .outOfFuel
  | fuel + 1, movesText, sc =>
    let pos := sc.pos + ((movesText.drop sc.pos).takeWhile isSpace).length
    match movesText.drop pos with
    | [] => .ok sc.html
    | char :: after =>
      if char = '{' then
        match indexOfFrom movesText '}' pos with
        | none => .ok sc.html
        | some e =>
          let comment := cleanComment (trim (slice movesText (pos + 1) e))
          let html :=
            if comment.isEmpty then sc.html else sc.html ++ [Node.comment (String.mk comment)]
          parseLoop R isVariation fuel movesText { sc with html := html, pos := e + 1 }
      else if char = '(' then
        match findMatchingParen movesText pos with
        | .error err => .error err
        | .ok e =>
          if e = -1 then .ok sc.html
          else
            let varContent := trim (slice movesText (pos + 1) e.toNat)
            if varContent.isEmpty then
              parseLoop R isVariation fuel movesText { sc with pos := e.toNat + 1 }
            else
              match parseLoop R true fuel varContent (startScope R (some sc.lastFenBeforeMove)) with
              | .error err => .error err
              | .ok inner =>
                parseLoop R isVariation fuel movesText
                  { sc with html := sc.html ++
                              [Node.variation (getVariationPreview (String.mk varContent)) inner],
                            pos := e.toNat + 1 }
      else
        parseLoop R isVariation fuel movesText (emitToken R isVariation sc pos (char :: after))

/-- The nodes that `parseAndRenderPgn(movesText, isVariation, startingFen)` renders. -/
def parseNodes {P : Type} (R : Rules P) (movesText : String) (isVariation : Bool)
    (startingFen : Option String) : Except JsError (List Node) :=
  parseLoop R isVariation (movesText.length + 1) movesText.toList (startScope R startingFen)

/-- The function `parseAndRenderPgn`, lines 593-715: the markup string. -/
def parseAndRenderPgn {P : Type} (R : Rules P) (movesText : String) (isVariation : Bool)
    (startingFen : Option String) : Except JsError String :=
  (parseNodes R movesText isVariation startingFen).map Node.htmlList

/-- The variables of a scope other than `html` and the cursor. -/
def Scope.core {P : Type} (sc : Scope P) : Scope P := { sc with html := [], pos := 0 }

/-- Two results of the render loop that are the same error, or the same nodes behind the
nodes `H1` and `H2`. -/
def sameBehind (H1 H2 : List Node) (r1 r2 : Except JsError (List Node)) : Prop :=
  (∃ e, r1 = .error e ∧ r2 = .error e) ∨ (∃ t, r1 = .ok (H1 ++ t) ∧ r2 = .ok (H2 ++ t))

/-- The scan of a text for comments, from outside a comment (`inside = false`) or from
inside one: `{` opens a comment outside one, the first `}` behind it closes it. The result
tells whether the text ends outside a comment. -/
def braceScan : Bool → List Char → Bool
  | inside, [] => !inside
  | true, c :: rest => braceScan (c != '}') rest
  | false, c :: rest => braceScan (c == '{') rest

/-- Every comment that opens in the text closes in it: the end of the text is outside the
comments. -/
def closedComments (s : List Char) : Bool := braceScan false s

/-- The place between the texts `a` and `b` is a white-space position of `a ++ b`: it is an
end of the text, or white space stands directly before or directly behind it. -/
def whitespacePosition (a b : List Char) : Bool :=
  a.isEmpty || b.isEmpty ||
    (match a.getLast? with
     | some c => isSpace c
     | none => false) ||
    (match b.head? with
     | some c => isSpace c
     | none => false)

/-- The nodes of a comment of text `body`, lines 620-625: none when the cleaned text is
empty. -/
def commentNodes (body : List Char) : List Node :=
  if (cleanComment (trim body)).isEmpty then []
  else [Node.comment (String.mk (cleanComment (trim body)))]

/-- Two results of a rendering that differ by the nodes of one comment at most: both raise
the same error, or the second holds the nodes of the first, in their order, with the nodes
of the comment `body` between two of them. -/
def insertedComment (body : List Char) (r1 r2 : Except JsError (List Node)) : Prop :=
  (∃ e, r1 = .error e ∧ r2 = .error e) ∨
    (∃ pre post, r1 = .ok (pre ++ post) ∧ r2 = .ok (pre ++ (commentNodes body ++ post)))

/-! ## The board session -/

/-- A rendered move element, as far as the navigation reads it. -/
structure Element where
  /-- Its `textContent`. -/
  text : String
  /-- Its `data-fen`. -/
  fen : Option String
  /-- Its `data-parent-fen`. -/
  parentFen : Option String
  /-- Its `data-index`. -/
  index : Option Nat
  deriving DecidableEq, Repr

/-- What the chessboard widget was last asked to show. -/
inductive Shown where
  /-- The option `position: 'start'` of a new widget. -/
  | start : Shown
  /-- The argument of the last call `currentBoard.position(x)`; `none` is `undefined`. -/
  | arg (fen : Option String) : Shown
  deriving DecidableEq, Repr

/-- The move element that carries the class `active`. -/
inductive Active where
  /-- No element is marked. -/
  | none : Active
  /-- The mainline elements whose `data-index` is `k`. -/
  | ply (k : Nat) : Active
  /-- The variation element that was clicked. -/
  | clicked (e : Element) : Active
  deriving DecidableEq, Repr

/-- The module-level variables of `daily-exercises.js` that the viewer uses, with the
state of the page elements the navigation writes to. -/
structure Session where
  /-- The variable `currentBoard`: `none` is `null`. -/
  currentBoard : Option Shown
  /-- The variable `currentMoveIndex`. -/
  currentMoveIndex : Int
  /-- The variable `isInVariation`. -/
  isInVariation : Bool
  /-- The variable `lastClickedElement`. -/
  lastClickedElement : Option Element
  /-- The variable `mainlineMoves`. -/
  mainlineMoves : List String
  /-- The variable `mainlineFens`. -/
  mainlineFens : List String
  /-- The property `disabled` of the button `prevBtn`. -/
  prevDisabled : Bool
  /-- The property `disabled` of the button `nextBtn`. -/
  nextDisabled : Bool
  /-- The move element marked `active`. -/
  active : Active
  /-- The squares marked `highlight-from` and `highlight-to`. -/
  squares : Option (String × String)
  deriving DecidableEq, Repr

/-- The module state when the script is loaded, lines 23-35. -/
def Session.initial : Session :=
  { currentBoard := none, currentMoveIndex := 0, isInVariation := false,
    lastClickedElement := none, mainlineMoves := [], mainlineFens := [],
    prevDisabled := false, nextDisabled := false, active := Active.none, squares := none }

/-- The loop of `initializeChessBoard`, lines 497-505, over the extracted moves: the game,
`mainlineMoves` and `mainlineFens`. -/
def buildLoop {P : Type} (R : Rules P) :
    List String → P × List String × List String → P × List String × List String
  | [], acc => acc
  | move :: rest, (game, moves, fens) =>
    match R.move game move with
    | some (result, game2) => buildLoop R rest (game2, moves ++ [result.san], fens ++ [R.fen game2])
    | none => buildLoop R rest (game, moves, fens)

/-- Lines 493-505 of `initializeChessBoard`: `mainlineMoves` and `mainlineFens` for the
extracted moves. -/
def buildMainline {P : Type} (R : Rules P) (extractedMoves : List String) :
    List String × List String :=
  (buildLoop R extractedMoves (R.init, [], [R.fen R.init])).2

/-- The entry `mainlineFens[i]` of the array: `none` is `undefined`. -/
def fenAt (fens : List String) (i : Int) : Option String :=
  if i < 0 then none else fens.get? i.toNat

/-- The function `updateButtons`, lines 1145-1151. -/
def updateButtons (s : Session) : Session :=
  { s with prevDisabled := (s.currentMoveIndex == 0 && !s.isInVariation),
           nextDisabled := decide (s.currentMoveIndex ≥ s.mainlineMoves.length) }

/-- The function `updateMovesHighlight`, lines 1019-1037. -/
def updateMovesHighlight (s : Session) : Session :=
  match s.isInVariation, s.lastClickedElement with
  | true, some e => { s with active := Active.clicked e }
  | _, _ =>
    { s with active := if s.currentMoveIndex - 1 < 0 then Active.none
                       else Active.ply (s.currentMoveIndex - 1).toNat }

/-- The function `initializeChessBoard`, lines 488-525. An error raised inside the `try`
block is caught and logged, and the assignments after the point of the error do not take
place. -/
def initializeChessBoard {P : Type} (R : Rules P) (s : Session) (pgn : String) : Session :=
  match extractMainlineMoves pgn with
  | .error _ => s
  | .ok extractedMoves =>
    let built := buildMainline R extractedMoves
    updateButtons
      { s with mainlineMoves := built.1, mainlineFens := built.2,
               currentBoard := some Shown.start, currentMoveIndex := 0,
               isInVariation := false, lastClickedElement := none }

/-- The function `parseMoveSquares`, lines 990-1001. Its loop is
`for (let and = 0; and <= moveIndex; i++)` with the body starting at
`tempGame.move(mainlineMoves[i])`: as in `findMatchingParen` the body reads `i`, declared
nowhere, and raises a ReferenceError when the loop condition holds. -/
def parseMoveSquares (moveIndex : Int) : Except JsError (Option (String × String)) :=
  if 0 ≤ moveIndex then .error (.referenceError "i") else .ok none

/-- A command that ran on the session: the state it left and the error it raised, if any. -/
structure Ran where
  /-- The session after the command. -/
  state : Session
  /-- The error that ended the command. -/
  raised : Option JsError
  deriving DecidableEq, Repr

/-- The function `highlightLastMove`, lines 972-988. -/
def highlightLastMove (s : Session) (moveIndex : Int) : Ran :=
  let s1 := { s with squares := none }
  if moveIndex < 0 ∨ moveIndex ≥ s.mainlineMoves.length then { state := s1, raised := none }
  else
    match parseMoveSquares moveIndex with
    | .error err => { state := s1, raised := some err }
    | .ok none => { state := s1, raised := none }
    | .ok (some sq) => { state := { s1 with squares := some sq }, raised := none }

/-- The function `goToMove`, lines 883-895. The calls `updateMoveCounter` and
`scrollToActiveMove` touch the counter element and the scroll offset only. -/
def goToMove (s : Session) (index : Int) : Ran :=
  match s.currentBoard with
  | none => { state := s, raised := none }
  | some _ =>
    if index < 0 ∨ index ≥ s.mainlineMoves.length then { state := s, raised := none }
    else
      let s1 := { s with currentBoard := some (Shown.arg (fenAt s.mainlineFens (index + 1))),
                         currentMoveIndex := index + 1,
                         isInVariation := false }
      highlightLastMove (updateMovesHighlight (updateButtons s1)) index

/-- Lines 493-520 of `initializeChessBoard`, from the extracted moves on: the two lists, the
new widget and the reset of the navigation variables. -/
def loadMainline {P : Type} (R : Rules P) (s : Session) (extractedMoves : List String) :
    Session :=
  let built := buildMainline R extractedMoves
  updateButtons
    { s with mainlineMoves := built.1, mainlineFens := built.2,
             currentBoard := some Shown.start, currentMoveIndex := 0,
             isInVariation := false, lastClickedElement := none }

/-- The position the widget displays, as a FEN: after `position: 'start'` it is the position
of `new Chess()`, after `position(x)` it is `x`. -/
def Shown.fen {P : Type} (R : Rules P) : Shown → Option String
  | Shown.start => some (R.fen R.init)
  | Shown.arg x => x

/-- Whether a string value is falsy in a condition `!x`: `undefined` and the empty string. -/
def falsy : Option String → Bool
  | none => true
  | some t => t.toList.isEmpty

/-- Trailing annotations of a move element, line 940: `/[!?+#⩲⩱±∓∞=]+$/g`. -/
def glyphStripRe : Re Char := Re.seq (Re.plus (oneOf "!?+#⩲⩱±∓∞=")) Re.eos

/-- The function `clearMoveHighlights`, lines 1003-1007. -/
def clearMoveHighlights (s : Session) : Session := { s with squares := none }

/-- The function `clearAllMoveHighlights`, lines 1009-1017. -/
def clearAllMoveHighlights (s : Session) : Session :=
  { clearMoveHighlights s with active := Active.none }

/-- The function `highlightMoveFromElement`, lines 934-966: the squares of the move of the
clicked element, played from its parent FEN. What the `try` block raises is caught. -/
def highlightMoveFromElement {P : Type} (R : Rules P) (s : Session)
    (moveElement : Option Element) : Session :=
  let s1 := clearMoveHighlights s
  match moveElement with
  | none => s1
  | some e =>
    let moveSan := String.mk (trim (replaceAll glyphStripRe [] e.text.toList))
    if falsy e.parentFen then s1
    else
      match R.move (R.load R.init (e.parentFen.getD "")) moveSan with
      | some (result, _) => { s1 with squares := some (result.src, result.dst) }
      | none => s1

/-- The function `goToPosition`, lines 901-927. -/
def goToPosition {P : Type} (R : Rules P) (s : Session) (fen : Option String)
    (clickedElement : Option Element) : Ran :=
  match s.currentBoard with
  | none => { state := s, raised := none }
  | some _ =>
    if falsy fen then { state := s, raised := none }
    else
      let s1 := { s with currentBoard := some (Shown.arg fen), isInVariation := true }
      let s2 := clearAllMoveHighlights s1
      let s3 :=
        match clickedElement with
        | some e => { s2 with active := Active.clicked e, lastClickedElement := some e }
        | none => s2
      { state := updateButtons (highlightMoveFromElement R s3 clickedElement), raised := none }

/-- The function `resetBoard`, lines 1062-1072. -/
def resetBoard (s : Session) : Ran :=
  match s.currentBoard with
  | none => { state := s, raised := none }
  | some _ =>
    let s1 := { s with currentBoard := some (Shown.arg (fenAt s.mainlineFens 0)),
                       currentMoveIndex := 0, isInVariation := false,
                       lastClickedElement := none }
    { state := clearMoveHighlights (updateMovesHighlight (updateButtons s1)), raised := none }

/-- The function `previousMove`, lines 1074-1106. In the variation branch the call
`updateButtons()` of line 1089 stands after `highlightLastMove` and is not reached when
that call raises. -/
def previousMove (s : Session) : Ran :=
  match s.currentBoard with
  | none => { state := s, raised := none }
  | some _ =>
    if s.isInVariation then
      let s1 := { s with isInVariation := false, lastClickedElement := none,
                         currentBoard :=
                           some (Shown.arg (fenAt s.mainlineFens s.currentMoveIndex)) }
      let s2 := updateMovesHighlight s1
      if s2.currentMoveIndex > 0 then
        let r := highlightLastMove s2 (s2.currentMoveIndex - 1)
        match r.raised with
        | some _ => r
        | none => { state := updateButtons r.state, raised := none }
      else { state := updateButtons (clearMoveHighlights s2), raised := none }
    else if s.currentMoveIndex ≤ 0 then { state := s, raised := none }
    else
      let s1 := { s with currentMoveIndex := s.currentMoveIndex - 1,
                         currentBoard :=
                           some (Shown.arg (fenAt s.mainlineFens (s.currentMoveIndex - 1))) }
      let s2 := updateMovesHighlight (updateButtons s1)
      if s2.currentMoveIndex > 0 then highlightLastMove s2 (s2.currentMoveIndex - 1)
      else { state := clearMoveHighlights s2, raised := none }

/-- The function `nextMove`, lines 1108-1124. -/
def nextMove (s : Session) : Ran :=
  match s.currentBoard with
  | none => { state := s, raised := none }
  | some _ =>
    if s.currentMoveIndex ≥ s.mainlineMoves.length then { state := s, raised := none }
    else
      let s1 := if s.isInVariation then { s with isInVariation := false, lastClickedElement := none }
                else s
      let s2 := { s1 with currentMoveIndex := s1.currentMoveIndex + 1,
                          currentBoard :=
                            some (Shown.arg (fenAt s1.mainlineFens (s1.currentMoveIndex + 1))) }
      let s3 := updateMovesHighlight (updateButtons s2)
      highlightLastMove s3 (s3.currentMoveIndex - 1)

/-- The function `lastMove`, lines 1126-1138. -/
def lastMove (s : Session) : Ran :=
  match s.currentBoard with
  | none => { state := s, raised := none }
  | some _ =>
    if s.mainlineMoves.length = 0 then { state := s, raised := none }
    else
      let s1 := { s with isInVariation := false, lastClickedElement := none,
                         currentMoveIndex := s.mainlineMoves.length,
                         currentBoard :=
                           some (Shown.arg (fenAt s.mainlineFens s.mainlineMoves.length)) }
      let s3 := updateMovesHighlight (updateButtons s1)
      highlightLastMove s3 (s3.currentMoveIndex - 1)

/-! ## The navigation machine -/

/-- The navigation commands with their arguments. -/
inductive Command where
  /-- A click on a mainline move: `goToMove(index)`. -/
  | goToMove (index : Int) : Command
  /-- A click on a variation move: `goToPosition(fen, clickedElement)`. -/
  | goToPosition (fen : Option String) (clickedElement : Option Element) : Command
  /-- The button `prevBtn`. -/
  | previousMove : Command
  /-- The button `nextBtn`. -/
  | nextMove : Command
  /-- The button `resetBtn`. -/
  | resetBoard : Command
  /-- The button `lastBtn`. -/
  | lastMove : Command
  deriving DecidableEq, Repr

/-- One navigation command on the session. -/
def Command.run {P : Type} (R : Rules P) (s : Session) : Command → Ran
  | Command.goToMove index => SuperChessPrep.goToMove s index
  | Command.goToPosition fen clickedElement => SuperChessPrep.goToPosition R s fen clickedElement
  | Command.previousMove => SuperChessPrep.previousMove s
  | Command.nextMove => SuperChessPrep.nextMove s
  | Command.resetBoard => SuperChessPrep.resetBoard s
  | Command.lastMove => SuperChessPrep.lastMove s

/-- A sequence of navigation commands, each an event handler of its own: an error a command
raises ends that command, and the next one runs on the state it left. -/
def navigate {P : Type} (R : Rules P) (s : Session) (cmds : List Command) : Session :=
  cmds.foldl (fun t c => (c.run R t).state) s

/-- The sessions the page can reach: the state of the loaded script, then
`initializeChessBoard` on any PGN and navigation commands with any arguments. -/
inductive Reachable {P : Type} (R : Rules P) : Session → Prop where
  /-- The state when the script is loaded. -/
  | initial : Reachable R Session.initial
  /-- An exercise is opened. -/
  | load (s : Session) (pgn : String) : Reachable R s → Reachable R (initializeChessBoard R s pgn)
  /-- A navigation command. -/
  | step (s : Session) (c : Command) : Reachable R s → Reachable R (c.run R s).state

/-- The invariant of the navigation machine: the index lies within the mainline, and on a
loaded board the list of FENs is one longer than the list of moves, the widget shows
`mainlineFens[currentMoveIndex]` in mainline state, and the two buttons are what
`updateButtons` sets. -/
def Session.wellFormed {P : Type} (R : Rules P) (s : Session) : Prop :=
  0 ≤ s.currentMoveIndex ∧ s.currentMoveIndex ≤ s.mainlineMoves.length ∧
  ∀ b, s.currentBoard = some b →
    s.mainlineFens.length = s.mainlineMoves.length + 1 ∧
    (s.isInVariation = false → Shown.fen R b = fenAt s.mainlineFens s.currentMoveIndex) ∧
    s.prevDisabled = (s.currentMoveIndex == 0 && !s.isInVariation) ∧
    s.nextDisabled = decide (s.currentMoveIndex ≥ s.mainlineMoves.length)

/-- The two buttons match the navigation state: `prevBtn` is disabled exactly at index 0 in
mainline state, `nextBtn` exactly at the end of the mainline. -/
def Session.buttonsMatch (s : Session) : Prop :=
  (s.prevDisabled = true ↔ s.currentMoveIndex = 0 ∧ s.isInVariation = false) ∧
  (s.nextDisabled = true ↔ s.currentMoveIndex = s.mainlineMoves.length)

/-! ## The variation toggle -/

/-- The block `.variation-line` around a toggle, as far as `toggleVariation` reads it: the
inline `style.display` of its `.variation-content`, `none` when the block has no such
element. -/
structure VariationLine where
  /-- The inline `style.display` of the content element. -/
  content : Option String
  deriving DecidableEq, Repr

/-- The toggle element `.variation-toggle`: its text, whether it carries the class
`expanded`, and the block `el.closest('.variation-line')`, `none` for `null`. -/
structure ToggleEl where
  /-- Its `textContent`. -/
  text : String
  /-- Whether its class list holds `expanded`. -/
  expanded : Bool
  /-- The enclosing `.variation-line`. -/
  line : Option VariationLine
  deriving DecidableEq, Repr

/-- The toggle of a variation block as `renderVariation` writes it, lines 729-735: the label
`+`, no class `expanded`, a content element without inline style. -/
def renderedToggle : ToggleEl :=
  { text := "+", expanded := false, line := some { content := some "" } }

/-- The function `toggleVariation`, lines 800-828, on the session and the toggle element:
the function reads and writes the element and its block only. -/
def toggleVariation (s : Session) (el : ToggleEl) : Session × ToggleEl :=
  match el.line with
  | none => (s, el)
  | some line =>
    match line.content with
    | none => (s, el)
    | some display =>
      if display = "none" ∨ display = "" then
        (s, { text := "−", expanded := true, line := some { content := some "block" } })
      else
        (s, { text := "+", expanded := false, line := some { content := some "none" } })

/-- Whether the content of the block is collapsed, by the test of line 817. -/
def ToggleEl.collapsed (el : ToggleEl) : Option Bool :=
  el.line.bind (fun line => line.content.map (fun display => display = "none" ∨ display = ""))

/-! ## The pagination of `admin-pgn.js` -/

/-- An entry of the list that `getPageNumbers` returns: a page number or the text `'...'`. -/
inductive PageEntry where
  /-- A page number. -/
  | page (n : Int) : PageEntry
  /-- The entry `'...'`. -/
  | ellipsis : PageEntry
  deriving DecidableEq, Repr

/-- The loop `for (let i = start; i <= end; i++) pages.push(i)`, lines 804-806 and 819-821.
Each test of the condition uses one unit of `fuel`; `i++` adds 1 in double arithmetic. -/
def pushPages : Nat → Int → Int → List PageEntry → Except JsError (List PageEntry)
  | 0, _, _, _ => .error .outOfFuel
  | fuel + 1, i, stop, pages =>
    if i ≤ stop then pushPages fuel (roundInt (i + 1)) stop (pages ++ [PageEntry.page i])
    else .ok pages

/-- The function `getPageNumbers` of `admin-pgn.js`, lines 798-832, on the module variables
`totalPages` and `currentPage`, which hold integers; the sums and differences are rounded as
double arithmetic rounds them. -/
def getPageNumbers (fuel : Nat) (totalPages currentPage : Int) :
    Except JsError (List PageEntry) :=
  let maxVisible : Int := 5
  if totalPages ≤ maxVisible + 2 then pushPages fuel 1 totalPages []
  else
    let pages := [PageEntry.page 1] ++ (if currentPage > 3 then [PageEntry.ellipsis] else [])
    let start := max 2 (roundInt (currentPage - 1))
    let stop := min (roundInt (totalPages - 1)) (roundInt (currentPage + 1))
    match pushPages fuel start stop pages with
    | .error e => .error e
    | .ok pages2 =>
      .ok (pages2 ++
        (if currentPage < roundInt (totalPages - 2) then [PageEntry.ellipsis] else []) ++
        [PageEntry.page totalPages])

/-- The pages from `start` to `stop`, in order. -/
def pagesFromTo (start stop : Int) : List PageEntry :=
  (List.range (stop + 1 - start).toNat).map (fun (k : Nat) => PageEntry.page (start + (k : Int)))

/-- The list of `getPageNumbers` in exact arithmetic, in closed form. -/
def pageList (totalPages currentPage : Int) : List PageEntry :=
  let maxVisible : Int := 5
  if totalPages ≤ maxVisible + 2 then pagesFromTo 1 totalPages
  else
    let start := max 2 (currentPage - 1)
    let stop := min (totalPages - 1) (currentPage + 1)
    [PageEntry.page 1] ++ (if currentPage > 3 then [PageEntry.ellipsis] else []) ++
      pagesFromTo start stop ++
      (if currentPage < totalPages - 2 then [PageEntry.ellipsis] else []) ++
      [PageEntry.page totalPages]

/-- A list of entries in which the page numbers that stand next to each other are
consecutive, and an ellipsis stands between two page numbers, which are not consecutive;
the list starts and ends with a page number. -/
def wellSpaced : List PageEntry → Prop
  | [PageEntry.page _] => True
  | PageEntry.page a :: PageEntry.page b :: rest =>
    b = a + 1 ∧ wellSpaced (PageEntry.page b :: rest)
  | PageEntry.page a :: PageEntry.ellipsis :: PageEntry.page b :: rest =>
    a + 1 < b ∧ wellSpaced (PageEntry.page b :: rest)
  | _ => False

/-- The page numbers of a list of entries, in order. -/
def pagesOf : List PageEntry → List Int
  | [] => []
  | PageEntry.page n :: rest => n :: pagesOf rest
  | PageEntry.ellipsis :: rest => pagesOf rest

/-! ## The store of `state-manager.js` -/

/-- The values of the store: JSON-like values and `undefined`. An array carries its items
and the properties written to it under names that are not indices. Properties that the
prototypes define (`length`, `toString`, ...) are not part of the model: the keys of the
store are taken to be other names. -/
inductive JVal where
  /-- The value `undefined`. -/
  | undefined : JVal
  /-- The value `null`. -/
  | null : JVal
  /-- A boolean. -/
  | bool (b : Bool) : JVal
  /-- A number (the integers suffice here). -/
  | num (n : Int) : JVal
  /-- A string. -/
  | str (s : String) : JVal
  /-- An array. -/
  | arr (items : List JVal) (props : List (String × JVal)) : JVal
  /-- A plain object: its own properties in the order of insertion. -/
  | obj (fields : List (String × JVal)) : JVal

/-- The value of the property `k` among the own properties `fields`, `undefined` when there
is none. -/
def lookupField (fields : List (String × JVal)) (k : String) : JVal :=
  match fields with
  | [] => JVal.undefined
  | (name, v) :: rest => if name = k then v else lookupField rest k

/-- The own properties after the assignment of `v` to the property `k`. -/
def assignField (fields : List (String × JVal)) (k : String) (v : JVal) :
    List (String × JVal) :=
  match fields with
  | [] => [(k, v)]
  | (name, w) :: rest => if name = k then (name, v) :: rest else (name, w) :: assignField rest k v

/-- The array index that the property name `k` stands for, if it is one (`"0"`, `"12"`,
not `"01"`). -/
def arrayIndex (k : String) : Option Nat :=
  match k.toList with
  | [] => none
  | ['0'] => some 0
  | c :: rest =>
    if c ≠ '0' ∧ (c :: rest).all (fun d => '0' ≤ d && d ≤ '9') then
      some ((c :: rest).foldl (fun n d => 10 * n + (d.toNat - '0'.toNat)) 0)
    else none

/-- The items of an array after the assignment of `v` to the index `i`: the array grows by
holes, which read as `undefined`. -/
def assignItem (items : List JVal) (i : Nat) (v : JVal) : List JVal :=
  if i < items.length then items.set i v
  else items ++ List.replicate (i - items.length) JVal.undefined ++ [v]

/-- Whether a value is `null` or `undefined`. -/
def JVal.isNullish : JVal → Bool
  | JVal.undefined => true
  | JVal.null => true
  | _ => false

/-- Whether a value is `undefined` (the test `x === undefined`). -/
def JVal.isUndefined : JVal → Bool
  | JVal.undefined => true
  | _ => false

/-- The read `value[k]`: a TypeError on `null` and `undefined`, `undefined` on the other
primitive values. -/
def JVal.read (value : JVal) (k : String) : Except JsError JVal :=
  match value with
  | JVal.undefined => .error .typeError
  | JVal.null => .error .typeError
  | JVal.obj fields => .ok (lookupField fields k)
  | JVal.arr items props =>
    match arrayIndex k with
    | some i => .ok (items.getD i JVal.undefined)
    | none => .ok (lookupField props k)
  | _ => .ok JVal.undefined

/-- The write `target[k] = v` in strict mode: a TypeError on `null`, `undefined` and the
other primitive values. -/
def JVal.write (target : JVal) (k : String) (v : JVal) : Except JsError JVal :=
  match target with
  | JVal.obj fields => .ok (JVal.obj (assignField fields k v))
  | JVal.arr items props =>
    match arrayIndex k with
    | some i => .ok (JVal.arr (assignItem items i v) props)
    | none => .ok (JVal.arr items (assignField props k v))
  | _ => .error .typeError

mutual
/-- The function `deepClone`, lines 92-104: arrays are copied by `map`, plain objects
property by property. -/
def deepClone : JVal → JVal
  | JVal.arr items _ => JVal.arr (deepCloneItems items) []
  | JVal.obj fields => JVal.obj (deepCloneFields fields)
  | v => v
/-- The clones of the items of an array. -/
def deepCloneItems : List JVal → List JVal
  | [] => []
  | v :: rest => deepClone v :: deepCloneItems rest
/-- The clones of the properties of an object. -/
def deepCloneFields : List (String × JVal) → List (String × JVal)
  | [] => []
  | (k, v) :: rest => (k, deepClone v) :: deepCloneFields rest
end

mutual
/-- Whether a value is JSON-like: no `undefined` in it, and no array with properties other
than its items. -/
def JVal.jsonLike : JVal → Bool
  | JVal.undefined => false
  | JVal.arr items props => jsonLikeItems items && props.isEmpty
  | JVal.obj fields => jsonLikeFields fields
  | _ => true
/-- Whether the items of an array are JSON-like. -/
def jsonLikeItems : List JVal → Bool
  | [] => true
  | v :: rest => v.jsonLike && jsonLikeItems rest
/-- Whether the property values of an object are JSON-like. -/
def jsonLikeFields : List (String × JVal) → Bool
  | [] => true
  | (_, v) :: rest => v.jsonLike && jsonLikeFields rest
end

/-- The call `key.split('.')` on the characters of the key. -/
def splitDots : List Char → List String
  | [] => [""]
  | c :: rest =>
    match splitDots rest with
    | [] => [String.mk [c]]
    | seg :: segs => if c = '.' then "" :: seg :: segs else String.mk (c :: seg.toList) :: segs

/-- The walk of `getState`, lines 141-148, from `value` along the keys. -/
def getPath : JVal → List String → JVal
  | value, [] => deepClone value
  | value, k :: ks =>
    if value.isNullish then JVal.undefined
    else
      match value.read k with
      | .ok next => getPath next ks
      | .error _ => JVal.undefined

/-- The method `getState`, lines 137-149. -/
def getState (state : JVal) (key : String) : JVal :=
  if key = "" then deepClone state else getPath state (splitDots key.toList)

/-- Lines 165-172 of `setState`: the walk along `keys`, which creates the objects that are
missing, and the assignment to `lastKey`. The result is the target with the assignment made
(the code changes the objects in place) and the value that `lastKey` held before. -/
def setPath : JVal → List String → String → JVal → Except JsError (JVal × JVal)
  | target, [], lastKey, value => do
    let oldValue ← target.read lastKey
    let target2 ← target.write lastKey value
    pure (target2, oldValue)
  | target, k :: ks, lastKey, value => do
    let current ← target.read k
    let target1 ← if current.isUndefined then target.write k (JVal.obj []) else pure target
    let next := if current.isUndefined then JVal.obj [] else current
    let (next2, oldValue) ← setPath next ks lastKey value
    let target2 ← target1.write k next2
    pure (target2, oldValue)

/-- The comparison `oldValue !== value` of line 180: primitive values are compared by value;
an object or array passed to `setState` is a value of its own, not the one the store
holds. -/
def strictNe : JVal → JVal → Bool
  | JVal.undefined, JVal.undefined => false
  | JVal.null, JVal.null => false
  | JVal.bool a, JVal.bool b => a != b
  | JVal.num a, JVal.num b => a != b
  | JVal.str a, JVal.str b => a != b
  | _, _ => true

/-- A call of `setState`: the store it leaves and the value it returns or the error it
raises. -/
structure StoreRun where
  /-- The store after the call. -/
  store : JVal
  /-- The value returned, or the error raised. -/
  result : Except JsError JVal

/-- The method `setState` on the path `keys` and the last key, lines 165-190. The
subscribers are taken not to write to the store; what they raise is caught, lines 69-73.
The loop of line 184 is `for (let and = keys.length - 1; and >= 0; i--)`: when `keys` is not
empty the body runs once and the step `i--` reads `i`, declared nowhere, which raises a
ReferenceError after the assignment was made. -/
def setStateAt (state : JVal) (keys : List String) (lastKey : String) (value : JVal)
    (silent : Bool) : StoreRun :=
  match setPath state keys lastKey value with
  | .error err => { store := state, result := .error err }
  | .ok (state2, oldValue) =>
    if !silent && strictNe oldValue value then
      if (keys.length : Int) - 1 ≥ 0 then
        { store := state2, result := .error (.referenceError "i") }
      else { store := state2, result := .ok value }
    else { store := state2, result := .ok value }

/-- The method `setState(key, value, { silent })`, lines 159-191. -/
def setState (state : JVal) (key : String) (value : JVal) (silent : Bool) : StoreRun :=
  let keys := splitDots key.toList
  setStateAt state keys.dropLast (keys.getLast?.getD "") value silent

/-- The store when the script is loaded, lines 26-51. -/
def initialStore : JVal :=
  JVal.obj
    [("user", JVal.null), ("token", JVal.null), ("isAuthenticated", JVal.bool false),
     ("subscription", JVal.obj [("tier", JVal.str "free"), ("status", JVal.str "inactive"),
        ("expiresAt", JVal.null)]),
     ("loading", JVal.obj []), ("errors", JVal.obj []), ("modals", JVal.obj []),
     ("cache", JVal.obj [("exercises", JVal.null), ("videos", JVal.null),
        ("topics", JVal.null), ("lastFetch", JVal.obj [])])]

/-! ## A collaborator for concrete runs -/

/-- A small collaborator for concrete runs: a position is the list of the moves played,
its FEN text lists them after the word `start`, every SAN is accepted except a queen move,
and `load` sets up the empty list. -/
def sampleRules : Rules (List String) where
  init := []
  fen := fun p => String.intercalate " " ("start" :: p)
  load := fun _ _ => []
  move := fun p san =>
    if san.toList.contains 'Q' then none
    else some ({ san := san, src := "", dst := "" }, p ++ [san])

/-- A loaded session for concrete runs: two mainline moves, the viewer in variation state
at ply 0. -/
def sampleSession : Session :=
  { currentBoard := some Shown.start, currentMoveIndex := 0, isInVariation := true,
    lastClickedElement := none, mainlineMoves := ["e4", "e5"],
    mainlineFens := ["start", "start e4", "start e4 e5"],
    prevDisabled := false, nextDisabled := false, active := Active.none, squares := none }

/-- A variation move element for concrete runs: `d4` played from the start position. -/
def sampleElement : Element :=
  { text := "d4!", fen := some "start d4", parentFen := some "start", index := none }

/-- A loaded session in variation state at the end of its mainline of two moves: the board
shows the position of the clicked variation move. -/
def sampleSessionAtEnd : Session :=
  { currentBoard := some (Shown.arg (some "start d4")), currentMoveIndex := 2,
    isInVariation := true, lastClickedElement := some sampleElement,
    mainlineMoves := ["e4", "e5"], mainlineFens := ["start", "start e4", "start e4 e5"],
    prevDisabled := false, nextDisabled := true, active := Active.clicked sampleElement,
    squares := some ("", "") }

/-- A loaded session whose mainline has no accepted move, in variation state: the board shows
the position of the clicked variation move. -/
def sampleSessionNoMoves : Session :=
  { currentBoard := some (Shown.arg (some "start d4")), currentMoveIndex := 0,
    isInVariation := true, lastClickedElement := some sampleElement,
    mainlineMoves := [], mainlineFens := ["start"],
    prevDisabled := false, nextDisabled := true, active := Active.clicked sampleElement,
    squares := some ("", "") }

/-- The scope of the top-level call on `1. e4 e5 2. Qh8#??` with `sampleRules` when the
cursor reaches the token `Qh8#??`. -/
def sampleScope : Scope (List String) :=
  { html := [Node.moveNumber "1.", Node.mainMove 0 "start e4" "e4",
      Node.mainMove 1 "start e4 e5" "e5", Node.moveNumber "2."],
    pos := 12, plyCount := 2, lastShownMoveNum := 2, game := ["e4", "e5"],
    lastFenBeforeMove := "start e4" }

/-- The first move `1. d4` of the body `1. d4 d5`. -/
def sampleFirstMove : FirstMove :=
  { number := ['1'], dots := ['.'], gap := [' '], san := ['d', '4'], nag := none, glyphs := [] }

/-- The first move `12...Nxe4+ $16!?` with a NAG and glyphs. -/
def sampleFirstMoveNag : FirstMove :=
  { number := ['1', '2'], dots := ['.', '.', '.'], gap := [], san := "Nxe4+".toList,
    nag := some ([' '], ['1', '6']), glyphs := ['!', '?'] }

deriving instance DecidableEq for Except

/-! ## Matches consume input -/

/-- Every result of the quantifier loop leaves at most the input it was given. -/
theorem Re.starAux_length_le {α : Type} (step : MState α → List (MState α))
    (fuel : Nat) (st st2 : MState α)
    (h : st2 ∈ Re.starAux step fuel st) : st2.1.length ≤ st.1.length := by
  induction fuel generalizing st with
  | zero =>
    simp only [Re.starAux, List.mem_singleton] at h
    rw [h]
  | succ n ih =>
    simp only [Re.starAux, List.mem_append, List.mem_flatMap, List.mem_filter,
      List.mem_singleton] at h
    rcases h with ⟨x, ⟨_, hx2⟩, hx3⟩ | h
    · have := ih x hx3
      have h4 : x.1.length < st.1.length := by simpa using hx2
      omega
    · rw [h]

/-- A match never leaves more input than it was given. -/
theorem Re.run_length_le {α : Type} (r : Re α) (st st2 : MState α) (h : st2 ∈ Re.run r st) :
    st2.1.length ≤ st.1.length := by
  induction r generalizing st st2 with
  | eps =>
    simp only [Re.run, List.mem_singleton] at h
    rw [h]
  | chr p =>
    obtain ⟨s, c⟩ := st
    cases s with
    | nil => simp [Re.run] at h
    | cons a t =>
      simp only [Re.run] at h
      split at h
      · simp only [List.mem_singleton] at h
        rw [h]; simp
      · simp at h
  | seq a b iha ihb =>
    simp only [Re.run, List.mem_flatMap] at h
    obtain ⟨x, hx1, hx2⟩ := h
    exact le_trans (ihb x st2 hx2) (iha st x hx1)
  | alt a b iha ihb =>
    simp only [Re.run, List.mem_append] at h
    rcases h with h | h
    · exact iha st st2 h
    · exact ihb st st2 h
  | opt a iha =>
    simp only [Re.run, List.mem_append, List.mem_filter, List.mem_singleton] at h
    rcases h with ⟨h, _⟩ | h
    · exact iha st st2 h
    · rw [h]
  | star a _ =>
    simp only [Re.run] at h
    exact Re.starAux_length_le _ _ _ _ h
  | group n a iha =>
    simp only [Re.run, List.mem_map] at h
    obtain ⟨x, hx1, hx2⟩ := h
    rw [← hx2]
    exact iha st x hx1
  | eos =>
    simp only [Re.run] at h
    split at h
    · simp only [List.mem_singleton] at h
      rw [h]
    · simp at h

/-- A pattern that cannot match the empty string consumes input in every match. -/
theorem Re.run_length_lt {α : Type} (r : Re α) (st st2 : MState α) (hn : r.nullable = false)
    (h : st2 ∈ Re.run r st) : st2.1.length < st.1.length := by
  induction r generalizing st st2 with
  | eps => simp [Re.nullable] at hn
  | chr p =>
    obtain ⟨s, c⟩ := st
    cases s with
    | nil => simp [Re.run] at h
    | cons a t =>
      simp only [Re.run] at h
      split at h
      · simp only [List.mem_singleton] at h
        rw [h]; simp
      · simp at h
  | seq a b iha ihb =>
    simp only [Re.run, List.mem_flatMap] at h
    obtain ⟨x, hx1, hx2⟩ := h
    simp only [Re.nullable, Bool.and_eq_false_iff] at hn
    rcases hn with hn | hn
    · exact lt_of_le_of_lt (Re.run_length_le b x st2 hx2) (iha st x hn hx1)
    · exact lt_of_lt_of_le (ihb x st2 hn hx2) (Re.run_length_le a st x hx1)
  | alt a b iha ihb =>
    simp only [Re.run, List.mem_append] at h
    simp only [Re.nullable, Bool.or_eq_false_iff] at hn
    rcases h with h | h
    · exact iha st st2 hn.1 h
    · exact ihb st st2 hn.2 h
  | opt a _ => simp [Re.nullable] at hn
  | star a _ => simp [Re.nullable] at hn
  | group n a iha =>
    simp only [Re.run, List.mem_map] at h
    obtain ⟨x, hx1, hx2⟩ := h
    rw [← hx2]
    exact iha st x (by simpa [Re.nullable] using hn) hx1
  | eos => simp [Re.nullable] at hn

/-- The text of a match at the start of `s` is a prefix of `s`. -/
theorem matchStart_whole {α : Type} (r : Re α) (s : List α) (m : Match α)
    (h : matchStart r s = some m) :
    ∃ rest caps, (rest, caps) ∈ Re.run r (s, []) ∧ m.whole = s.take (s.length - rest.length) ∧
      m.caps = caps ∧ (Re.run r (s, [])).head? = some (rest, caps) := by
  unfold matchStart at h
  cases hr : (Re.run r (s, [])).head? with
  | none => simp [hr] at h
  | some st =>
    obtain ⟨rest, caps⟩ := st
    simp only [hr, Option.map_some', Option.some.injEq] at h
    refine ⟨rest, caps, List.mem_of_mem_head? hr, ?_, ?_, rfl⟩
    · rw [← h]
    · rw [← h]

/-- A match of a pattern that cannot match the empty string has at least one character and
at most the characters of the input. -/
theorem matchStart_length {α : Type} (r : Re α) (s : List α) (m : Match α)
    (hn : r.nullable = false) (h : matchStart r s = some m) :
    1 ≤ m.whole.length ∧ m.whole.length ≤ s.length := by
  obtain ⟨rest, caps, hmem, hw, _, _⟩ := matchStart_whole r s m h
  have := Re.run_length_lt r (s, []) (rest, caps) hn hmem
  simp only at this
  rw [hw, List.length_take]
  omega

/-- A leftmost match lies inside the input. -/
theorem search_length {α : Type} (r : Re α) (s before : List α) (m : Match α)
    (h : search r s = some (before, m)) :
    before.length + m.whole.length ≤ s.length := by
  induction s generalizing before with
  | nil =>
    simp only [search, Option.map_eq_some'] at h
    obtain ⟨m2, hm2, he⟩ := h
    simp only [Prod.mk.injEq] at he
    obtain ⟨rest, caps, _, hw, _, _⟩ := matchStart_whole r [] m2 hm2
    rw [← he.1, ← he.2, hw]
    simp
  | cons c t ih =>
    simp only [search] at h
    split at h
    · rename_i m2 hm2
      simp only [Option.some.injEq, Prod.mk.injEq] at h
      obtain ⟨rest, caps, _, hw, _, _⟩ := matchStart_whole r (c :: t) m2 hm2
      rw [← h.1, ← h.2, hw]
      simp only [List.length_nil, Nat.zero_add, List.length_take]
      omega
    · simp only [Option.map_eq_some'] at h
      obtain ⟨x, hx, he⟩ := h
      obtain ⟨x1, x2⟩ := x
      simp only [Prod.mk.injEq] at he
      have := ih x1 (by rw [← he.2]; exact hx)
      rw [← he.1]
      simp only [List.length_cons]
      omega

/-- The `exec` loop of a pattern that cannot match the empty string ends within the fuel of
the length of the input. -/
theorem execAllAux_returns {α : Type} (r : Re α) (hn : r.nullable = false) (n fuel : Nat)
    (s : List α) (hf : s.length < fuel) : execAllAux r n fuel s ≠ none := by
  induction fuel generalizing s with
  | zero => omega
  | succ k ih =>
    unfold execAllAux
    split
    · simp
    · rename_i before m hs
      have hlen := search_length r s before m hs
      split
      · rename_i hw
        exfalso
        -- the match is not empty
        have : ∃ t, matchStart r t = some m := by
          clear ih hf hlen
          induction s generalizing before with
          | nil =>
            simp only [search, Option.map_eq_some'] at hs
            obtain ⟨m2, hm2, he⟩ := hs
            simp only [Prod.mk.injEq] at he
            exact ⟨[], by rw [← he.2]; exact hm2⟩
          | cons c t ih2 =>
            simp only [search] at hs
            split at hs
            · rename_i m2 hm2
              simp only [Option.some.injEq, Prod.mk.injEq] at hs
              exact ⟨c :: t, by rw [← hs.2]; exact hm2⟩
            · simp only [Option.map_eq_some'] at hs
              obtain ⟨x, hx, he⟩ := hs
              obtain ⟨x1, x2⟩ := x
              simp only [Prod.mk.injEq] at he
              exact ih2 x1 (by rw [← he.2]; exact hx)
        obtain ⟨t, ht⟩ := this
        have := (matchStart_length r t m hn ht).1
        rw [hw] at this
        simp at this
      · rename_i a l hw
        have h1 : (s.drop (before.length + m.whole.length)).length < k := by
          rw [List.length_drop]
          rw [hw] at hlen ⊢
          simp only [List.length_cons] at hlen ⊢
          omega
        have := ih _ h1
        cases hr : execAllAux r n k (s.drop (before.length + m.whole.length)) with
        | none => exact absurd hr this
        | some v => simp

/-- The collection of the moves from the buffer never uses up its fuel. -/
theorem collectMoves_returns (result : List Char) : collectMoves result ≠ .error .outOfFuel := by
  unfold collectMoves
  simp only []
  split
  · simp
  · rename_i h
    exact absurd h (execAllAux_returns moveRegex (by rfl) 1 _ _ (by omega))

/-! ## The counting loops -/

/-- The scan loop of the extractor raises on every non-empty text. -/
theorem scanMainline_raises (text : List Char) (h : text ≠ []) :
    scanMainline text = .error (.referenceError "i") := by
  unfold scanMainline
  have : 0 < text.length := List.length_pos.mpr h
  simp [this]

/-- The extractor raises as soon as the text left after the header tags is not blank. -/
theorem extractor_raises_of_text (pgn : String) (h0 : pgn ≠ "")
    (h : trim (replaceAll headerRe [] pgn.toList) ≠ []) :
    extractMainlineMoves pgn = .error (.referenceError "i") := by
  unfold extractMainlineMoves
  simp only [h0, if_false]
  rw [scanMainline_raises _ h]

/-- When the extractor raises, `initializeChessBoard` leaves the session as it was. -/
theorem initializeChessBoard_of_raise {P : Type} (R : Rules P) (s : Session) (pgn : String)
    (e : JsError) (h : extractMainlineMoves pgn = .error e) :
    initializeChessBoard R s pgn = s := by
  unfold initializeChessBoard
  rw [h]

/-- C1, as the code behaves: for the text `1. e4` the top-level render emits one mainline
move node (index 0), while `extractMainlineMoves` raises a ReferenceError, so that
`initializeChessBoard` leaves `mainlineMoves` and `mainlineFens` as they were at load time,
empty: the render and the mainline record do not agree. -/
theorem render_vs_mainline_on_e4 :
    parseNodes sampleRules "1. e4" false (some "start")
      = .ok [Node.moveNumber "1.", Node.mainMove 0 "start e4" "e4"] ∧
    extractMainlineMoves "1. e4" = .error (.referenceError "i") ∧
    (initializeChessBoard sampleRules Session.initial "1. e4").mainlineMoves = [] ∧
    (initializeChessBoard sampleRules Session.initial "1. e4").mainlineFens = [] := by
  refine ⟨by rfl, by decide, by decide, by decide⟩

/-- C2, as the code behaves: on every PGN whose text after the header tags is not blank,
`extractMainlineMoves` raises a ReferenceError (the scan loop reads the undeclared `i`)
and returns no move list. -/
theorem extractMainlineMoves_raises (pgn : String) (h0 : pgn ≠ "")
    (h : trim (replaceAll headerRe [] pgn.toList) ≠ []) :
    extractMainlineMoves pgn = .error (.referenceError "i") :=
  extractor_raises_of_text pgn h0 h

/-- Scenario A of the spec, `1. e4 e5 2. Nf3`: the extractor raises. -/
theorem extractMainlineMoves_raises_scenarioA :
    "1. e4 e5 2. Nf3" ≠ "" ∧ trim (replaceAll headerRe [] "1. e4 e5 2. Nf3".toList) ≠ [] ∧
    extractMainlineMoves "1. e4 e5 2. Nf3" = .error (.referenceError "i") :=
  ⟨by decide, by decide, extractMainlineMoves_raises "1. e4 e5 2. Nf3" (by decide) (by decide)⟩

/-- C3, as the code behaves: a blank text is extracted to the empty list, the same text
with the comment `{note (see also) here}` inserted raises a ReferenceError, and so does
scenario E of the spec. -/
theorem extract_comment_insertion :
    extractMainlineMoves " " = .ok [] ∧
    extractMainlineMoves " \x7bnote (see also) here\x7d" = .error (.referenceError "i") ∧
    extractMainlineMoves "1. e4 \x7bnote (see also) here\x7d e5" = .error (.referenceError "i") := by
  refine ⟨by decide, by decide, by decide⟩

/-- C4, as the code behaves: a blank text is extracted to the empty list, the same text
with the variation `(1. d4 d5)` inserted raises a ReferenceError, and so does the text
`1. e4 (1. d4 d5) e5` of the claim. -/
theorem extract_variation_insertion :
    extractMainlineMoves " " = .ok [] ∧
    extractMainlineMoves " (1. d4 d5)" = .error (.referenceError "i") ∧
    extractMainlineMoves "1. e4 (1. d4 d5) e5" = .error (.referenceError "i") := by
  refine ⟨by decide, by decide, by decide⟩

/-- C6, as the code behaves: whenever the cursor of `parseAndRenderPgn`, after the white
space, stands on `(`, the call raises a ReferenceError (from `findMatchingParen`) instead of
parsing the variation, whatever the scope, the text and the collaborator. -/
theorem parseLoop_raises_at_paren {P : Type} (R : Rules P) (isVariation : Bool) (fuel : Nat)
    (movesText after : List Char) (sc : Scope P)
    (h : movesText.drop (sc.pos + ((movesText.drop sc.pos).takeWhile isSpace).length)
      = '(' :: after) :
    parseLoop R isVariation (fuel + 1) movesText sc = .error (.referenceError "i") := by
  have hlen : sc.pos + ((movesText.drop sc.pos).takeWhile isSpace).length < movesText.length := by
    by_contra hc
    rw [List.drop_of_length_le (not_lt.mp hc)] at h
    exact List.noConfusion h
  unfold parseLoop
  simp only [h]
  simp [findMatchingParen, hlen]

/-- Scenario B of the spec, `1. e4 (1. d4 d5) e5`: after `1. e4` the cursor stands on `(`
and the render raises. -/
theorem parseLoop_raises_scenarioB :
    parseLoop sampleRules false 14 "1. e4 (1. d4 d5) e5".toList
      { (startScope sampleRules (some "start")) with pos := 5 }
      = .error (.referenceError "i") ∧
    parseNodes sampleRules "1. e4 (1. d4 d5) e5" false (some "start")
      = .error (.referenceError "i") :=
  ⟨parseLoop_raises_at_paren sampleRules false 13 "1. e4 (1. d4 d5) e5".toList
      "1. d4 d5) e5".toList _ (by decide), by rfl⟩

/-- C8, as the code behaves: for every string and every index that holds `(`,
`findMatchingParen` raises a ReferenceError and returns no index. -/
theorem findMatchingParen_raises (s : List Char) (p : Nat) (h : s.get? p = some '(') :
    findMatchingParen s p = .error (.referenceError "i") := by
  have hp : p < s.length := by
    by_contra hc
    rw [List.get?_eq_none.mpr (not_lt.mp hc)] at h
    exact Option.noConfusion h
  simp [findMatchingParen, hp]

/-- The string `(a)` at index 0: no matching index is returned. -/
theorem findMatchingParen_raises_witness :
    "(a)".toList.get? 0 = some '(' ∧
    findMatchingParen "(a)".toList 0 = .error (.referenceError "i") :=
  ⟨by decide, findMatchingParen_raises "(a)".toList 0 (by decide)⟩


/-- The loop over a concatenation runs the two parts in turn. -/
theorem buildLoop_append {P : Type} (R : Rules P) (xs ys : List String)
    (acc : P × List String × List String) :
    buildLoop R (xs ++ ys) acc = buildLoop R ys (buildLoop R xs acc) := by
  induction xs generalizing acc with
  | nil => rfl
  | cons x xs ih =>
    obtain ⟨g, ms, fs⟩ := acc
    simp only [List.cons_append, buildLoop]
    cases h : R.move g x with
    | none => exact ih _
    | some p => obtain ⟨r, g2⟩ := p; exact ih _

/-- Invariants of the loop: list lengths, first FEN, last FEN. -/
theorem buildLoop_inv {P : Type} (R : Rules P) (xs : List String)
    (g : P) (ms fs : List String) (f0 : String)
    (hlen : fs.length = ms.length + 1) (hhead : fs.head? = some f0)
    (hlast : fs.getLast? = some (R.fen g)) :
    (buildLoop R xs (g, ms, fs)).2.2.length = (buildLoop R xs (g, ms, fs)).2.1.length + 1 ∧
    (buildLoop R xs (g, ms, fs)).2.2.head? = some f0 ∧
    (buildLoop R xs (g, ms, fs)).2.2.getLast? = some (R.fen (buildLoop R xs (g, ms, fs)).1) := by
  induction xs generalizing g ms fs with
  | nil => exact ⟨hlen, hhead, hlast⟩
  | cons x xs ih =>
    simp only [buildLoop]
    cases h : R.move g x with
    | none => exact ih g ms fs hlen hhead hlast
    | some p =>
      obtain ⟨r, g2⟩ := p
      refine ih g2 _ _ ?_ ?_ ?_
      · simp [hlen]
      · cases fs with
        | nil => simp at hlen
        | cons a t => simpa using hhead
      · simp


/-- The loop of `initializeChessBoard` over the extracted moves `pre`, for every
collaborator: `mainlineFens` has one entry more than `mainlineMoves`, its first entry is
the FEN of the start position, its last entry is the FEN of the position the game has
reached; a move `m` that the collaborator accepts next appends its SAN and the FEN of the
position after it, and a move that it rejects is added to neither list, the moves after it
being tried from the unchanged position. After `initializeChessBoard` the two variables
hold these lists whenever the extractor returned the moves. -/
theorem buildMainline_spec {P : Type} (R : Rules P) (pre post : List String) (m : String) :
    (buildMainline R pre).2.length = (buildMainline R pre).1.length + 1 ∧
    (buildMainline R pre).2.head? = some (R.fen R.init) ∧
    (buildMainline R pre).2.getLast?
      = some (R.fen (buildLoop R pre (R.init, [], [R.fen R.init])).1) ∧
    (∀ r g2, R.move (buildLoop R pre (R.init, [], [R.fen R.init])).1 m = some (r, g2) →
      buildMainline R (pre ++ [m])
        = ((buildMainline R pre).1 ++ [r.san], (buildMainline R pre).2 ++ [R.fen g2]) ∧
      (buildLoop R (pre ++ [m]) (R.init, [], [R.fen R.init])).1 = g2) ∧
    (R.move (buildLoop R pre (R.init, [], [R.fen R.init])).1 m = none →
      buildMainline R (pre ++ m :: post) = buildMainline R (pre ++ post)) ∧
    (∀ (s : Session) (pgn : String), extractMainlineMoves pgn = .ok pre →
      (initializeChessBoard R s pgn).mainlineMoves = (buildMainline R pre).1 ∧
      (initializeChessBoard R s pgn).mainlineFens = (buildMainline R pre).2) := by
  have inv := buildLoop_inv R pre R.init [] [R.fen R.init] (R.fen R.init) rfl rfl rfl
  refine ⟨inv.1, inv.2.1, inv.2.2, ?_, ?_, ?_⟩
  · intro r g2 h
    unfold buildMainline
    rw [buildLoop_append]
    generalize buildLoop R pre (R.init, [], [R.fen R.init]) = acc at h ⊢
    obtain ⟨g, ms, fs⟩ := acc
    simp only [buildLoop] at h ⊢
    simp [h]
  · intro h
    unfold buildMainline
    rw [buildLoop_append, buildLoop_append]
    generalize buildLoop R pre (R.init, [], [R.fen R.init]) = acc at h ⊢
    obtain ⟨g, ms, fs⟩ := acc
    simp only [buildLoop] at h ⊢
    simp only [h]
  · intro s pgn h
    unfold initializeChessBoard
    rw [h]
    exact ⟨rfl, rfl⟩

/-- The loop on `e4`, `Qh5`, `e5` with a collaborator that rejects the queen move: `e4` is
accepted, `Qh5` is skipped and `e5` is applied to the position after `e4`. -/
theorem buildMainline_spec_witness :
    sampleRules.move (buildLoop sampleRules ["e4"] ([], [], ["start"])).1 "Qh5" = none ∧
    buildMainline sampleRules ["e4", "Qh5", "e5"] = buildMainline sampleRules ["e4", "e5"] ∧
    buildMainline sampleRules ["e4", "e5"] = (["e4", "e5"], ["start", "start e4", "start e4 e5"]) ∧
    (initializeChessBoard sampleRules Session.initial "").mainlineFens = ["start"] := by
  have h := buildMainline_spec sampleRules ["e4"] ["e5"] "Qh5"
  have h2 := buildMainline_spec sampleRules [] [] ""
  exact ⟨by decide, h.2.2.2.2.1 (by decide), by decide, (h2.2.2.2.2.2 Session.initial "" (by decide)).2⟩

/-- The extractor returns a list for a blank text only, and then the empty list. -/
theorem extractMainlineMoves_ok_nil (pgn : String) (pre : List String)
    (h : extractMainlineMoves pgn = .ok pre) : pre = [] := by
  unfold extractMainlineMoves at h
  split at h
  · exact (Except.ok.inj h).symm
  · simp only [] at h
    cases ht : trim (replaceAll headerRe [] pgn.toList) with
    | nil =>
      rw [ht] at h
      have hc : collectMoves [] = .ok [] := by decide
      simp only [scanMainline, List.length_nil, lt_irrefl, if_false, hc] at h
      exact (Except.ok.inj h).symm
    | cons c t =>
      rw [ht, scanMainline_raises _ (List.cons_ne_nil c t)] at h
      exact Except.noConfusion h

/-- C5, as the code behaves: on every PGN whose text after the header tags is not blank the
extractor raises inside the `try` of `initializeChessBoard`, the assignments of lines
494-495 and the loop of lines 497-505 are skipped, the `catch` swallows the error and the
session is left as it was: on a freshly loaded page `mainlineMoves` and `mainlineFens` both
stay empty, and `mainlineFens.length = mainlineMoves.length + 1` fails. The extractor
returns a list for a blank text only, the empty list. The loop itself, run on any list of
moves with any collaborator, builds lists with the claimed lengths and first entry. -/
theorem initializeChessBoard_skips_mainline {P : Type} (R : Rules P) (s : Session)
    (pgn : String) (h0 : pgn ≠ "") (h : trim (replaceAll headerRe [] pgn.toList) ≠ []) :
    initializeChessBoard R s pgn = s ∧
    (initializeChessBoard R Session.initial pgn).mainlineMoves = [] ∧
    (initializeChessBoard R Session.initial pgn).mainlineFens = [] ∧
    (initializeChessBoard R Session.initial pgn).mainlineFens.length
      ≠ (initializeChessBoard R Session.initial pgn).mainlineMoves.length + 1 ∧
    (∀ (pgn2 : String) (pre : List String), extractMainlineMoves pgn2 = .ok pre → pre = []) ∧
    (∀ pre : List String,
      (buildMainline R pre).2.length = (buildMainline R pre).1.length + 1 ∧
      (buildMainline R pre).2.head? = some (R.fen R.init)) := by
  have hr := extractor_raises_of_text pgn h0 h
  have hs : ∀ s0 : Session, initializeChessBoard R s0 pgn = s0 :=
    fun s0 => initializeChessBoard_of_raise R s0 pgn _ hr
  refine ⟨hs s, by rw [hs]; rfl, by rw [hs]; rfl, by rw [hs]; decide,
    extractMainlineMoves_ok_nil, ?_⟩
  intro pre
  have inv := buildLoop_inv R pre R.init [] [R.fen R.init] (R.fen R.init) rfl rfl rfl
  exact ⟨inv.1, inv.2.1⟩

/-- C5 at `1. e4` on a freshly loaded page: the lists stay empty, where the loop on the move
`e4` would give one move and two positions. -/
theorem initializeChessBoard_skips_mainline_witness :
    "1. e4" ≠ "" ∧ trim (replaceAll headerRe [] "1. e4".toList) ≠ [] ∧
    (initializeChessBoard sampleRules Session.initial "1. e4").mainlineMoves = [] ∧
    (initializeChessBoard sampleRules Session.initial "1. e4").mainlineFens = [] ∧
    buildMainline sampleRules ["e4"] = (["e4"], ["start", "start e4"]) :=
  ⟨by decide, by decide,
   (initializeChessBoard_skips_mainline sampleRules Session.initial "1. e4" (by decide)
     (by decide)).2.1,
   (initializeChessBoard_skips_mainline sampleRules Session.initial "1. e4" (by decide)
     (by decide)).2.2.1,
   by decide⟩

/-- C10: on a loaded board, for every `k` below `mainlineMoves.length` and whatever the
previous state, `goToMove(k)` leaves `isInVariation = false` and `currentMoveIndex = k + 1`
and has asked the board to show `mainlineFens[k + 1]`, which is an entry of the list as soon
as the list has one entry more than `mainlineMoves`; the two lists are not changed. -/
theorem goToMove_spec (s : Session) (k : Nat) (b : Shown) (hb : s.currentBoard = some b)
    (hk : k < s.mainlineMoves.length) :
    (goToMove s k).state.isInVariation = false ∧
    (goToMove s k).state.currentMoveIndex = k + 1 ∧
    (goToMove s k).state.currentBoard = some (Shown.arg (s.mainlineFens.get? (k + 1))) ∧
    (s.mainlineFens.length = s.mainlineMoves.length + 1 →
      ∃ fen, s.mainlineFens.get? (k + 1) = some fen) ∧
    (goToMove s k).state.mainlineMoves = s.mainlineMoves ∧
    (goToMove s k).state.mainlineFens = s.mainlineFens := by
  have h1 : ¬ ((k : Int) < 0 ∨ (k : Int) ≥ s.mainlineMoves.length) := by
    push_neg
    exact ⟨Int.natCast_nonneg k, by exact_mod_cast hk⟩
  have h2 : (0 : Int) ≤ k := Int.natCast_nonneg k
  have h3 : fenAt s.mainlineFens ((k : Int) + 1) = s.mainlineFens.get? (k + 1) := by
    have h4 : ¬ ((k : Int) + 1 < 0) := by omega
    have h5 : ((k : Int) + 1).toNat = k + 1 := by omega
    simp only [fenAt, h4, if_false, h5]
  refine ⟨?_, ?_, ?_, ?_, ?_, ?_⟩
  all_goals first
    | (intro hl
       exact ⟨s.mainlineFens.get ⟨k + 1, by omega⟩, List.get?_eq_get _⟩)
    | simp only [goToMove, hb, h1, if_false, highlightLastMove, updateMovesHighlight,
        updateButtons, parseMoveSquares, h2, if_true, h3]

/-- The sample session is in variation state at ply 0 with two mainline moves:
`goToMove(1)` returns to the mainline at index 2 and shows the third FEN. -/
theorem goToMove_spec_witness :
    sampleSession.currentBoard = some Shown.start ∧ 1 < sampleSession.mainlineMoves.length ∧
    (goToMove sampleSession 1).state.currentBoard = some (Shown.arg (some "start e4 e5")) :=
  ⟨rfl, by decide, (goToMove_spec sampleSession 1 Shown.start rfl (by decide)).2.2.1⟩
/-! ## The render loop -/

/-- The index found by `indexOf` is not before the start. -/
theorem indexOfFrom_ge (s : List Char) (c : Char) (start e : Nat)
    (h : indexOfFrom s c start = some e) : start ≤ e := by
  unfold indexOfFrom at h
  cases hf : (s.drop start).findIdx? (fun d => d == c) with
  | none => simp [hf] at h
  | some k =>
    simp only [hf, Option.map_some', Option.some.injEq] at h
    omega

/-- One iteration of the render loop: the end of the text, a comment, an opening
parenthesis (the call raises), or a token. -/
theorem parseLoop_succ {P : Type} (R : Rules P) (isVariation : Bool) (fuel : Nat)
    (movesText : List Char) (sc : Scope P) :
    parseLoop R isVariation (fuel + 1) movesText sc =
      match movesText.drop (sc.pos + ((movesText.drop sc.pos).takeWhile isSpace).length) with
      | [] => .ok sc.html
      | char :: after =>
        if char = '{' then
          match indexOfFrom movesText '}'
              (sc.pos + ((movesText.drop sc.pos).takeWhile isSpace).length) with
          | none => .ok sc.html
          | some e =>
            parseLoop R isVariation fuel movesText
              { sc with
                html :=
                  if (cleanComment (trim (slice movesText
                      (sc.pos + ((movesText.drop sc.pos).takeWhile isSpace).length + 1) e))).isEmpty
                  then sc.html
                  else sc.html ++ [Node.comment (String.mk (cleanComment (trim (slice movesText
                      (sc.pos + ((movesText.drop sc.pos).takeWhile isSpace).length + 1) e))))],
                pos := e + 1 }
        else if char = '(' then .error (.referenceError "i")
        else
          parseLoop R isVariation fuel movesText
            (emitToken R isVariation sc
              (sc.pos + ((movesText.drop sc.pos).takeWhile isSpace).length) (char :: after)) := by
  rw [parseLoop]
  simp only []
  split
  · rfl
  · rename_i char after hd
    by_cases h1 : char = '{'
    · simp only [h1, if_true]
    · simp only [h1, if_false]
      by_cases h2 : char = '('
      · have hlen : sc.pos + ((movesText.drop sc.pos).takeWhile isSpace).length
            < movesText.length := by
          by_contra hc
          rw [List.drop_of_length_le (not_lt.mp hc)] at hd
          exact List.noConfusion hd
        simp [h2, findMatchingParen, hlen]
      · simp only [h2, if_false]

/-- Loop invariant rule for the render loop: a property of the scope that the comment step
and the token step keep holds for the scope the loop returns from. -/
theorem parseLoop_invariant {P : Type} (R : Rules P) (isVariation : Bool)
    (movesText : List Char) (Inv : Scope P → Prop)
    (hcomment : ∀ (sc : Scope P) (e : Nat) (c : String), Inv sc →
      Inv { sc with pos := e + 1 } ∧ Inv { sc with html := sc.html ++ [Node.comment c], pos := e + 1 })
    (htoken : ∀ (sc : Scope P) (pos : Nat) (rest : List Char), Inv sc →
      Inv (emitToken R isVariation sc pos rest))
    (fuel : Nat) (sc : Scope P) (nodes : List Node) (hinv : Inv sc)
    (h : parseLoop R isVariation fuel movesText sc = .ok nodes) :
    ∃ sc2 : Scope P, Inv sc2 ∧ sc2.html = nodes := by
  induction fuel generalizing sc with
  | zero => simp [parseLoop] at h
  | succ n ih =>
    rw [parseLoop_succ] at h
    split at h
    · exact ⟨sc, hinv, by simpa using h⟩
    · rename_i char after hd
      by_cases h1 : char = '{'
      · simp only [h1, if_true] at h
        split at h
        · exact ⟨sc, hinv, by simpa using h⟩
        · rename_i e he
          split at h
          · exact ih _ (hcomment sc e "" hinv).1 h
          · exact ih _ (hcomment sc e _ hinv).2 h
      · simp only [h1, if_false] at h
        by_cases h2 : char = '('
        · simp [h2] at h
        · simp only [h2, if_false] at h
          exact ih _ (htoken sc _ _ hinv) h

/-- The token step moves the cursor forward. -/
theorem emitToken_pos {P : Type} (R : Rules P) (isVariation : Bool) (sc : Scope P) (pos : Nat)
    (rest : List Char) : pos < (emitToken R isVariation sc pos rest).pos := by
  unfold emitToken
  split
  · rename_i m hm
    have := (matchStart_length numRe rest m (by rfl) hm).1
    unfold emitNumber
    simp only []
    split
    · simp only []; omega
    · split
      · simp only []; omega
      · simp only []; omega
  · split
    · rename_i m hm
      have := (matchStart_length resRe rest m (by rfl) hm).1
      simp only []; omega
    · split
      · rename_i m hm
        have := (matchStart_length nagRe rest m (by rfl) hm).1
        unfold emitNag
        simp only []
        split
        · simp only []; omega
        · simp only []; omega
      · split
        · rename_i m hm
          have := (matchStart_length moveRe rest m (by rfl) hm).1
          unfold emitMove
          simp only []
          split
          · split
            · simp only []; omega
            · simp only []; omega
          · simp only []; omega
        · simp only []; omega

/-- The render loop does not use up a fuel above the length of the text that is left. -/
theorem parseLoop_fuel {P : Type} (R : Rules P) (isVariation : Bool) (movesText : List Char)
    (fuel : Nat) (sc : Scope P) (hf : movesText.length - sc.pos < fuel) :
    parseLoop R isVariation fuel movesText sc ≠ .error .outOfFuel := by
  induction fuel generalizing sc with
  | zero => omega
  | succ n ih =>
    rw [parseLoop_succ]
    split
    · simp
    · rename_i char after hd
      have hlen : sc.pos + ((movesText.drop sc.pos).takeWhile isSpace).length
          < movesText.length := by
        by_contra hc
        rw [List.drop_of_length_le (not_lt.mp hc)] at hd
        exact List.noConfusion hd
      by_cases h1 : char = '{'
      · simp only [h1, if_true]
        split
        · simp
        · rename_i e he
          have hge := indexOfFrom_ge _ _ _ _ he
          apply ih
          simp only []
          omega
      · simp only [h1, if_false]
        by_cases h2 : char = '('
        · simp [h2]
        · simp only [h2, if_false]
          apply ih
          have := emitToken_pos R isVariation sc
            (sc.pos + ((movesText.drop sc.pos).takeWhile isSpace).length) (char :: after)
          omega

/-- The function `parseAndRenderPgn` ends for every text, scope flag, starting FEN and
collaborator: the fuel of the embedding is never used up. -/
theorem parseAndRenderPgn_returns {P : Type} (R : Rules P) (movesText : String)
    (isVariation : Bool) (startingFen : Option String) :
    parseNodes R movesText isVariation startingFen ≠ .error .outOfFuel := by
  unfold parseNodes
  apply parseLoop_fuel
  have h1 : (startScope R startingFen).pos = 0 := rfl
  have h2 : movesText.toList.length = movesText.length := rfl
  omega

/-- The token step keeps the ply indices of the scope consecutive from 0 and equal in
number to `plyCount`. -/
theorem emitToken_indices {P : Type} (R : Rules P) (isVariation : Bool) (sc : Scope P) (pos : Nat)
    (rest : List Char) (h : mainIndices sc.html = List.range sc.plyCount) :
    mainIndices (emitToken R isVariation sc pos rest).html
      = List.range (emitToken R isVariation sc pos rest).plyCount := by
  unfold emitToken
  split
  · unfold emitNumber
    simp only []
    split
    · simpa [mainIndices, Node.index?] using h
    · split
      · simpa [mainIndices, Node.index?] using h
      · exact h
  · split
    · exact h
    · split
      · unfold emitNag
        simp only []
        split
        · exact h
        · simpa [mainIndices, Node.index?] using h
      · split
        · unfold emitMove
          simp only []
          split
          · split
            · simpa [mainIndices, Node.index?] using h
            · simp only [mainIndices, List.filterMap_append, List.range_succ] at h ⊢
              rw [h]
              simp [Node.index?]
          · simpa [mainIndices, Node.index?] using h
        · exact h

/-- The ply indices of the nodes a call renders are 0, 1, 2, ... in this order. -/
theorem parseNodes_indices {P : Type} (R : Rules P) (movesText : String) (isVariation : Bool)
    (startingFen : Option String) (nodes : List Node)
    (h : parseNodes R movesText isVariation startingFen = .ok nodes) :
    mainIndices nodes = List.range (mainIndices nodes).length := by
  unfold parseNodes at h
  obtain ⟨sc2, hinv, hhtml⟩ := parseLoop_invariant R isVariation movesText.toList
    (fun sc => mainIndices sc.html = List.range sc.plyCount)
    (fun sc e c hsc => ⟨hsc, by simpa [mainIndices, Node.index?] using hsc⟩)
    (fun sc pos rest hsc => emitToken_indices R isVariation sc pos rest hsc)
    _ _ nodes (by rfl) h
  rw [← hhtml, hinv, List.length_range]

/-- C7: when the cursor of `parseAndRenderPgn` stands on a SAN token (no move number,
result or NAG matches, the move pattern matches with the SAN `m[1]` and the glyphs `m[2]`),
exactly one node is emitted; it carries an after-FEN, and is clickable, if and only if the
collaborator accepts the SAN from the position of the scope. An accepted move carries the
FEN after the move, as a mainline move the index `plyCount`, which then grows by one, as a
variation move the FEN before the move; a rejected move is emitted as the `invalid` node
with no FEN and no index, and leaves the position and `plyCount` as they were. The indices
of the nodes of every call are therefore consecutive from 0. -/
theorem emitToken_san_spec {P : Type} (R : Rules P) (isVariation : Bool) (sc : Scope P)
    (pos : Nat) (rest : List Char) (m : Match Char)
    (hnum : matchStart numRe rest = none) (hres : matchStart resRe rest = none)
    (hnag : matchStart nagRe rest = none) (hmove : matchStart moveRe rest = some m) :
    (∃ n : Node, (emitToken R isVariation sc pos rest).html = sc.html ++ [n] ∧
      (n.fen?.isSome = true ↔ (R.move sc.game (String.mk ((m.grp 1).getD []))).isSome = true) ∧
      (n.clickable = true ↔ (R.move sc.game (String.mk ((m.grp 1).getD []))).isSome = true) ∧
      (∀ r g, R.move sc.game (String.mk ((m.grp 1).getD [])) = some (r, g) →
        n.fen? = some (R.fen g) ∧ (emitToken R isVariation sc pos rest).game = g ∧
        (isVariation = false → n.index? = some sc.plyCount ∧
          (emitToken R isVariation sc pos rest).plyCount = sc.plyCount + 1) ∧
        (isVariation = true → n.index? = none ∧ n.parentFen? = some (R.fen sc.game) ∧
          (emitToken R isVariation sc pos rest).plyCount = sc.plyCount)) ∧
      (R.move sc.game (String.mk ((m.grp 1).getD [])) = none →
        n = Node.invalid (String.mk ((m.grp 1).getD []) ++ String.mk ((m.grp 2).getD [])) ∧
        n.fen? = none ∧ n.index? = none ∧ n.clickable = false ∧
        (emitToken R isVariation sc pos rest).game = sc.game ∧
        (emitToken R isVariation sc pos rest).plyCount = sc.plyCount)) ∧
    (∀ (movesText : String) (startingFen : Option String) (nodes : List Node),
      parseNodes R movesText isVariation startingFen = .ok nodes →
      mainIndices nodes = List.range (mainIndices nodes).length) := by
  refine ⟨?_, fun t f nodes h => parseNodes_indices R t isVariation f nodes h⟩
  unfold emitToken
  simp only [hnum, hres, hnag, hmove]
  unfold emitMove
  simp only []
  cases hmv : R.move sc.game (String.mk ((m.grp 1).getD [])) with
  | none =>
    refine ⟨Node.invalid (String.mk ((m.grp 1).getD []) ++ String.mk ((m.grp 2).getD [])),
      rfl, ?_, ?_, ?_, ?_⟩
    · simp [Node.fen?]
    · simp [Node.clickable]
    · intro r g h; exact Option.noConfusion h
    · intro _; exact ⟨rfl, rfl, rfl, rfl, rfl, rfl⟩
  | some p =>
    obtain ⟨r, g⟩ := p
    cases isVariation with
    | true =>
      refine ⟨Node.varMove (R.fen g) (R.fen sc.game) (r.san ++ String.mk ((m.grp 2).getD [])),
        rfl, ?_, ?_, ?_, ?_⟩
      · simp [Node.fen?]
      · simp [Node.clickable]
      · intro r2 g2 h
        simp only [Option.some.injEq, Prod.mk.injEq] at h
        obtain ⟨_, hg⟩ := h
        subst hg
        exact ⟨rfl, rfl, fun hc => Bool.noConfusion hc, fun _ => ⟨rfl, rfl, rfl⟩⟩
      · intro h; exact Option.noConfusion h
    | false =>
      refine ⟨Node.mainMove sc.plyCount (R.fen g) (r.san ++ String.mk ((m.grp 2).getD [])),
        rfl, ?_, ?_, ?_, ?_⟩
      · simp [Node.fen?]
      · simp [Node.clickable]
      · intro r2 g2 h
        simp only [Option.some.injEq, Prod.mk.injEq] at h
        obtain ⟨_, hg⟩ := h
        subst hg
        exact ⟨rfl, rfl, fun _ => ⟨rfl, rfl⟩, fun hc => Bool.noConfusion hc⟩
      · intro h; exact Option.noConfusion h
/-- Scenario C of the spec, `1. e4 e5 2. Qh8#??` with a collaborator that rejects the queen
move: at the token `Qh8#??` the emitted node is the `invalid` one, `plyCount` stays 2 and
the position stays the one after `e5`; in the whole render only `e4` and `e5` carry the
indices 0 and 1. -/
theorem emitToken_san_spec_witness :
    matchStart numRe "Qh8#??".toList = none ∧ matchStart resRe "Qh8#??".toList = none ∧
    matchStart nagRe "Qh8#??".toList = none ∧
    matchStart moveRe "Qh8#??".toList
      = some { whole := "Qh8#??".toList, caps := [(2, "??".toList), (1, "Qh8#".toList)] } ∧
    (emitToken sampleRules false sampleScope 12 "Qh8#??".toList).html
      = sampleScope.html ++ [Node.invalid "Qh8#??"] ∧
    (emitToken sampleRules false sampleScope 12 "Qh8#??".toList).plyCount = 2 ∧
    (emitToken sampleRules false sampleScope 12 "Qh8#??".toList).game = ["e4", "e5"] ∧
    parseNodes sampleRules "1. e4 e5 2. Qh8#??" false (some "start")
      = .ok [Node.moveNumber "1.", Node.mainMove 0 "start e4" "e4",
          Node.mainMove 1 "start e4 e5" "e5", Node.moveNumber "2.", Node.invalid "Qh8#??"] := by
  obtain ⟨n, hn, _, _, _, hrej⟩ := (emitToken_san_spec sampleRules false sampleScope 12
    "Qh8#??".toList { whole := "Qh8#??".toList, caps := [(2, "??".toList), (1, "Qh8#".toList)] }
    (by rfl) (by rfl) (by rfl) (by rfl)).1
  have h := hrej (by rfl)
  refine ⟨by rfl, by rfl, by rfl, by rfl, ?_, h.2.2.2.2.2, h.2.2.2.2.1, by rfl⟩
  rw [hn, h.1]
  rfl
/-! ## Simple patterns -/

/-- A simple pattern leaves the capture groups alone. -/
theorem Re.run_rests {α : Type} (r : Re α) (hs : r.simple = true) (s : List α) (c : Caps α) :
    Re.run r (s, c) = (Re.rests r s).map (fun t => (t, c)) := by
  induction r generalizing s with
  | eps => rfl
  | chr p =>
    cases s with
    | nil => rfl
    | cons a t =>
      simp only [Re.run, Re.rests]
      split <;> rfl
  | seq a b iha ihb =>
    simp only [Re.simple, Bool.and_eq_true] at hs
    simp only [Re.run, Re.rests, iha hs.1, List.flatMap_map, List.map_flatMap]
    congr 1
    funext t
    exact ihb hs.2 t
  | alt a b iha ihb =>
    simp only [Re.simple, Bool.and_eq_true] at hs
    simp only [Re.run, Re.rests, iha hs.1, ihb hs.2, List.map_append]
  | opt a iha =>
    simp only [Re.simple] at hs
    simp only [Re.run, Re.rests, iha hs, List.map_append, List.filter_map, List.map_cons,
      List.map_nil]
    rfl
  | star a _ => simp [Re.simple] at hs
  | group n a _ => simp [Re.simple] at hs
  | eos => simp [Re.simple] at hs

/-- A tail that starts with a character outside the classes of a simple pattern does not
change its matches. -/
theorem Re.rests_append {α : Type} (r : Re α) (hs : r.simple = true) (s rest : List α)
    (hrest : ∀ c t, rest = c :: t → r.rejects c = true) :
    Re.rests r (s ++ rest) = (Re.rests r s).map (fun t => t ++ rest) := by
  induction r generalizing s with
  | eps => rfl
  | chr p =>
    cases s with
    | nil =>
      cases rest with
      | nil => rfl
      | cons c t =>
        have := hrest c t rfl
        simp only [Re.rejects, Bool.not_eq_true'] at this
        simp [Re.rests, this]
    | cons a t =>
      simp only [List.cons_append, Re.rests]
      split <;> rfl
  | seq a b iha ihb =>
    simp only [Re.simple, Bool.and_eq_true] at hs
    have ha : ∀ c t, rest = c :: t → a.rejects c = true := fun c t h => by
      have := hrest c t h
      simp only [Re.rejects, Bool.and_eq_true] at this
      exact this.1
    have hb : ∀ c t, rest = c :: t → b.rejects c = true := fun c t h => by
      have := hrest c t h
      simp only [Re.rejects, Bool.and_eq_true] at this
      exact this.2
    simp only [Re.rests, fun u => iha hs.1 u ha, List.flatMap_map, List.map_flatMap]
    congr 1
    funext t
    exact ihb hs.2 t hb
  | alt a b iha ihb =>
    simp only [Re.simple, Bool.and_eq_true] at hs
    have ha : ∀ c t, rest = c :: t → a.rejects c = true := fun c t h => by
      have := hrest c t h
      simp only [Re.rejects, Bool.and_eq_true] at this
      exact this.1
    have hb : ∀ c t, rest = c :: t → b.rejects c = true := fun c t h => by
      have := hrest c t h
      simp only [Re.rejects, Bool.and_eq_true] at this
      exact this.2
    simp only [Re.rests, fun u => iha hs.1 u ha, fun u => ihb hs.2 u hb, List.map_append]
  | opt a iha =>
    simp only [Re.simple] at hs
    have ha : ∀ c t, rest = c :: t → a.rejects c = true := fun c t h => by
      have := hrest c t h
      simpa only [Re.rejects] using this
    simp only [Re.rests, fun u => iha hs u ha, List.map_append, List.filter_map, List.map_cons,
      List.map_nil]
    congr 2
    apply List.filter_congr
    intro t _
    simp [List.length_append]
  | star a _ => simp [Re.simple] at hs
  | group n a _ => simp [Re.simple] at hs
  | eos => simp [Re.simple] at hs

/-- The matches of a simple pattern read through `f` are those of the pattern on the image
of the input. -/
theorem Re.rests_comap {α β : Type} (f : α → β) (r : Re β) (hs : r.simple = true) (s : List α) :
    (Re.rests (Re.comap f r) s).map (List.map f) = Re.rests r (s.map f) := by
  induction r generalizing s with
  | eps => rfl
  | chr p =>
    cases s with
    | nil => rfl
    | cons a t =>
      simp only [Re.comap, Re.rests, List.map_cons]
      split <;> rfl
  | seq a b iha ihb =>
    simp only [Re.simple, Bool.and_eq_true] at hs
    simp only [Re.comap, Re.rests, List.map_flatMap, ← iha hs.1, List.flatMap_map]
    congr 1
    funext t
    exact ihb hs.2 t
  | alt a b iha ihb =>
    simp only [Re.simple, Bool.and_eq_true] at hs
    simp only [Re.comap, Re.rests, List.map_append, iha hs.1, ihb hs.2]
  | opt a iha =>
    simp only [Re.simple] at hs
    simp only [Re.comap, Re.rests, List.map_append, ← iha hs, List.filter_map, List.map_cons,
      List.map_nil]
    congr 2
    apply List.filter_congr
    intro t _
    simp
  | star a _ => simp [Re.simple] at hs
  | group n a _ => simp [Re.simple] at hs
  | eos => simp [Re.simple] at hs

/-- What a simple pattern consumes is one of its words. -/
theorem Re.rests_words {α : Type} (all : List α) (hall : ∀ c, c ∈ all) (r : Re α)
    (hs : r.simple = true) (s t : List α) (h : t ∈ Re.rests r s) :
    ∃ w, w ∈ Re.words all r ∧ s = w ++ t := by
  induction r generalizing s t with
  | eps =>
    simp only [Re.rests, List.mem_singleton] at h
    exact ⟨[], by simp [Re.words], by simp [h]⟩
  | chr p =>
    cases s with
    | nil => simp [Re.rests] at h
    | cons a u =>
      simp only [Re.rests] at h
      split at h
      · rename_i hp
        simp only [List.mem_singleton] at h
        refine ⟨[a], ?_, by simp [h]⟩
        simp only [Re.words, List.mem_map, List.mem_filter]
        exact ⟨a, ⟨hall a, hp⟩, rfl⟩
      · simp at h
  | seq a b iha ihb =>
    simp only [Re.simple, Bool.and_eq_true] at hs
    simp only [Re.rests, List.mem_flatMap] at h
    obtain ⟨u, hu, ht⟩ := h
    obtain ⟨w1, hw1, e1⟩ := iha hs.1 s u hu
    obtain ⟨w2, hw2, e2⟩ := ihb hs.2 u t ht
    refine ⟨w1 ++ w2, ?_, by rw [e1, e2, List.append_assoc]⟩
    simp only [Re.words, List.mem_flatMap, List.mem_map]
    exact ⟨w1, hw1, w2, hw2, rfl⟩
  | alt a b iha ihb =>
    simp only [Re.simple, Bool.and_eq_true] at hs
    simp only [Re.rests, List.mem_append] at h
    rcases h with h | h
    · obtain ⟨w, hw, e⟩ := iha hs.1 s t h
      exact ⟨w, by simp [Re.words, hw], e⟩
    · obtain ⟨w, hw, e⟩ := ihb hs.2 s t h
      exact ⟨w, by simp [Re.words, hw], e⟩
  | opt a iha =>
    simp only [Re.simple] at hs
    simp only [Re.rests, List.mem_append, List.mem_filter, List.mem_singleton] at h
    rcases h with ⟨h, _⟩ | h
    · obtain ⟨w, hw, e⟩ := iha hs s t h
      exact ⟨w, by simp [Re.words, hw], e⟩
    · exact ⟨[], by simp [Re.words], by simp [h]⟩
  | star a _ => simp [Re.simple] at hs
  | group n a _ => simp [Re.simple] at hs
  | eos => simp [Re.simple] at hs

/-- A character rejected by a pattern is rejected by the pattern read through `f`. -/
theorem Re.rejects_comap {α β : Type} (f : α → β) (r : Re β) (c : α) :
    (Re.comap f r).rejects c = r.rejects (f c) := by
  induction r with
  | eps => rfl
  | chr p => rfl
  | seq a b iha ihb => simp only [Re.comap, Re.rejects, iha, ihb]
  | alt a b iha ihb => simp only [Re.comap, Re.rejects, iha, ihb]
  | opt a iha => simp only [Re.comap, Re.rejects, iha]
  | star a iha => simp only [Re.comap, Re.rejects, iha]
  | group n a iha => simp only [Re.comap, Re.rejects, iha]
  | eos => rfl
/-! ## The move grammar over kinds of characters -/

/-- The classes of the move grammar depend on the kind of the character only. -/
theorem kind_classes (d : Char) :
    "NBRQK".toList.contains d = (kind d == Kind.piece || kind d == Kind.king) ∧
    "abcdefgh".toList.contains d = (kind d == Kind.file) ∧
    "12345678".toList.contains d = (kind d == Kind.rank) ∧
    (d == 'x') = (kind d == Kind.capture) ∧
    (d == '=') = (kind d == Kind.equals) ∧
    "NBRQ".toList.contains d = (kind d == Kind.piece) ∧
    "+#".toList.contains d = (kind d == Kind.check) ∧
    (d == 'O') = (kind d == Kind.castle) ∧
    (d == '-') = (kind d == Kind.dash) := by
  by_cases h : d ∈ "NBRQKabcdefgh12345678x=+#O-".toList
  · have hl : "NBRQKabcdefgh12345678x=+#O-".toList
        = ['N', 'B', 'R', 'Q', 'K', 'a', 'b', 'c', 'd', 'e', 'f', 'g', 'h', '1', '2', '3', '4', '5', '6', '7', '8', 'x', '=', '+', '#', 'O', '-'] := rfl
    rw [hl] at h
    simp only [List.mem_cons, List.mem_singleton, List.not_mem_nil, or_false] at h
    rcases h with rfl | rfl | rfl | rfl | rfl | rfl | rfl | rfl | rfl | rfl | rfl | rfl | rfl | rfl | rfl | rfl | rfl | rfl | rfl | rfl | rfl | rfl | rfl | rfl | rfl | rfl | rfl <;> decide
  · have hl : "NBRQKabcdefgh12345678x=+#O-".toList
        = ['N', 'B', 'R', 'Q', 'K', 'a', 'b', 'c', 'd', 'e', 'f', 'g', 'h', '1', '2', '3', '4', '5', '6', '7', '8', 'x', '=', '+', '#', 'O', '-'] := rfl
    rw [hl] at h
    simp only [List.mem_cons, List.mem_singleton, List.not_mem_nil, or_false, not_or] at h
    obtain ⟨n0, n1, n2, n3, n4, n5, n6, n7, n8, n9, n10, n11, n12, n13, n14, n15, n16, n17, n18, n19, n20, n21, n22, n23, n24, n25, n26⟩ := h
    have hk : kind d = Kind.other := by
      unfold kind
      simp only [n0, n1, n2, n3, n4, n5, n6, n7, n8, n9, n10, n11, n12, n13, n14, n15, n16, n17, n18, n19, n20, n21, n22, n23, n24, n25, n26, or_self, if_false]
    have h1 : "NBRQK".toList = ['N', 'B', 'R', 'Q', 'K'] := rfl
    have h2 : "abcdefgh".toList = ['a', 'b', 'c', 'd', 'e', 'f', 'g', 'h'] := rfl
    have h3 : "12345678".toList = ['1', '2', '3', '4', '5', '6', '7', '8'] := rfl
    have h4 : "NBRQ".toList = ['N', 'B', 'R', 'Q'] := rfl
    have h5 : "+#".toList = ['+', '#'] := rfl
    rw [hk, h1, h2, h3, h4, h5]
    simp only [List.contains_cons, List.contains_nil, Bool.or_false, beq_eq_false_iff_ne.mpr n0,
      beq_eq_false_iff_ne.mpr n1, beq_eq_false_iff_ne.mpr n2, beq_eq_false_iff_ne.mpr n3,
      beq_eq_false_iff_ne.mpr n4, beq_eq_false_iff_ne.mpr n5, beq_eq_false_iff_ne.mpr n6,
      beq_eq_false_iff_ne.mpr n7, beq_eq_false_iff_ne.mpr n8, beq_eq_false_iff_ne.mpr n9,
      beq_eq_false_iff_ne.mpr n10, beq_eq_false_iff_ne.mpr n11, beq_eq_false_iff_ne.mpr n12,
      beq_eq_false_iff_ne.mpr n13, beq_eq_false_iff_ne.mpr n14, beq_eq_false_iff_ne.mpr n15,
      beq_eq_false_iff_ne.mpr n16, beq_eq_false_iff_ne.mpr n17, beq_eq_false_iff_ne.mpr n18,
      beq_eq_false_iff_ne.mpr n19, beq_eq_false_iff_ne.mpr n20, beq_eq_false_iff_ne.mpr n21,
      beq_eq_false_iff_ne.mpr n22, beq_eq_false_iff_ne.mpr n23, beq_eq_false_iff_ne.mpr n24,
      beq_eq_false_iff_ne.mpr n25, beq_eq_false_iff_ne.mpr n26]
    decide

/-- The move grammar is the grammar over kinds read through `kind`. -/
theorem sanRe_eq_comap : sanRe = Re.comap kind sanReK := by
  have e1 : oneOf "NBRQK" = Re.chr (fun d => kind d == Kind.piece || kind d == Kind.king) := by
    unfold oneOf; congr 1; funext d; exact (kind_classes d).1
  have e2 : oneOf "abcdefgh" = Re.chr (fun d => kind d == Kind.file) := by
    unfold oneOf; congr 1; funext d; exact (kind_classes d).2.1
  have e3 : oneOf "12345678" = Re.chr (fun d => kind d == Kind.rank) := by
    unfold oneOf; congr 1; funext d; exact (kind_classes d).2.2.1
  have e4 : lit 'x' = Re.chr (fun d => kind d == Kind.capture) := by
    unfold lit; congr 1; funext d; exact (kind_classes d).2.2.2.1
  have e5 : lit '=' = Re.chr (fun d => kind d == Kind.equals) := by
    unfold lit; congr 1; funext d; exact (kind_classes d).2.2.2.2.1
  have e6 : oneOf "NBRQ" = Re.chr (fun d => kind d == Kind.piece) := by
    unfold oneOf; congr 1; funext d; exact (kind_classes d).2.2.2.2.2.1
  have e7 : oneOf "+#" = Re.chr (fun d => kind d == Kind.check) := by
    unfold oneOf; congr 1; funext d; exact (kind_classes d).2.2.2.2.2.2.1
  have e8 : lit 'O' = Re.chr (fun d => kind d == Kind.castle) := by
    unfold lit; congr 1; funext d; exact (kind_classes d).2.2.2.2.2.2.2.1
  have e9 : lit '-' = Re.chr (fun d => kind d == Kind.dash) := by
    unfold lit; congr 1; funext d; exact (kind_classes d).2.2.2.2.2.2.2.2
  have l1 : lits "O-O-O" = Re.cat [lit 'O', lit '-', lit 'O', lit '-', lit 'O'] := rfl
  have l2 : lits "O-O" = Re.cat [lit 'O', lit '-', lit 'O'] := rfl
  unfold sanRe
  rw [l1, l2, e1, e2, e3, e4, e5, e6, e7, e8, e9]
  rfl

/-- Over the kinds of characters the move grammar has 98 words, and on each of them the
match of first priority is the whole word. -/
theorem sanReK_first :
    (Re.words Kind.all sanReK).all (fun w => (Re.rests sanReK w).head? == some []) = true := by
  decide

/-- A move of the grammar, followed by nothing or by a character of no class of the
grammar, is matched as a whole by the match of first priority. -/
theorem sanRe_head (san rest : List Char) (caps : Caps Char) (hsan : isSan san = true)
    (hrest : ∀ c t, rest = c :: t → kind c = Kind.other) :
    (Re.run sanRe (san ++ rest, caps)).head? = some (rest, caps) := by
  have hsimple : sanRe.simple = true := by rfl
  have hsimpleK : sanReK.simple = true := by rfl
  -- the whole of `san` is a word of the grammar over kinds
  have hmem : [] ∈ Re.rests sanRe san := by
    unfold isSan at hsan
    rw [Re.run_rests sanRe hsimple, List.any_eq_true] at hsan
    obtain ⟨st, hst, hempty⟩ := hsan
    rw [List.mem_map] at hst
    obtain ⟨t, ht, rfl⟩ := hst
    have : t = [] := by simpa using hempty
    rw [← this]; exact ht
  have hmemK : [] ∈ Re.rests sanReK (san.map kind) := by
    rw [← Re.rests_comap kind sanReK hsimpleK, ← sanRe_eq_comap]
    exact List.mem_map.mpr ⟨[], hmem, rfl⟩
  obtain ⟨w, hw, hwe⟩ := Re.rests_words Kind.all (fun k => by cases k <;> decide) sanReK hsimpleK
    _ _ hmemK
  rw [List.append_nil] at hwe
  -- so the first match over kinds is the whole word
  have hfirstK : (Re.rests sanReK (san.map kind)).head? = some [] := by
    have := List.all_eq_true.mp sanReK_first w hw
    rw [hwe]
    simpa using this
  -- and the first match over characters leaves nothing
  have hfirst : (Re.rests sanRe san).head? = some [] := by
    rw [← Re.rests_comap kind sanReK hsimpleK, ← sanRe_eq_comap, List.head?_map] at hfirstK
    cases hh : (Re.rests sanRe san).head? with
    | none => rw [hh] at hfirstK; simp at hfirstK
    | some t =>
      rw [hh] at hfirstK
      simp only [Option.map_some', Option.some.injEq, List.map_eq_nil_iff] at hfirstK
      rw [hfirstK]
  have hrej : ∀ c t, rest = c :: t → sanRe.rejects c = true := by
    intro c t h
    rw [sanRe_eq_comap, Re.rejects_comap, hrest c t h]
    rfl
  rw [Re.run_rests sanRe hsimple, Re.rests_append sanRe hsimple san rest hrej, List.head?_map,
    List.head?_map, hfirst]
  rfl
/-- A character outside the 27 characters of the move grammar has the kind `other`. -/
theorem kind_other (d : Char) (h : d ∉ "NBRQKabcdefgh12345678x=+#O-".toList) :
    kind d = Kind.other := by
  have hl : "NBRQKabcdefgh12345678x=+#O-".toList = ['N', 'B', 'R', 'Q', 'K', 'a', 'b', 'c', 'd', 'e', 'f', 'g', 'h', '1', '2', '3', '4', '5', '6', '7', '8', 'x', '=', '+', '#', 'O', '-'] := rfl
  rw [hl] at h
  simp only [List.mem_cons, List.mem_singleton, List.not_mem_nil, or_false, not_or] at h
  obtain ⟨n0, n1, n2, n3, n4, n5, n6, n7, n8, n9, n10, n11, n12, n13, n14, n15, n16, n17, n18, n19, n20, n21, n22, n23, n24, n25, n26⟩ := h
  unfold kind
  simp only [n0, n1, n2, n3, n4, n5, n6, n7, n8, n9, n10, n11, n12, n13, n14, n15, n16, n17, n18, n19, n20, n21, n22, n23, n24, n25, n26, or_self, if_false]

/-- White space has the kind `other`. -/
theorem kind_space (d : Char) (h : isSpace d = true) : kind d = Kind.other := by
  apply kind_other
  intro hmem
  have hl : "NBRQKabcdefgh12345678x=+#O-".toList = ['N', 'B', 'R', 'Q', 'K', 'a', 'b', 'c', 'd', 'e', 'f', 'g', 'h', '1', '2', '3', '4', '5', '6', '7', '8', 'x', '=', '+', '#', 'O', '-'] := rfl
  rw [hl] at hmem
  simp only [List.mem_cons, List.mem_singleton, List.not_mem_nil, or_false] at hmem
  rcases hmem with rfl | rfl | rfl | rfl | rfl | rfl | rfl | rfl | rfl | rfl | rfl | rfl | rfl | rfl | rfl | rfl | rfl | rfl | rfl | rfl | rfl | rfl | rfl | rfl | rfl | rfl | rfl <;> exact absurd h (by decide)

/-- A move of the grammar begins with a character of the grammar. -/
theorem isSan_head (san : List Char) (hsan : isSan san = true) :
    ∃ c t, san = c :: t ∧ kind c ≠ Kind.other := by
  have hsimple : sanRe.simple = true := by rfl
  have hsimpleK : sanReK.simple = true := by rfl
  have hmem : [] ∈ Re.rests sanRe san := by
    unfold isSan at hsan
    rw [Re.run_rests sanRe hsimple, List.any_eq_true] at hsan
    obtain ⟨st, hst, hempty⟩ := hsan
    rw [List.mem_map] at hst
    obtain ⟨t, ht, rfl⟩ := hst
    have : t = [] := by simpa using hempty
    rw [← this]; exact ht
  have hmemK : [] ∈ Re.rests sanReK (san.map kind) := by
    rw [← Re.rests_comap kind sanReK hsimpleK, ← sanRe_eq_comap]
    exact List.mem_map.mpr ⟨[], hmem, rfl⟩
  obtain ⟨w, hw, hwe⟩ := Re.rests_words Kind.all (fun k => by cases k <;> decide) sanReK hsimpleK
    _ _ hmemK
  rw [List.append_nil] at hwe
  have hall : (Re.words Kind.all sanReK).all
      (fun w => match w with
        | [] => false
        | k :: _ => k != Kind.other) = true := by decide
  have := List.all_eq_true.mp hall w hw
  cases san with
  | nil =>
    rw [← hwe] at this
    simp at this
  | cons c t =>
    refine ⟨c, t, rfl, ?_⟩
    rw [← hwe] at this
    simpa using this
/-! ## The match of first priority -/

/-- The first match of `a b` is the first match of `b` after the first match of `a`, when
there is one. -/
theorem Re.head_seq {α : Type} (a b : Re α) (st st1 st2 : MState α)
    (ha : (Re.run a st).head? = some st1) (hb : (Re.run b st1).head? = some st2) :
    (Re.run (Re.seq a b) st).head? = some st2 := by
  cases hl : Re.run a st with
  | nil => rw [hl] at ha; simp at ha
  | cons x l =>
    rw [hl] at ha
    simp only [List.head?_cons, Option.some.injEq] at ha
    subst ha
    simp only [Re.run, hl, List.flatMap_cons, List.head?_append, hb, Option.or_some]

/-- The first match of a group records the text it consumed. -/
theorem Re.head_group {α : Type} (n : Nat) (a : Re α) (u s2 : List α) (c c2 : Caps α)
    (ha : (Re.run a (u ++ s2, c)).head? = some (s2, c2)) :
    (Re.run (Re.group n a) (u ++ s2, c)).head? = some (s2, (n, u) :: c2) := by
  simp only [Re.run, List.head?_map, ha, Option.map_some', List.length_append,
    Nat.add_sub_cancel, List.take_left']

/-- A class matches a character it holds. -/
theorem Re.run_chr_cons {α : Type} (p : α → Bool) (x : α) (s : List α) (c : Caps α)
    (hx : p x = true) : Re.run (Re.chr p) (x :: s, c) = [(s, c)] := by
  simp [Re.run, hx]

/-- A class matches nothing at the end of the input or at a character it does not hold. -/
theorem Re.run_chr_nil {α : Type} (p : α → Bool) (s : List α) (c : Caps α)
    (hs : ∀ x t, s = x :: t → p x = false) : Re.run (Re.chr p) (s, c) = [] := by
  cases s with
  | nil => rfl
  | cons x t => simp [Re.run, hs x t rfl]

/-- The greedy loop over a class reads the whole run of characters of the class first. -/
theorem Re.starAux_chr_head {α : Type} (p : α → Bool) (xs rest : List α) (c : Caps α)
    (hxs : ∀ x ∈ xs, p x = true) (hrest : ∀ x t, rest = x :: t → p x = false)
    (fuel : Nat) (hf : xs.length ≤ fuel) :
    (Re.starAux (fun st => Re.run (Re.chr p) st) fuel (xs ++ rest, c)).head?
      = some (rest, c) := by
  induction xs generalizing fuel with
  | nil =>
    cases fuel with
    | zero => rfl
    | succ n => simp [Re.starAux, Re.run_chr_nil p rest c hrest]
  | cons x xs ih =>
    cases fuel with
    | zero => simp at hf
    | succ n =>
      have hx : p x = true := hxs x (List.mem_cons_self _ _)
      have ih2 := ih (fun y hy => hxs y (List.mem_cons_of_mem _ hy)) n
        (by simpa using hf)
      simp only [List.cons_append, Re.starAux, Re.run_chr_cons p x _ c hx, List.filter_cons,
        List.length_cons, Nat.lt_succ_self, decide_True, if_true, List.filter_nil,
        List.flatMap_cons, List.flatMap_nil, List.append_nil, List.head?_append, ih2,
        Option.or_some]

/-- The first match of `[p]*` is the run of characters of the class at the head of the
input. -/
theorem Re.head_star_chr {α : Type} (p : α → Bool) (xs rest : List α) (c : Caps α)
    (hxs : ∀ x ∈ xs, p x = true) (hrest : ∀ x t, rest = x :: t → p x = false) :
    (Re.run (Re.star (Re.chr p)) (xs ++ rest, c)).head? = some (rest, c) := by
  simp only [Re.run]
  exact Re.starAux_chr_head p xs rest c hxs hrest _ (by simp)

/-- The first match of `[p]+` is the non-empty run of characters of the class at the head of
the input. -/
theorem Re.head_plus_chr {α : Type} (p : α → Bool) (xs rest : List α) (c : Caps α)
    (hne : xs ≠ []) (hxs : ∀ x ∈ xs, p x = true) (hrest : ∀ x t, rest = x :: t → p x = false) :
    (Re.run (Re.plus (Re.chr p)) (xs ++ rest, c)).head? = some (rest, c) := by
  cases xs with
  | nil => exact absurd rfl hne
  | cons x xs =>
    refine Re.head_seq _ _ _ (xs ++ rest, c) _ ?_ ?_
    · rw [List.cons_append, Re.run_chr_cons p x _ c (hxs x (List.mem_cons_self _ _))]
      rfl
    · exact Re.head_star_chr p xs rest c (fun y hy => hxs y (List.mem_cons_of_mem _ hy)) hrest

/-- The first match of `a?` is the first match of `a` when that one consumes input. -/
theorem Re.head_opt_some {α : Type} (a : Re α) (st st1 : MState α)
    (ha : (Re.run a st).head? = some st1) (hlt : st1.1.length < st.1.length) :
    (Re.run (Re.opt a) st).head? = some st1 := by
  cases hl : Re.run a st with
  | nil => rw [hl] at ha; simp at ha
  | cons x l =>
    rw [hl] at ha
    simp only [List.head?_cons, Option.some.injEq] at ha
    subst ha
    simp [Re.run, hl, List.filter_cons, hlt]

/-- The pattern `a?` matches the empty string first when no match of `a` consumes input. -/
theorem Re.head_opt_none {α : Type} (a : Re α) (st : MState α)
    (ha : ∀ st1 ∈ Re.run a st, ¬ st1.1.length < st.1.length) :
    (Re.run (Re.opt a) st).head? = some st := by
  have : (Re.run a st).filter (fun st2 => decide (st2.1.length < st.1.length)) = [] := by
    rw [List.filter_eq_nil_iff]
    intro x hx
    simpa using ha x hx
  simp [Re.run, this]

/-- Each result of the greedy loop over a class has dropped characters of the class only. -/
theorem Re.starAux_chr_mem {α : Type} (p : α → Bool) (fuel : Nat) (s : List α) (c : Caps α)
    (st : MState α) (h : st ∈ Re.starAux (fun st => Re.run (Re.chr p) st) fuel (s, c)) :
    ∃ u, s = u ++ st.1 ∧ (∀ x ∈ u, p x = true) ∧ st.2 = c := by
  induction fuel generalizing s with
  | zero =>
    simp only [Re.starAux, List.mem_singleton] at h
    exact ⟨[], by simp [h], by simp, by simp [h]⟩
  | succ n ih =>
    simp only [Re.starAux, List.mem_append, List.mem_flatMap, List.mem_filter,
      List.mem_singleton] at h
    rcases h with ⟨x, ⟨hx, _⟩, hst⟩ | h
    · cases s with
      | nil => simp [Re.run] at hx
      | cons a t =>
        simp only [Re.run] at hx
        split at hx
        · rename_i hp
          simp only [List.mem_singleton] at hx
          subst hx
          obtain ⟨u, hu, hall, hc⟩ := ih t hst
          refine ⟨a :: u, by simp [← hu], ?_, hc⟩
          intro y hy
          rcases List.mem_cons.mp hy with rfl | hy
          · exact hp
          · exact hall y hy
        · simp at hx
    · exact ⟨[], by simp [h], by simp, by simp [h]⟩

/-- Dropping the characters of a class goes through a run of them. -/
theorem dropWhile_append_run {α : Type} (p : α → Bool) (u v : List α)
    (hu : ∀ x ∈ u, p x = true) : (u ++ v).dropWhile p = v.dropWhile p := by
  induction u with
  | nil => rfl
  | cons x u ih =>
    have hx : p x = true := hu x (List.mem_cons_self _ _)
    simp only [List.cons_append, List.dropWhile_cons, hx, if_true]
    exact ih (fun y hy => hu y (List.mem_cons_of_mem _ hy))
/-! ## The preview of a variation -/

/-- A digit is not white space. -/
theorem isSpace_of_isDigit (c : Char) (h : isDigit c = true) : isSpace c = false := by
  have h1 : 48 ≤ c.toNat ∧ c.toNat ≤ 57 := by
    unfold isDigit at h
    simp only [Bool.and_eq_true, decide_eq_true_eq] at h
    exact ⟨h.1, h.2⟩
  rw [Bool.eq_false_iff]
  intro hs
  unfold isSpace at hs
  simp only [Bool.or_eq_true, beq_iff_eq, Bool.and_eq_true, decide_eq_true_eq] at hs
  casesm* _ ∨ _
  all_goals first
    | omega
    | (subst_vars; exact absurd h1.1 (by decide))

/-- Trimming the text of a NAG leaves `$` and the digits. -/
theorem trim_nag (sp ds : List Char) (hsp : ∀ x ∈ sp, isSpace x = true) (hne : ds ≠ [])
    (hds : ∀ x ∈ ds, isDigit x = true) : trim (sp ++ '$' :: ds) = '$' :: ds := by
  unfold trim
  rw [dropWhile_append_run isSpace sp _ hsp]
  have h1 : ('$' :: ds).dropWhile isSpace = '$' :: ds := by
    simp only [List.dropWhile_cons]
    rfl
  rw [h1]
  obtain ⟨l, x, hl⟩ : ∃ l x, ds = l ++ [x] := by
    rcases List.eq_nil_or_concat ds with h | ⟨l, x, h⟩
    · exact absurd h hne
    · exact ⟨l, x, by rw [h, List.concat_eq_append]⟩
  have hx : isSpace x = false := isSpace_of_isDigit x (hds x (by simp [hl]))
  have h2 : ('$' :: ds).reverse = x :: ('$' :: l).reverse := by
    rw [hl]; simp
  rw [h2, List.dropWhile_cons, hx]
  simp [hl]
/-- The optional NAG group of the preview pattern reads a NAG that stands at the head of
the input, white space included. -/
theorem nagOpt_head (sp ds rest : List Char) (c : Caps Char)
    (hsp : ∀ x ∈ sp, isSpace x = true) (hne : ds ≠ []) (hds : ∀ x ∈ ds, isDigit x = true)
    (hrest : ∀ x t, rest = x :: t → isDigit x = false) :
    (Re.run (Re.opt (Re.group 4
        (Re.cat [Re.star (Re.chr isSpace), lit '$', Re.plus (Re.chr isDigit)])))
      ((sp ++ '$' :: ds) ++ rest, c)).head? = some (rest, (4, sp ++ '$' :: ds) :: c) := by
  apply Re.head_opt_some
  · apply Re.head_group
    show (Re.run (Re.seq (Re.star (Re.chr isSpace))
      (Re.seq (lit '$') (Re.plus (Re.chr isDigit)))) _).head? = _
    refine Re.head_seq _ _ _ ('$' :: (ds ++ rest), c) _ ?_ ?_
    · have : (sp ++ '$' :: ds) ++ rest = sp ++ ('$' :: (ds ++ rest)) := by simp
      rw [this]
      apply Re.head_star_chr _ _ _ _ hsp
      intro x t h
      simp only [List.cons.injEq] at h
      rw [← h.1]; rfl
    · refine Re.head_seq _ _ _ (ds ++ rest, c) _ ?_ ?_
      · unfold lit
        rw [Re.run_chr_cons _ _ _ _ (by rfl)]
        rfl
      · exact Re.head_plus_chr _ ds rest c hne hds hrest
  · simp only [List.length_append, List.length_cons]
    omega

/-- The optional NAG group of the preview pattern is skipped when no NAG stands at the head
of the input after white space. -/
theorem nagOpt_skip (s : List Char) (c : Caps Char) (hs : startsNag s = false) :
    (Re.run (Re.opt (Re.group 4
        (Re.cat [Re.star (Re.chr isSpace), lit '$', Re.plus (Re.chr isDigit)])))
      (s, c)).head? = some (s, c) := by
  apply Re.head_opt_none
  intro st1 hst1
  exfalso
  simp only [Re.run, Re.cat, Re.plus, List.mem_map, List.mem_flatMap] at hst1
  obtain ⟨st2, ⟨st3, hst3, st4, hst4, st5, hst5, _⟩, _⟩ := hst1
  obtain ⟨u, hu, hall, _⟩ := Re.starAux_chr_mem isSpace _ s c st3 hst3
  obtain ⟨t3, c3⟩ := st3
  cases t3 with
  | nil => simp [lit] at hst4
  | cons x t =>
    simp only [lit] at hst4
    split at hst4
    · rename_i hx
      have hx2 : x = '$' := by simpa using hx
      simp only [List.mem_singleton] at hst4
      subst hst4
      cases t with
      | nil => simp at hst5
      | cons d t2 =>
        simp only [] at hst5
        split at hst5
        · rename_i hd
          unfold startsNag at hs
          rw [hu, dropWhile_append_run isSpace u _ hall, hx2] at hs
          have hsp : isSpace '$' = false := by decide
          simp only [List.dropWhile_cons, hsp] at hs
          simp only [Bool.false_eq_true, if_false] at hs
          rw [hd] at hs
          exact absurd hs (by decide)
        · simp at hst5
    · simp at hst4

/-- The optional glyph group of the preview pattern reads the glyphs at the head of the
input. -/
theorem glyphOpt_head (glyphs rest : List Char) (c : Caps Char) (hne : glyphs ≠ [])
    (hgl : ∀ x ∈ glyphs, "!?".toList.contains x = true)
    (hrest : ∀ x t, rest = x :: t → "!?".toList.contains x = false) :
    (Re.run (Re.opt (Re.group 5 (Re.star (oneOf "!?")))) (glyphs ++ rest, c)).head?
      = some (rest, (5, glyphs) :: c) := by
  apply Re.head_opt_some
  · apply Re.head_group
    exact Re.head_star_chr _ glyphs rest c hgl hrest
  · cases glyphs with
    | nil => exact absurd rfl hne
    | cons g gs =>
      simp only [List.length_append, List.length_cons]
      omega

/-- The optional glyph group of the preview pattern is skipped when no glyph stands at the
head of the input. -/
theorem glyphOpt_skip (rest : List Char) (c : Caps Char)
    (hrest : ∀ x t, rest = x :: t → "!?".toList.contains x = false) :
    (Re.run (Re.opt (Re.group 5 (Re.star (oneOf "!?")))) (rest, c)).head? = some (rest, c) := by
  apply Re.head_opt_none
  intro st1 hst1
  simp only [Re.run, List.mem_map] at hst1
  obtain ⟨st2, hst2, rfl⟩ := hst1
  obtain ⟨u, hu, hall, _⟩ := Re.starAux_chr_mem _ _ rest c st2 hst2
  cases u with
  | nil =>
    simp only [List.nil_append] at hu
    simp [← hu]
  | cons x u =>
    have h1 := hall x (List.mem_cons_self _ _)
    have h2 := hrest x (u ++ st2.1) (by simpa using hu)
    rw [h1] at h2
    exact absurd h2 (by simp)
/-- C9 as stated fails on the body `1. d4!? $16 d5`: the text attaches the glyphs `!?` and
the NAG `$16`, mapped to `±`, to the first move, and the render of the body shows both
after `d4`, but the preview is `1. d4!?`, without the symbol of the NAG. -/
theorem getVariationPreview_drops_nag_after_glyphs :
    getVariationPreview "1. d4!? $16 d5" = "1. d4!?" ∧
    convertNag "$16" = "±" ∧
    getVariationPreview "1. d4!? $16 d5" ≠ "1. d4!?±" ∧
    getVariationPreview "1. d4!? $16 d5" ≠ "1. d4±!?" ∧
    parseNodes sampleRules "1. d4!? $16 d5" true (some "start")
      = .ok [Node.moveNumber "1.", Node.varMove "start d4" "start" "d4!?", Node.nag "±",
          Node.varMove "start d4 d5" "start d4" "d5"] := by
  refine ⟨by decide, by decide, by decide, by decide, by rfl⟩

/-! ## The navigation machine: the invariant -/

/-- An index within the list reads an entry. -/
theorem fenAt_some (fens : List String) (i : Int) (h0 : 0 ≤ i) (h1 : i < fens.length) :
    ∃ fen, fenAt fens i = some fen := by
  have h2 : ¬ (i < 0) := by omega
  have h3 : i.toNat < fens.length := by omega
  exact ⟨fens.get ⟨i.toNat, h3⟩, by simp only [fenAt, h2, if_false]; exact List.get?_eq_get _⟩

/-- The function `initializeChessBoard` is `loadMainline` on what the extractor returns. -/
theorem initializeChessBoard_eq {P : Type} (R : Rules P) (s : Session) (pgn : String) :
    initializeChessBoard R s pgn =
      match extractMainlineMoves pgn with
      | .error _ => s
      | .ok extractedMoves => loadMainline R s extractedMoves := by
  unfold initializeChessBoard loadMainline
  cases extractMainlineMoves pgn <;> rfl

/-- The state after a load satisfies the invariant. -/
theorem loadMainline_wellFormed {P : Type} (R : Rules P) (s : Session)
    (extractedMoves : List String) : (loadMainline R s extractedMoves).wellFormed R := by
  have inv := buildLoop_inv R extractedMoves R.init [] [R.fen R.init] (R.fen R.init) rfl rfl rfl
  refine ⟨le_refl _, ?_, ?_⟩
  · show (0 : Int) ≤ ((buildMainline R extractedMoves).1.length : Int)
    omega
  · intro b hb
    have hb2 : b = Shown.start := by
      have : some Shown.start = some b := hb
      exact (Option.some.inj this).symm
    subst hb2
    refine ⟨inv.1, ?_, rfl, rfl⟩
    intro _
    show some (R.fen R.init) = fenAt (buildMainline R extractedMoves).2 0
    have h := inv.2.1
    unfold buildMainline
    cases hf : (buildLoop R extractedMoves (R.init, [], [R.fen R.init])).2.2 with
    | nil => rw [hf] at h; simp at h
    | cons a t => rw [hf] at h; simp at h; simp [fenAt, h]

/-- The highlight step changes the marked squares only. -/
theorem highlightLastMove_state (s : Session) (moveIndex : Int) :
    (highlightLastMove s moveIndex).state = { s with squares := none } := by
  unfold highlightLastMove parseMoveSquares
  split_ifs <;> rfl

/-- The invariant does not read the marked element and the marked squares. -/
theorem wellFormed_congr {P : Type} (R : Rules P) (s t : Session)
    (h1 : t.currentBoard = s.currentBoard) (h2 : t.currentMoveIndex = s.currentMoveIndex)
    (h3 : t.isInVariation = s.isInVariation) (h4 : t.mainlineMoves = s.mainlineMoves)
    (h5 : t.mainlineFens = s.mainlineFens) (h6 : t.prevDisabled = s.prevDisabled)
    (h7 : t.nextDisabled = s.nextDisabled) (h : s.wellFormed R) : t.wellFormed R := by
  unfold Session.wellFormed at h ⊢
  rw [h1, h2, h3, h4, h5, h6, h7]
  exact h

/-- A state in mainline state with the buttons set, the index in range and the board
showing the entry of the index satisfies the invariant. -/
theorem wellFormed_mainline {P : Type} (R : Rules P) (s : Session) (i : Int)
    (h0 : 0 ≤ i) (h1 : i ≤ s.mainlineMoves.length)
    (hl : s.mainlineFens.length = s.mainlineMoves.length + 1) :
    (updateButtons { s with currentBoard := some (Shown.arg (fenAt s.mainlineFens i)),
                            currentMoveIndex := i, isInVariation := false }).wellFormed R := by
  refine ⟨h0, h1, ?_⟩
  intro b hb
  have hb2 : b = Shown.arg (fenAt s.mainlineFens i) := (Option.some.inj hb).symm
  subst hb2
  exact ⟨hl, fun _ => rfl, rfl, rfl⟩

/-- The move-list highlight changes the marked element only. -/
theorem updateMovesHighlight_eq (s : Session) :
    ∃ a, updateMovesHighlight s = { s with active := a } := by
  unfold updateMovesHighlight
  split
  · exact ⟨_, rfl⟩
  · exact ⟨_, rfl⟩

/-- The command `goToMove` keeps the invariant. -/
theorem goToMove_wellFormed {P : Type} (R : Rules P) (s : Session) (index : Int)
    (h : s.wellFormed R) : (goToMove s index).state.wellFormed R := by
  unfold goToMove
  cases hb : s.currentBoard with
  | none => exact h
  | some b =>
    simp only []
    split_ifs with hi
    · exact h
    · have hl := (h.2.2 b hb).1
      rw [highlightLastMove_state]
      obtain ⟨a, ha⟩ := updateMovesHighlight_eq (updateButtons
        { s with currentBoard := some (Shown.arg (fenAt s.mainlineFens (index + 1))),
                 currentMoveIndex := index + 1, isInVariation := false })
      rw [ha]
      exact wellFormed_congr R _ _ rfl rfl rfl rfl rfl rfl rfl
        (wellFormed_mainline R s (index + 1) (by omega) (by omega) hl)

/-- The command `resetBoard` keeps the invariant. -/
theorem resetBoard_wellFormed {P : Type} (R : Rules P) (s : Session)
    (h : s.wellFormed R) : (resetBoard s).state.wellFormed R := by
  unfold resetBoard
  cases hb : s.currentBoard with
  | none => exact h
  | some b =>
    have hl := (h.2.2 b hb).1
    simp only [clearMoveHighlights]
    obtain ⟨a, ha⟩ := updateMovesHighlight_eq (updateButtons
      { s with currentBoard := some (Shown.arg (fenAt s.mainlineFens 0)),
               currentMoveIndex := 0, isInVariation := false, lastClickedElement := none })
    rw [ha]
    exact wellFormed_congr R _ _ rfl rfl rfl rfl rfl rfl rfl
      (wellFormed_mainline R s 0 (le_refl _) (by omega) hl)

/-- The command `lastMove` keeps the invariant. -/
theorem lastMove_wellFormed {P : Type} (R : Rules P) (s : Session)
    (h : s.wellFormed R) : (lastMove s).state.wellFormed R := by
  unfold lastMove
  cases hb : s.currentBoard with
  | none => exact h
  | some b =>
    simp only []
    split_ifs with hi
    · exact h
    · have hl := (h.2.2 b hb).1
      rw [highlightLastMove_state]
      obtain ⟨a, ha⟩ := updateMovesHighlight_eq (updateButtons
        { s with isInVariation := false, lastClickedElement := none,
                 currentMoveIndex := s.mainlineMoves.length,
                 currentBoard := some (Shown.arg (fenAt s.mainlineFens s.mainlineMoves.length)) })
      rw [ha]
      exact wellFormed_congr R _ _ rfl rfl rfl rfl rfl rfl rfl
        (wellFormed_mainline R s s.mainlineMoves.length (by omega) (le_refl _) hl)

/-- The command `nextMove` keeps the invariant. -/
theorem nextMove_wellFormed {P : Type} (R : Rules P) (s : Session)
    (h : s.wellFormed R) : (nextMove s).state.wellFormed R := by
  unfold nextMove
  cases hb : s.currentBoard with
  | none => exact h
  | some b =>
    simp only []
    split_ifs with hi hv
    · exact h
    · have hl := (h.2.2 b hb).1
      have h0 := h.1
      rw [highlightLastMove_state]
      obtain ⟨a, ha⟩ := updateMovesHighlight_eq (updateButtons
        { s with isInVariation := false, lastClickedElement := none,
                 currentMoveIndex := s.currentMoveIndex + 1,
                 currentBoard := some (Shown.arg (fenAt s.mainlineFens (s.currentMoveIndex + 1))) })
      rw [ha]
      exact wellFormed_congr R _ _ rfl rfl rfl rfl rfl rfl rfl
        (wellFormed_mainline R s (s.currentMoveIndex + 1) (by omega) (by omega) hl)
    · have hl := (h.2.2 b hb).1
      have h0 := h.1
      have hv2 : s.isInVariation = false := by simpa using hv
      rw [highlightLastMove_state]
      obtain ⟨a, ha⟩ := updateMovesHighlight_eq (updateButtons
        { s with currentMoveIndex := s.currentMoveIndex + 1,
                 currentBoard := some (Shown.arg (fenAt s.mainlineFens (s.currentMoveIndex + 1))) })
      rw [ha]
      refine wellFormed_congr R _ _ ?_ ?_ ?_ ?_ ?_ ?_ ?_
        (wellFormed_mainline R s (s.currentMoveIndex + 1) (by omega) (by omega) hl)
      · rfl
      · rfl
      · exact hv2
      · rfl
      · rfl
      · simp [updateButtons, hv2]
      · rfl

/-- The command `previousMove` keeps the invariant. -/
theorem previousMove_wellFormed {P : Type} (R : Rules P) (s : Session)
    (h : s.wellFormed R) : (previousMove s).state.wellFormed R := by
  unfold previousMove
  cases hb : s.currentBoard with
  | none => exact h
  | some b =>
    obtain ⟨h0, h1, h2⟩ := h
    obtain ⟨hl, hs, hp, hn⟩ := h2 b hb
    simp only []
    by_cases hv : s.isInVariation = true
    · rw [if_pos hv]
      obtain ⟨a, ha⟩ := updateMovesHighlight_eq
        { s with isInVariation := false, lastClickedElement := none,
                 currentBoard := some (Shown.arg (fenAt s.mainlineFens s.currentMoveIndex)) }
      rw [ha]
      have hw := wellFormed_mainline R s s.currentMoveIndex h0 h1 hl
      by_cases hi : s.currentMoveIndex > 0
      · rw [if_pos hi]
        have hp2 : s.prevDisabled = (s.currentMoveIndex == 0 && !false) := by
          rw [hp, hv]
          have : (s.currentMoveIndex == 0) = false := by
            rw [beq_eq_false_iff_ne]; omega
          simp [this]
        split
        · rw [highlightLastMove_state]
          refine wellFormed_congr R _ _ ?_ ?_ ?_ ?_ ?_ ?_ ?_ hw
          · rfl
          · rfl
          · rfl
          · rfl
          · rfl
          · exact hp2
          · exact hn
        · rw [highlightLastMove_state]
          refine wellFormed_congr R _ _ ?_ ?_ ?_ ?_ ?_ ?_ ?_ hw
          all_goals rfl
      · rw [if_neg hi]
        refine wellFormed_congr R _ _ ?_ ?_ ?_ ?_ ?_ ?_ ?_ hw
        all_goals rfl
    · rw [if_neg hv]
      have hv2 : s.isInVariation = false := by simpa using hv
      by_cases hi : s.currentMoveIndex ≤ 0
      · rw [if_pos hi]
        exact ⟨h0, h1, h2⟩
      · rw [if_neg hi]
        obtain ⟨a, ha⟩ := updateMovesHighlight_eq (updateButtons
          { s with currentMoveIndex := s.currentMoveIndex - 1,
                   currentBoard :=
                     some (Shown.arg (fenAt s.mainlineFens (s.currentMoveIndex - 1))) })
        have hw := wellFormed_mainline R s (s.currentMoveIndex - 1) (by omega) (by omega) hl
        rw [ha]
        split_ifs with hj
        · rw [highlightLastMove_state]
          refine wellFormed_congr R _ _ ?_ ?_ ?_ ?_ ?_ ?_ ?_ hw
          · rfl
          · rfl
          · exact hv2
          · rfl
          · rfl
          · simp [updateButtons, hv2]
          · rfl
        · refine wellFormed_congr R _ _ ?_ ?_ ?_ ?_ ?_ ?_ ?_ hw
          · rfl
          · rfl
          · exact hv2
          · rfl
          · rfl
          · simp [updateButtons, clearMoveHighlights, hv2]
          · rfl

/-- The square highlight of a clicked element changes the marked squares only. -/
theorem highlightMoveFromElement_eq {P : Type} (R : Rules P) (s : Session)
    (moveElement : Option Element) :
    ∃ q, highlightMoveFromElement R s moveElement = { s with squares := q } := by
  unfold highlightMoveFromElement clearMoveHighlights
  cases moveElement with
  | none => exact ⟨_, rfl⟩
  | some e =>
    simp only []
    split_ifs
    · exact ⟨_, rfl⟩
    · split
      · exact ⟨_, rfl⟩
      · exact ⟨_, rfl⟩

/-- The command `goToPosition` keeps the invariant. -/
theorem goToPosition_wellFormed {P : Type} (R : Rules P) (s : Session) (fen : Option String)
    (clickedElement : Option Element) (h : s.wellFormed R) :
    (goToPosition R s fen clickedElement).state.wellFormed R := by
  unfold goToPosition
  cases hb : s.currentBoard with
  | none => exact h
  | some b =>
    obtain ⟨h0, h1, h2⟩ := h
    obtain ⟨hl, hs, hp, hn⟩ := h2 b hb
    simp only []
    split_ifs with hf
    · exact ⟨h0, h1, h2⟩
    · cases clickedElement with
      | none =>
        obtain ⟨q, hq⟩ := highlightMoveFromElement_eq R (clearAllMoveHighlights
          { s with currentBoard := some (Shown.arg fen), isInVariation := true }) none
        simp only []
        rw [hq]
        refine ⟨h0, h1, ?_⟩
        intro b2 _
        exact ⟨hl, fun hc => absurd hc (by simp [updateButtons, clearAllMoveHighlights,
          clearMoveHighlights]), rfl, rfl⟩
      | some e =>
        obtain ⟨q, hq⟩ := highlightMoveFromElement_eq R
          { clearAllMoveHighlights
              { s with currentBoard := some (Shown.arg fen), isInVariation := true } with
            active := Active.clicked e, lastClickedElement := some e } (some e)
        simp only []
        rw [hq]
        refine ⟨h0, h1, ?_⟩
        intro b2 _
        exact ⟨hl, fun hc => absurd hc (by simp [updateButtons, clearAllMoveHighlights,
          clearMoveHighlights]), rfl, rfl⟩

/-- Every navigation command keeps the invariant. -/
theorem Command.run_wellFormed {P : Type} (R : Rules P) (s : Session) (c : Command)
    (h : s.wellFormed R) : (c.run R s).state.wellFormed R := by
  cases c with
  | goToMove index => exact goToMove_wellFormed R s index h
  | goToPosition fen clickedElement => exact goToPosition_wellFormed R s fen clickedElement h
  | previousMove => exact previousMove_wellFormed R s h
  | nextMove => exact nextMove_wellFormed R s h
  | resetBoard => exact resetBoard_wellFormed R s h
  | lastMove => exact lastMove_wellFormed R s h

/-- A sequence of navigation commands keeps the invariant. -/
theorem navigate_wellFormed {P : Type} (R : Rules P) (cmds : List Command) (s : Session)
    (h : s.wellFormed R) : (navigate R s cmds).wellFormed R := by
  induction cmds generalizing s with
  | nil => exact h
  | cons c rest ih => exact ih _ (Command.run_wellFormed R s c h)

/-- The state of the loaded script satisfies the invariant: no board is loaded. -/
theorem initial_wellFormed {P : Type} (R : Rules P) : Session.initial.wellFormed R :=
  ⟨le_refl _, le_refl _, fun b hb => by cases hb⟩

/-- Every reachable session satisfies the invariant. -/
theorem reachable_wellFormed {P : Type} (R : Rules P) (s : Session) (h : Reachable R s) :
    s.wellFormed R := by
  induction h with
  | initial => exact initial_wellFormed R
  | load s pgn _ ih =>
    rw [initializeChessBoard_eq]
    cases extractMainlineMoves pgn with
    | error e => exact ih
    | ok extractedMoves => exact loadMainline_wellFormed R s extractedMoves
  | step s c _ ih => exact Command.run_wellFormed R s c ih

/-- The move-list highlight keeps the board and the two lists. -/
theorem updateMovesHighlight_frame (s : Session) :
    (updateMovesHighlight s).currentBoard = s.currentBoard ∧
    (updateMovesHighlight s).mainlineMoves = s.mainlineMoves ∧
    (updateMovesHighlight s).mainlineFens = s.mainlineFens ∧
    (updateMovesHighlight s).currentMoveIndex = s.currentMoveIndex := by
  obtain ⟨a, ha⟩ := updateMovesHighlight_eq s
  rw [ha]
  exact ⟨rfl, rfl, rfl, rfl⟩

/-- The square highlight of a clicked element keeps the board and the two lists. -/
theorem highlightMoveFromElement_frame {P : Type} (R : Rules P) (s : Session)
    (moveElement : Option Element) :
    (highlightMoveFromElement R s moveElement).currentBoard = s.currentBoard ∧
    (highlightMoveFromElement R s moveElement).mainlineMoves = s.mainlineMoves ∧
    (highlightMoveFromElement R s moveElement).mainlineFens = s.mainlineFens := by
  obtain ⟨a, ha⟩ := highlightMoveFromElement_eq R s moveElement
  rw [ha]
  exact ⟨rfl, rfl, rfl⟩

/-- No navigation command changes the two lists, and none unloads the board. -/
theorem command_frame {P : Type} (R : Rules P) (s : Session) (c : Command) :
    (c.run R s).state.mainlineMoves = s.mainlineMoves ∧
    (c.run R s).state.mainlineFens = s.mainlineFens ∧
    (c.run R s).state.currentBoard.isSome = s.currentBoard.isSome := by
  cases hb : s.currentBoard with
  | none =>
    cases c <;>
      simp [Command.run, goToMove, goToPosition, previousMove, nextMove, resetBoard,
        lastMove, hb]
  | some b =>
    have hfin : ∀ t : Session, t.mainlineMoves = s.mainlineMoves ∧
        t.mainlineFens = s.mainlineFens ∧ t.currentBoard.isSome = true →
        ∀ (i : Int), (highlightLastMove (updateMovesHighlight (updateButtons t)) i).state.mainlineMoves
            = s.mainlineMoves ∧
          (highlightLastMove (updateMovesHighlight (updateButtons t)) i).state.mainlineFens
            = s.mainlineFens ∧
          (highlightLastMove (updateMovesHighlight (updateButtons t)) i).state.currentBoard.isSome
            = (some b).isSome := by
      intro t ht i
      rw [highlightLastMove_state]
      obtain ⟨a, ha⟩ := updateMovesHighlight_eq (updateButtons t)
      rw [ha]
      exact ht
    cases c with
    | goToMove index =>
      simp only [Command.run, SuperChessPrep.goToMove, hb]
      split_ifs
      · simp [hb]
      · exact hfin _ (by exact ⟨rfl, rfl, rfl⟩) _
    | goToPosition fen clickedElement =>
      simp only [Command.run, SuperChessPrep.goToPosition, hb]
      split_ifs
      · simp [hb]
      · cases clickedElement <;>
          simp [(highlightMoveFromElement_frame R _ _).1,
            (highlightMoveFromElement_frame R _ _).2.1,
            (highlightMoveFromElement_frame R _ _).2.2, updateButtons, clearMoveHighlights,
            clearAllMoveHighlights]
    | previousMove =>
      simp only [Command.run, SuperChessPrep.previousMove, hb]
      obtain ⟨a, ha⟩ := updateMovesHighlight_eq
        { s with isInVariation := false, lastClickedElement := none,
                 currentBoard := some (Shown.arg (fenAt s.mainlineFens s.currentMoveIndex)) }
      rw [ha]
      by_cases hv : s.isInVariation = true
      · rw [if_pos hv]
        split_ifs
        · split <;> rw [highlightLastMove_state] <;> exact ⟨rfl, rfl, rfl⟩
        · exact ⟨rfl, rfl, rfl⟩
      · rw [if_neg hv]
        by_cases hi : s.currentMoveIndex ≤ 0
        · rw [if_pos hi]
          simp [hb]
        · rw [if_neg hi]
          split_ifs
          · exact hfin _ (by exact ⟨rfl, rfl, rfl⟩) _
          · obtain ⟨a2, ha2⟩ := updateMovesHighlight_eq (updateButtons
              { s with currentMoveIndex := s.currentMoveIndex - 1,
                       currentBoard :=
                         some (Shown.arg (fenAt s.mainlineFens (s.currentMoveIndex - 1))) })
            rw [ha2]
            exact ⟨rfl, rfl, rfl⟩
    | nextMove =>
      simp only [Command.run, SuperChessPrep.nextMove, hb]
      split_ifs
      · simp [hb]
      · exact hfin _ (by exact ⟨rfl, rfl, rfl⟩) _
      · exact hfin _ (by exact ⟨rfl, rfl, rfl⟩) _
    | resetBoard =>
      simp only [Command.run, SuperChessPrep.resetBoard, hb]
      obtain ⟨a, ha⟩ := updateMovesHighlight_eq (updateButtons
        { s with currentBoard := some (Shown.arg (fenAt s.mainlineFens 0)),
                 currentMoveIndex := 0, isInVariation := false, lastClickedElement := none })
      rw [ha]
      exact ⟨rfl, rfl, rfl⟩
    | lastMove =>
      simp only [Command.run, SuperChessPrep.lastMove, hb]
      split_ifs
      · simp [hb]
      · exact hfin _ (by exact ⟨rfl, rfl, rfl⟩) _

/-- A sequence of navigation commands changes neither list and does not unload the board. -/
theorem navigate_frame {P : Type} (R : Rules P) (cmds : List Command) (s : Session) :
    (navigate R s cmds).mainlineMoves = s.mainlineMoves ∧
    (navigate R s cmds).mainlineFens = s.mainlineFens ∧
    (navigate R s cmds).currentBoard.isSome = s.currentBoard.isSome := by
  induction cmds generalizing s with
  | nil => exact ⟨rfl, rfl, rfl⟩
  | cons c rest ih =>
    have h1 := ih (c.run R s).state
    have h2 := command_frame R s c
    exact ⟨h1.1.trans h2.1, h1.2.1.trans h2.2.1, h1.2.2.trans h2.2.2⟩

/-- In mainline state a session that satisfies the invariant shows the entry of the index. -/
theorem wellFormed_shown {P : Type} (R : Rules P) (s : Session) (b : Shown)
    (h : s.wellFormed R) (hb : s.currentBoard = some b) (hv : s.isInVariation = false) :
    ∃ fen, fenAt s.mainlineFens s.currentMoveIndex = some fen ∧ Shown.fen R b = some fen := by
  obtain ⟨h0, h1, h2⟩ := h
  obtain ⟨hl, hs, _, _⟩ := h2 b hb
  obtain ⟨fen, hf⟩ := fenAt_some s.mainlineFens s.currentMoveIndex h0 (by omega)
  exact ⟨fen, hf, (hs hv).trans hf⟩

/-- On a loaded board a session that satisfies the invariant has matching buttons. -/
theorem wellFormed_buttons {P : Type} (R : Rules P) (s : Session)
    (h : s.wellFormed R) (hb : s.currentBoard.isSome = true) : s.buttonsMatch := by
  obtain ⟨h0, h1, h2⟩ := h
  obtain ⟨b, hb2⟩ := Option.isSome_iff_exists.mp hb
  obtain ⟨_, _, hp, hn⟩ := h2 b hb2
  unfold Session.buttonsMatch
  rw [hp, hn]
  constructor
  · simp
  · simp only [decide_eq_true_eq]
    omega

/-- C11: in every session the page can reach by opening exercises and by navigation
commands with any arguments, a loaded board in mainline state (`isInVariation` false) shows
exactly `mainlineFens[currentMoveIndex]`, an entry of the list. The same holds after any
sequence of commands from the state that `initializeChessBoard` sets up for any list of
extracted moves, accepted or not, whatever the collaborator. -/
theorem mainline_state_shows_indexed_fen {P : Type} (R : Rules P) :
    (∀ (s : Session) (b : Shown), Reachable R s → s.currentBoard = some b →
      s.isInVariation = false →
      ∃ fen, fenAt s.mainlineFens s.currentMoveIndex = some fen ∧ Shown.fen R b = some fen) ∧
    (∀ (s0 : Session) (extractedMoves : List String) (cmds : List Command) (b : Shown),
      (navigate R (loadMainline R s0 extractedMoves) cmds).currentBoard = some b →
      (navigate R (loadMainline R s0 extractedMoves) cmds).isInVariation = false →
      ∃ fen, fenAt (navigate R (loadMainline R s0 extractedMoves) cmds).mainlineFens
          (navigate R (loadMainline R s0 extractedMoves) cmds).currentMoveIndex = some fen ∧
        Shown.fen R b = some fen) :=
  ⟨fun s b hr hb hv => wellFormed_shown R s b (reachable_wellFormed R s hr) hb hv,
   fun s0 extractedMoves cmds b hb hv =>
     wellFormed_shown R _ b
       (navigate_wellFormed R cmds _ (loadMainline_wellFormed R s0 extractedMoves)) hb hv⟩

/-- C11 at a concrete run: the mainline `e4 Qh5 e5` (the queen move is rejected), a click on
the variation move `d4`, then `nextMove` and `previousMove`: the board shows `start`, the
entry of index 0. -/
theorem mainline_state_shows_indexed_fen_witness :
    (navigate sampleRules (loadMainline sampleRules Session.initial ["e4", "Qh5", "e5"])
      [Command.goToPosition (some "start d4") (some sampleElement), Command.nextMove,
        Command.previousMove]).currentBoard = some (Shown.arg (some "start")) ∧
    (navigate sampleRules (loadMainline sampleRules Session.initial ["e4", "Qh5", "e5"])
      [Command.goToPosition (some "start d4") (some sampleElement), Command.nextMove,
        Command.previousMove]).isInVariation = false ∧
    ∃ fen, fenAt (navigate sampleRules
        (loadMainline sampleRules Session.initial ["e4", "Qh5", "e5"])
        [Command.goToPosition (some "start d4") (some sampleElement), Command.nextMove,
          Command.previousMove]).mainlineFens
        (navigate sampleRules (loadMainline sampleRules Session.initial ["e4", "Qh5", "e5"])
        [Command.goToPosition (some "start d4") (some sampleElement), Command.nextMove,
          Command.previousMove]).currentMoveIndex = some fen ∧
      Shown.fen sampleRules (Shown.arg (some "start")) = some fen :=
  ⟨by decide, by decide,
   (mainline_state_shows_indexed_fen sampleRules).2 Session.initial ["e4", "Qh5", "e5"]
     [Command.goToPosition (some "start d4") (some sampleElement), Command.nextMove,
       Command.previousMove] (Shown.arg (some "start")) (by decide) (by decide)⟩

/-- C12: in every session the page can reach by opening exercises and by navigation commands
with any arguments, `0 <= currentMoveIndex <= mainlineMoves.length`. From the state set up
for any list of extracted moves, accepted by the collaborator or not, no sequence of
commands changes `mainlineMoves`, the list of the accepted moves, and the index stays within
it, also after one more `nextMove`. -/
theorem currentMoveIndex_within_mainline {P : Type} (R : Rules P) :
    (∀ s : Session, Reachable R s →
      0 ≤ s.currentMoveIndex ∧ s.currentMoveIndex ≤ s.mainlineMoves.length) ∧
    (∀ (s0 : Session) (extractedMoves : List String) (cmds : List Command),
      (navigate R (loadMainline R s0 extractedMoves) cmds).mainlineMoves
        = (buildMainline R extractedMoves).1 ∧
      0 ≤ (navigate R (loadMainline R s0 extractedMoves) cmds).currentMoveIndex ∧
      (navigate R (loadMainline R s0 extractedMoves) cmds).currentMoveIndex
        ≤ (buildMainline R extractedMoves).1.length ∧
      (nextMove (navigate R (loadMainline R s0 extractedMoves) cmds)).state.currentMoveIndex
        ≤ (buildMainline R extractedMoves).1.length) := by
  refine ⟨fun s hr => ⟨(reachable_wellFormed R s hr).1, (reachable_wellFormed R s hr).2.1⟩, ?_⟩
  intro s0 extractedMoves cmds
  have hw := navigate_wellFormed R cmds _ (loadMainline_wellFormed R s0 extractedMoves)
  have hf := (navigate_frame R cmds (loadMainline R s0 extractedMoves)).1
  have hm : (loadMainline R s0 extractedMoves).mainlineMoves
      = (buildMainline R extractedMoves).1 := rfl
  have hn := nextMove_wellFormed R _ hw
  have hnf := (command_frame R (navigate R (loadMainline R s0 extractedMoves) cmds)
    Command.nextMove).1
  refine ⟨hf.trans hm, hw.1, ?_, ?_⟩
  · have h2 := hw.2.1
    rw [hf, hm] at h2
    exact h2
  · have h2 := hn.2.1
    have h3 : (nextMove (navigate R (loadMainline R s0 extractedMoves) cmds)).state.mainlineMoves
        = (buildMainline R extractedMoves).1 := (hnf.trans hf).trans hm
    rw [h3] at h2
    exact h2

/-- C12 at a concrete run: a blank PGN is opened and `nextMove`, `lastMove` and
`goToMove(5)` are issued: the index stays 0, the length of the empty mainline. -/
theorem currentMoveIndex_within_mainline_witness :
    Reachable sampleRules
      ((Command.goToMove 5).run sampleRules
        (Command.lastMove.run sampleRules
          (Command.nextMove.run sampleRules
            (initializeChessBoard sampleRules Session.initial " ")).state).state).state ∧
    0 ≤ ((Command.goToMove 5).run sampleRules
        (Command.lastMove.run sampleRules
          (Command.nextMove.run sampleRules
            (initializeChessBoard sampleRules Session.initial " ")).state).state).state.currentMoveIndex ∧
    ((Command.goToMove 5).run sampleRules
        (Command.lastMove.run sampleRules
          (Command.nextMove.run sampleRules
            (initializeChessBoard sampleRules Session.initial " ")).state).state).state.currentMoveIndex
      ≤ ((Command.goToMove 5).run sampleRules
        (Command.lastMove.run sampleRules
          (Command.nextMove.run sampleRules
            (initializeChessBoard sampleRules Session.initial " ")).state).state).state.mainlineMoves.length :=
  have hr := Reachable.step _ (Command.goToMove 5)
    (Reachable.step _ Command.lastMove
      (Reachable.step _ Command.nextMove
        (Reachable.load Session.initial " "
          (Reachable.initial : Reachable sampleRules Session.initial))))
  ⟨hr, (currentMoveIndex_within_mainline sampleRules).1 _ hr⟩

/-- C19: after every navigation command on a loaded board of a session the page can reach,
the two buttons match the new state: `prevBtn` is disabled exactly when `currentMoveIndex`
is 0 and the viewer is not in variation state, `nextBtn` exactly when `currentMoveIndex`
equals `mainlineMoves.length`. The same holds after any sequence of commands from the state
set up for any list of extracted moves. -/
theorem buttons_match_after_command {P : Type} (R : Rules P) :
    (∀ (s : Session) (c : Command), Reachable R s → s.currentBoard.isSome = true →
      (c.run R s).state.buttonsMatch) ∧
    (∀ (s0 : Session) (extractedMoves : List String) (cmds : List Command),
      (navigate R (loadMainline R s0 extractedMoves) cmds).buttonsMatch) := by
  constructor
  · intro s c hr hb
    exact wellFormed_buttons R _ (Command.run_wellFormed R s c (reachable_wellFormed R s hr))
      ((command_frame R s c).2.2.trans hb)
  · intro s0 extractedMoves cmds
    exact wellFormed_buttons R _
      (navigate_wellFormed R cmds _ (loadMainline_wellFormed R s0 extractedMoves))
      ((navigate_frame R cmds _).2.2.trans rfl)

/-- C19 at a concrete run: a blank PGN is opened and `resetBoard` is issued: both buttons
are disabled, at index 0 of an empty mainline in mainline state. -/
theorem buttons_match_after_command_witness :
    Reachable sampleRules (initializeChessBoard sampleRules Session.initial " ") ∧
    (initializeChessBoard sampleRules Session.initial " ").currentBoard.isSome = true ∧
    (Command.resetBoard.run sampleRules
      (initializeChessBoard sampleRules Session.initial " ")).state.buttonsMatch :=
  have hr := Reachable.load Session.initial " "
    (Reachable.initial : Reachable sampleRules Session.initial)
  ⟨hr, by decide, (buttons_match_after_command sampleRules).1 _ Command.resetBoard hr (by decide)⟩

/-- C13: on a loaded board in variation state with `currentMoveIndex = i` below
`mainlineMoves.length`, one `nextMove()` leaves `isInVariation = false` and
`lastClickedElement = null`, sets `currentMoveIndex` to `i + 1` and asks the board to show
`mainlineFens[i + 1]`, an entry of the list as soon as `i` is not negative and the list has
one entry more than `mainlineMoves`; the two lists are not changed. -/
theorem nextMove_from_variation (s : Session) (b : Shown) (hb : s.currentBoard = some b)
    (hv : s.isInVariation = true) (hi : s.currentMoveIndex < s.mainlineMoves.length) :
    (nextMove s).state.isInVariation = false ∧
    (nextMove s).state.lastClickedElement = none ∧
    (nextMove s).state.currentMoveIndex = s.currentMoveIndex + 1 ∧
    (nextMove s).state.currentBoard
      = some (Shown.arg (fenAt s.mainlineFens (s.currentMoveIndex + 1))) ∧
    (0 ≤ s.currentMoveIndex → s.mainlineFens.length = s.mainlineMoves.length + 1 →
      ∃ fen, fenAt s.mainlineFens (s.currentMoveIndex + 1) = some fen) ∧
    (nextMove s).state.mainlineMoves = s.mainlineMoves ∧
    (nextMove s).state.mainlineFens = s.mainlineFens := by
  have h1 : ¬ (s.currentMoveIndex ≥ s.mainlineMoves.length) := by omega
  have hst : (nextMove s).state = { updateMovesHighlight (updateButtons
      { s with isInVariation := false, lastClickedElement := none,
               currentMoveIndex := s.currentMoveIndex + 1,
               currentBoard := some (Shown.arg (fenAt s.mainlineFens (s.currentMoveIndex + 1))) })
      with squares := none } := by
    unfold nextMove
    simp only [hb, h1, if_false, hv, if_true]
    rw [highlightLastMove_state]
  rw [hst]
  obtain ⟨a, ha⟩ := updateMovesHighlight_eq (updateButtons
      { s with isInVariation := false, lastClickedElement := none,
               currentMoveIndex := s.currentMoveIndex + 1,
               currentBoard := some (Shown.arg (fenAt s.mainlineFens (s.currentMoveIndex + 1))) })
  rw [ha]
  refine ⟨rfl, rfl, rfl, rfl, ?_, rfl, rfl⟩
  intro h0 hl
  exact fenAt_some _ _ (by omega) (by omega)

/-- C13 at scenario D: in variation state at index 0 of the mainline `e4 e5`, `nextMove()`
leaves the variation and shows the position after `e4`. -/
theorem nextMove_from_variation_witness :
    (nextMove sampleSession).state.isInVariation = false ∧
    (nextMove sampleSession).state.lastClickedElement = none ∧
    (nextMove sampleSession).state.currentMoveIndex = 1 ∧
    (nextMove sampleSession).state.currentBoard = some (Shown.arg (some "start e4")) := by
  have h := nextMove_from_variation sampleSession Shown.start rfl rfl (by decide)
  exact ⟨h.1, h.2.1, h.2.2.1, h.2.2.2.1⟩

/-- C14, the claim as stated fails: the session `sampleSessionAtEnd` is what the viewer
holds after `lastMove()` and a click on the variation move `d4` (mainline `e4 e5`); it is in
variation state with `currentMoveIndex = mainlineMoves.length = 2`. There `nextMove()`
returns at its guard: `isInVariation` stays true and the board keeps the position of `d4`,
not `mainlineFens[2]`. -/
theorem nextMove_at_end_keeps_variation :
    navigate sampleRules (loadMainline sampleRules Session.initial ["e4", "e5"])
      [Command.lastMove, Command.goToPosition (some "start d4") (some sampleElement)]
      = sampleSessionAtEnd ∧
    sampleSessionAtEnd.isInVariation = true ∧
    sampleSessionAtEnd.currentMoveIndex = sampleSessionAtEnd.mainlineMoves.length ∧
    (nextMove sampleSessionAtEnd).state.isInVariation = true ∧
    (nextMove sampleSessionAtEnd).state.currentBoard = some (Shown.arg (some "start d4")) ∧
    fenAt sampleSessionAtEnd.mainlineFens sampleSessionAtEnd.currentMoveIndex
      = some "start e4 e5" := by
  refine ⟨by decide, by decide, by decide, by decide, by decide, by decide⟩

/-- C14, amended: on a loaded board in variation state, `nextMove()` returns to mainline
state when `currentMoveIndex` is below `mainlineMoves.length`, and then advances by one ply
(board at `mainlineFens[currentMoveIndex + 1]`); when `currentMoveIndex` has reached
`mainlineMoves.length` the guard of line 1109 returns first and nothing changes: the viewer
stays in variation state and no error is raised. -/
theorem nextMove_in_variation (s : Session) (b : Shown) (hb : s.currentBoard = some b)
    (hv : s.isInVariation = true) :
    (s.currentMoveIndex < s.mainlineMoves.length →
      (nextMove s).state.isInVariation = false ∧
      (nextMove s).state.lastClickedElement = none ∧
      (nextMove s).state.currentMoveIndex = s.currentMoveIndex + 1 ∧
      (nextMove s).state.currentBoard
        = some (Shown.arg (fenAt s.mainlineFens (s.currentMoveIndex + 1)))) ∧
    (s.currentMoveIndex ≥ s.mainlineMoves.length →
      nextMove s = { state := s, raised := none }) := by
  constructor
  · intro hi
    have h1 : ¬ (s.currentMoveIndex ≥ s.mainlineMoves.length) := by omega
    have hst : (nextMove s).state = { updateMovesHighlight (updateButtons
        { s with isInVariation := false, lastClickedElement := none,
                 currentMoveIndex := s.currentMoveIndex + 1,
                 currentBoard :=
                   some (Shown.arg (fenAt s.mainlineFens (s.currentMoveIndex + 1))) })
        with squares := none } := by
      unfold nextMove
      simp only [hb, h1, if_false, hv, if_true]
      rw [highlightLastMove_state]
    rw [hst]
    obtain ⟨a, ha⟩ := updateMovesHighlight_eq (updateButtons
        { s with isInVariation := false, lastClickedElement := none,
                 currentMoveIndex := s.currentMoveIndex + 1,
                 currentBoard :=
                   some (Shown.arg (fenAt s.mainlineFens (s.currentMoveIndex + 1))) })
    rw [ha]
    exact ⟨rfl, rfl, rfl, rfl⟩
  · intro hi
    unfold nextMove
    simp only [hb, hi, if_true]

/-- C14, amended, at the two concrete sessions: below the end of the mainline the variation
is left and the index advances, at the end the session is returned as it was. -/
theorem nextMove_in_variation_witness :
    sampleSession.currentMoveIndex < sampleSession.mainlineMoves.length ∧
    (nextMove sampleSession).state.isInVariation = false ∧
    (nextMove sampleSession).state.currentMoveIndex = 1 ∧
    sampleSessionAtEnd.currentMoveIndex ≥ sampleSessionAtEnd.mainlineMoves.length ∧
    nextMove sampleSessionAtEnd = { state := sampleSessionAtEnd, raised := none } := by
  have h1 := (nextMove_in_variation sampleSession Shown.start rfl rfl).1 (by decide)
  have h2 := (nextMove_in_variation sampleSessionAtEnd (Shown.arg (some "start d4")) rfl rfl).2
    (by decide)
  exact ⟨by decide, h1.1, h1.2.2.1, by decide, h2⟩

/-- C15: `previousMove()` on a loaded board. In variation state it leaves
`isInVariation = false` and `lastClickedElement = null`, keeps `currentMoveIndex` and asks
the board to show `mainlineFens[currentMoveIndex]`. In mainline state with
`currentMoveIndex > 0` it lowers the index by one and asks the board to show the entry of
the new index. In mainline state with `currentMoveIndex = 0` (or below) it returns the
session as it was, without an error. The two lists are never changed. -/
theorem previousMove_spec (s : Session) (b : Shown) (hb : s.currentBoard = some b) :
    (s.isInVariation = true →
      (previousMove s).state.isInVariation = false ∧
      (previousMove s).state.lastClickedElement = none ∧
      (previousMove s).state.currentMoveIndex = s.currentMoveIndex ∧
      (previousMove s).state.currentBoard
        = some (Shown.arg (fenAt s.mainlineFens s.currentMoveIndex))) ∧
    (s.isInVariation = false → s.currentMoveIndex > 0 →
      (previousMove s).state.isInVariation = false ∧
      (previousMove s).state.currentMoveIndex = s.currentMoveIndex - 1 ∧
      (previousMove s).state.currentBoard
        = some (Shown.arg (fenAt s.mainlineFens (s.currentMoveIndex - 1)))) ∧
    (s.isInVariation = false → s.currentMoveIndex ≤ 0 →
      previousMove s = { state := s, raised := none }) ∧
    (previousMove s).state.mainlineMoves = s.mainlineMoves ∧
    (previousMove s).state.mainlineFens = s.mainlineFens := by
  refine ⟨?_, ?_, ?_, (command_frame sampleRules s Command.previousMove).1,
    (command_frame sampleRules s Command.previousMove).2.1⟩
  · intro hv
    unfold previousMove
    simp only [hb, hv, if_true]
    obtain ⟨a, ha⟩ := updateMovesHighlight_eq
      { s with isInVariation := false, lastClickedElement := none,
               currentBoard := some (Shown.arg (fenAt s.mainlineFens s.currentMoveIndex)) }
    rw [ha]
    split_ifs
    · split <;> rw [highlightLastMove_state] <;> exact ⟨rfl, rfl, rfl, rfl⟩
    · exact ⟨rfl, rfl, rfl, rfl⟩
  · intro hv hi
    have hi2 : ¬ (s.currentMoveIndex ≤ 0) := by omega
    have hvn : ¬ (s.isInVariation = true) := by simp [hv]
    unfold previousMove
    simp only [hb]
    rw [if_neg hvn, if_neg hi2]
    obtain ⟨a, ha⟩ := updateMovesHighlight_eq (updateButtons
      { s with currentMoveIndex := s.currentMoveIndex - 1,
               currentBoard :=
                 some (Shown.arg (fenAt s.mainlineFens (s.currentMoveIndex - 1))) })
    rw [ha]
    split_ifs
    · rw [highlightLastMove_state]
      exact ⟨hv, rfl, rfl⟩
    · exact ⟨hv, rfl, rfl⟩
  · intro hv hi
    have hvn : ¬ (s.isInVariation = true) := by simp [hv]
    unfold previousMove
    simp only [hb]
    rw [if_neg hvn, if_pos hi]

/-- C15 at concrete sessions: from variation state at index 0 the viewer returns to the
start position; from mainline state at index 2 it steps to index 1; from mainline state at
index 0 nothing changes. -/
theorem previousMove_spec_witness :
    (previousMove sampleSession).state.isInVariation = false ∧
    (previousMove sampleSession).state.currentMoveIndex = 0 ∧
    (previousMove sampleSession).state.currentBoard = some (Shown.arg (some "start")) ∧
    (previousMove (lastMove sampleSession).state).state.currentMoveIndex = 1 ∧
    (previousMove (lastMove sampleSession).state).state.currentBoard
      = some (Shown.arg (some "start e4")) ∧
    previousMove (resetBoard sampleSession).state
      = { state := (resetBoard sampleSession).state, raised := none } := by
  have h1 := (previousMove_spec sampleSession Shown.start rfl).1 rfl
  have h2 := (previousMove_spec (lastMove sampleSession).state
    (Shown.arg (some "start e4 e5")) (by decide)).2.1 (by decide) (by decide)
  have h3 := (previousMove_spec (resetBoard sampleSession).state
    (Shown.arg (some "start")) (by decide)).2.2.1 (by decide) (by decide)
  exact ⟨h1.1, h1.2.2.1, h1.2.2.2, h2.2.1, h2.2.2, h3⟩

/-- C16: `resetBoard()` twice leaves the same session as once, whatever the state. On a
loaded board the session after it has `currentMoveIndex = 0`, `isInVariation = false`,
`lastClickedElement = null`, no move element and no square marked, the board asked to show
`mainlineFens[0]`, and no error is raised. -/
theorem resetBoard_idempotent (s : Session) :
    resetBoard (resetBoard s).state = resetBoard s ∧
    (s.currentBoard.isSome = true →
      (resetBoard s).state.currentMoveIndex = 0 ∧
      (resetBoard s).state.isInVariation = false ∧
      (resetBoard s).state.lastClickedElement = none ∧
      (resetBoard s).state.active = Active.none ∧
      (resetBoard s).state.squares = none ∧
      (resetBoard s).state.currentBoard = some (Shown.arg (fenAt s.mainlineFens 0)) ∧
      (resetBoard s).raised = none) := by
  cases hb : s.currentBoard with
  | none =>
    constructor
    · simp [resetBoard, hb]
    · intro h
      simp at h
  | some b =>
    constructor
    · simp [resetBoard, hb, updateMovesHighlight, updateButtons, clearMoveHighlights]
    · intro _
      simp [resetBoard, hb, updateMovesHighlight, updateButtons, clearMoveHighlights]

/-- C16 at a concrete session: from variation state the reset shows the start position at
index 0, and a second reset changes nothing. -/
theorem resetBoard_idempotent_witness :
    resetBoard (resetBoard sampleSessionAtEnd).state = resetBoard sampleSessionAtEnd ∧
    (resetBoard sampleSessionAtEnd).state.currentMoveIndex = 0 ∧
    (resetBoard sampleSessionAtEnd).state.isInVariation = false ∧
    (resetBoard sampleSessionAtEnd).state.active = Active.none ∧
    (resetBoard sampleSessionAtEnd).state.currentBoard = some (Shown.arg (some "start")) := by
  have h := resetBoard_idempotent sampleSessionAtEnd
  have h2 := h.2 (by decide)
  exact ⟨h.1, h2.1, h2.2.1, h2.2.2.2.1, h2.2.2.2.2.2.1⟩

/-- C17, the claim as stated fails: the session `sampleSessionNoMoves` is what the viewer
holds when the only mainline move `Qh5` was rejected and the variation move `d4` was
clicked; the board is loaded and the mainline is empty. There `lastMove()` returns at its
guard: `isInVariation` stays true and the board keeps the position of `d4`, not
`mainlineFens[0]`. -/
theorem lastMove_empty_mainline_keeps_variation :
    navigate sampleRules (loadMainline sampleRules Session.initial ["Qh5"])
      [Command.goToPosition (some "start d4") (some sampleElement)] = sampleSessionNoMoves ∧
    sampleSessionNoMoves.currentBoard.isSome = true ∧
    (lastMove sampleSessionNoMoves).state.isInVariation = true ∧
    (lastMove sampleSessionNoMoves).state.currentBoard = some (Shown.arg (some "start d4")) ∧
    fenAt sampleSessionNoMoves.mainlineFens sampleSessionNoMoves.mainlineMoves.length
      = some "start" := by
  refine ⟨by decide, by decide, by decide, by decide, by decide⟩

/-- C17, amended: on a loaded board whose mainline is not empty, `lastMove()` from every
state, mainline or variation, leaves `isInVariation = false` and `lastClickedElement = null`,
sets `currentMoveIndex` to `mainlineMoves.length` and asks the board to show
`mainlineFens[mainlineMoves.length]`, an entry of the list as soon as the list has one entry
more than `mainlineMoves`. When the mainline is empty the guard of line 1127 returns first
and nothing changes. -/
theorem lastMove_spec (s : Session) (b : Shown) (hb : s.currentBoard = some b) :
    (s.mainlineMoves.length ≠ 0 →
      (lastMove s).state.isInVariation = false ∧
      (lastMove s).state.lastClickedElement = none ∧
      (lastMove s).state.currentMoveIndex = s.mainlineMoves.length ∧
      (lastMove s).state.currentBoard
        = some (Shown.arg (fenAt s.mainlineFens s.mainlineMoves.length)) ∧
      (s.mainlineFens.length = s.mainlineMoves.length + 1 →
        ∃ fen, fenAt s.mainlineFens s.mainlineMoves.length = some fen) ∧
      (lastMove s).state.mainlineMoves = s.mainlineMoves ∧
      (lastMove s).state.mainlineFens = s.mainlineFens) ∧
    (s.mainlineMoves.length = 0 → lastMove s = { state := s, raised := none }) := by
  constructor
  · intro hne
    unfold lastMove
    simp only [hb]
    rw [if_neg hne, highlightLastMove_state]
    obtain ⟨a, ha⟩ := updateMovesHighlight_eq (updateButtons
      { s with isInVariation := false, lastClickedElement := none,
               currentMoveIndex := s.mainlineMoves.length,
               currentBoard := some (Shown.arg (fenAt s.mainlineFens s.mainlineMoves.length)) })
    rw [ha]
    refine ⟨rfl, rfl, rfl, rfl, ?_, rfl, rfl⟩
    intro hl
    exact fenAt_some _ _ (by omega) (by omega)
  · intro h0
    unfold lastMove
    simp only [hb]
    rw [if_pos h0]

/-- C17, amended, at the two concrete sessions: with the mainline `e4 e5` the viewer leaves
the variation and shows the last position; with an empty mainline the session is returned
as it was. -/
theorem lastMove_spec_witness :
    sampleSession.mainlineMoves.length ≠ 0 ∧
    (lastMove sampleSession).state.isInVariation = false ∧
    (lastMove sampleSession).state.currentMoveIndex = 2 ∧
    (lastMove sampleSession).state.currentBoard = some (Shown.arg (some "start e4 e5")) ∧
    sampleSessionNoMoves.mainlineMoves.length = 0 ∧
    lastMove sampleSessionNoMoves = { state := sampleSessionNoMoves, raised := none } := by
  have h1 := (lastMove_spec sampleSession Shown.start rfl).1 (by decide)
  have h2 := (lastMove_spec sampleSessionNoMoves (Shown.arg (some "start d4")) rfl).2 rfl
  exact ⟨by decide, h1.1, h1.2.2.1, h1.2.2.2.1, rfl, h2⟩

/-- C18: without a loaded board each of the six navigation commands, with any arguments,
returns the session as it was and raises no error. With or without a board, `goToMove(k)`
for `k < 0` or `k >= mainlineMoves.length` and `goToPosition` with an empty or missing FEN
return the session as it was, the displayed position included, and raise no error. -/
theorem navigation_noop {P : Type} (R : Rules P) (s : Session) :
    (s.currentBoard = none → ∀ c : Command, c.run R s = { state := s, raised := none }) ∧
    (∀ k : Int, k < 0 ∨ k ≥ s.mainlineMoves.length →
      goToMove s k = { state := s, raised := none }) ∧
    (∀ (fen : Option String) (clickedElement : Option Element), fen = none ∨ fen = some "" →
      goToPosition R s fen clickedElement = { state := s, raised := none }) := by
  refine ⟨?_, ?_, ?_⟩
  · intro hb c
    cases c <;>
      simp only [Command.run, SuperChessPrep.goToMove, SuperChessPrep.goToPosition,
        SuperChessPrep.previousMove, SuperChessPrep.nextMove, SuperChessPrep.resetBoard,
        SuperChessPrep.lastMove, hb]
  · intro k hk
    unfold goToMove
    cases s.currentBoard with
    | none => rfl
    | some b =>
      simp only []
      rw [if_pos hk]
  · intro fen clickedElement hf
    have h : falsy fen = true := by
      rcases hf with rfl | rfl
      · rfl
      · rfl
    unfold goToPosition
    cases s.currentBoard with
    | none => rfl
    | some b =>
      simp only []
      rw [if_pos h]

/-- C18 at concrete sessions: `nextMove` on the state of the loaded script, `goToMove(2)`
and `goToMove(-1)` on a mainline of two moves, and `goToPosition` with an empty FEN. -/
theorem navigation_noop_witness :
    Command.nextMove.run sampleRules Session.initial
      = { state := Session.initial, raised := none } ∧
    goToMove sampleSession 2 = { state := sampleSession, raised := none } ∧
    goToMove sampleSession (-1) = { state := sampleSession, raised := none } ∧
    goToPosition sampleRules sampleSession (some "") (some sampleElement)
      = { state := sampleSession, raised := none } :=
  ⟨(navigation_noop sampleRules Session.initial).1 rfl Command.nextMove,
   (navigation_noop sampleRules sampleSession).2.1 2 (Or.inr (by decide)),
   (navigation_noop sampleRules sampleSession).2.1 (-1) (Or.inl (by decide)),
   (navigation_noop sampleRules sampleSession).2.2 (some "") (some sampleElement) (Or.inr rfl)⟩

/-- C20, as the code behaves: a text that starts with `(` makes `parseAndRenderPgn` raise a
ReferenceError (the loop of `findMatchingParen`), for every rest of the text, scope flag,
starting FEN and collaborator, and so does `e4 (d4)`, where the cursor meets `(` after a
move. What does hold: the embedding never runs out of fuel, and the token step moves the
cursor forward. -/
theorem parseAndRenderPgn_raises_on_paren {P : Type} (R : Rules P) (isVariation : Bool)
    (startingFen : Option String) (rest : List Char) :
    parseAndRenderPgn R (String.mk ('(' :: rest)) isVariation startingFen
      = .error (.referenceError "i") ∧
    parseAndRenderPgn sampleRules "e4 (d4)" false none = .error (.referenceError "i") ∧
    (∀ movesText : String,
      parseNodes R movesText isVariation startingFen ≠ .error .outOfFuel) ∧
    (∀ (sc : Scope P) (pos : Nat) (text : List Char),
      pos < (emitToken R isVariation sc pos text).pos) := by
  refine ⟨?_, by decide, fun movesText => parseAndRenderPgn_returns R movesText isVariation
    startingFen, fun sc pos text => emitToken_pos R isVariation sc pos text⟩
  have h1 : (String.mk ('(' :: rest)).length + 1 = (rest.length + 1) + 1 := rfl
  have h2 : (startScope R startingFen).pos = 0 := rfl
  unfold parseAndRenderPgn parseNodes
  rw [h1]
  unfold parseLoop
  simp [h2, isSpace, findMatchingParen]
  rfl

/-! ## Numbers -/

/-- The numbers below `2^53` are their own Number value, printed with their digits. -/
theorem toNumber_small (n : Nat) (h : n < 9007199254740992) :
    toNumber n = n ∧ numToString n = toString n := by
  have he : excessBits n n = 0 := by
    cases n with
    | zero => rfl
    | succ k => simp only [excessBits, h, if_true]
  have hd : toDouble n = n := by
    unfold toDouble
    simp only [he, if_true]
  have hi : ¬ (infinity ≤ n) := by
    have : (9007199254740992 : Nat) ≤ infinity := by decide
    omega
  refine ⟨?_, ?_⟩
  · unfold toNumber
    rw [hd, if_neg hi]
  · unfold numToString
    rw [if_pos h]

/-- The halving stops at a number of 53 bits. -/
theorem excessBits_spec (fuel n : Nat) (h : n ≤ fuel) :
    n / 2 ^ excessBits fuel n < 9007199254740992 ∧
    (0 < excessBits fuel n → 4503599627370496 ≤ n / 2 ^ excessBits fuel n) := by
  induction fuel generalizing n with
  | zero =>
    have : n = 0 := by omega
    subst this
    exact ⟨by decide, fun h => absurd h (by decide)⟩
  | succ k ih =>
    by_cases hn : n < 9007199254740992
    · have e0 : excessBits (k + 1) n = 0 := by simp only [excessBits, hn, if_true]
      rw [e0, pow_zero, Nat.div_one]
      exact ⟨hn, fun h => absurd h (by decide)⟩
    · have e1 : excessBits (k + 1) n = excessBits k (n / 2) + 1 := by
        simp only [excessBits, hn, if_false]
      rw [e1]
      have hk : n / 2 ≤ k := by omega
      obtain ⟨i1, i2⟩ := ih (n / 2) hk
      have e : n / 2 ^ (excessBits k (n / 2) + 1) = n / 2 / 2 ^ excessBits k (n / 2) := by
        rw [pow_succ, Nat.mul_comm, Nat.div_div_eq_div_mul]
      rw [e]
      refine ⟨i1, fun _ => ?_⟩
      by_cases h0 : 0 < excessBits k (n / 2)
      · exact i2 h0
      · have h00 : excessBits k (n / 2) = 0 := by omega
        rw [h00, pow_zero, Nat.div_one]
        omega

/-- The rounding of a number of `2^53` or more is `2^53` or more. -/
theorem toDouble_large (n : Nat) (h : 9007199254740992 ≤ n) : 9007199254740992 ≤ toDouble n := by
  obtain ⟨s1, s2⟩ := excessBits_spec n n (le_refl n)
  have he : 0 < excessBits n n := by
    by_contra hc
    have h0 : excessBits n n = 0 := by omega
    rw [h0, pow_zero, Nat.div_one] at s1
    omega
  have hq := s2 he
  have hp : 2 ≤ 2 ^ excessBits n n := by
    calc 2 = 2 ^ 1 := rfl
      _ ≤ 2 ^ excessBits n n := Nat.pow_le_pow_right (by decide) he
  have hmul : 9007199254740992 ≤ n / 2 ^ excessBits n n * 2 ^ excessBits n n := by
    calc 9007199254740992 = 4503599627370496 * 2 := by decide
      _ ≤ n / 2 ^ excessBits n n * 2 ^ excessBits n n := Nat.mul_le_mul hq hp
  unfold toDouble
  simp only []
  rw [if_neg (by omega)]
  split
  · calc 9007199254740992 ≤ n / 2 ^ excessBits n n * 2 ^ excessBits n n := hmul
      _ ≤ (n / 2 ^ excessBits n n + 1) * 2 ^ excessBits n n :=
        Nat.mul_le_mul_right _ (Nat.le_succ _)
  · exact hmul

/-- Integers from 0 to `2^53` are not changed by the rounding. -/
theorem roundInt_small (x : Int) (h0 : 0 ≤ x) (h1 : x ≤ 9007199254740992) : roundInt x = x := by
  unfold roundInt
  rw [if_neg (by omega)]
  by_cases h : x = 9007199254740992
  · subst h
    decide
  · have hlt : x.toNat < 9007199254740992 := by omega
    have hd : toDouble x.toNat = x.toNat := by
      have := (toNumber_small x.toNat hlt).1
      unfold toNumber at this
      split at this
      · rename_i hinf
        have hle : (9007199254740992 : Nat) ≤ infinity := by decide
        omega
      · exact this
    rw [hd]
    omega

/-- The rounding of an integer of `2^53` or more is `2^53` or more. -/
theorem roundInt_large (x : Int) (h : 9007199254740992 ≤ x) : 9007199254740992 ≤ roundInt x := by
  unfold roundInt
  rw [if_neg (by omega)]
  have := toDouble_large x.toNat (by omega)
  omega

/-! ## The pagination -/

/-- The counting loop from `a` to `b` pushes `a` first when `a ≤ b`. -/
theorem pagesFromTo_cons (a b : Int) (h : a ≤ b) :
    pagesFromTo a b = PageEntry.page a :: pagesFromTo (a + 1) b := by
  unfold pagesFromTo
  have h1 : (b + 1 - a).toNat = (b + 1 - (a + 1)).toNat + 1 := by omega
  rw [h1, List.range_succ_eq_map, List.map_cons, List.map_map]
  refine congrArg₂ _ (by simp) ?_
  apply List.map_congr_left
  intro k _
  simp only [Function.comp, Nat.cast_succ]
  congr 1
  omega

/-- The counting loop from `a` to `b` pushes nothing when `b < a`. -/
theorem pagesFromTo_nil (a b : Int) (h : b < a) : pagesFromTo a b = [] := by
  unfold pagesFromTo
  have h1 : (b + 1 - a).toNat = 0 := by omega
  rw [h1]
  rfl

/-- The pages from `a` to `b`, followed by entries that continue them, are well spaced. -/
theorem wellSpaced_run (n : Nat) (a b : Int) (rest : List PageEntry) (hn : b = a + n)
    (hrest : wellSpaced (PageEntry.page b :: rest)) :
    wellSpaced (pagesFromTo a b ++ rest) := by
  induction n generalizing a with
  | zero =>
    have hb : b = a := by simpa using hn
    subst hb
    rw [pagesFromTo_cons b b (le_refl _), pagesFromTo_nil (b + 1) b (by omega)]
    exact hrest
  | succ n ih =>
    have h1 : a ≤ b := by omega
    have h2 := ih (a + 1) (by push_cast at hn ⊢; omega)
    rw [pagesFromTo_cons a b h1]
    have h3 : a + 1 ≤ b := by push_cast at hn; omega
    rw [pagesFromTo_cons (a + 1) b h3] at h2 ⊢
    exact ⟨rfl, h2⟩

/-- A page between `a` and `b` is pushed by the counting loop. -/
theorem mem_pagesFromTo (a b c : Int) (h1 : a ≤ c) (h2 : c ≤ b) :
    PageEntry.page c ∈ pagesFromTo a b := by
  unfold pagesFromTo
  rw [List.mem_map]
  refine ⟨(c - a).toNat, ?_, ?_⟩
  · rw [List.mem_range]
    omega
  · congr 1
    omega

/-- The page numbers of a well-spaced list increase strictly. -/
theorem wellSpaced_increasing (l : List PageEntry) (h : wellSpaced l) :
    List.Chain' (fun a b => a < b) (pagesOf l) := by
  induction l using wellSpaced.induct with
  | case1 a => simp [pagesOf]
  | case2 a b rest ih =>
    obtain ⟨h1, h2⟩ := h
    have := ih h2
    simp only [pagesOf] at this ⊢
    exact List.Chain'.cons (by omega) this
  | case3 a b rest ih =>
    obtain ⟨h1, h2⟩ := h
    have := ih h2
    simp only [pagesOf] at this ⊢
    exact List.Chain'.cons (by omega) this
  | case4 l h1 h2 h3 =>
    exfalso
    unfold wellSpaced at h
    split at h
    · exact h1 _ rfl
    · exact h2 _ _ _ rfl
    · exact h3 _ _ _ rfl
    · exact h

/-- The last entry of a list that ends with `a`. -/
theorem getLast?_snoc {α : Type} (l : List α) (a : α) : (l ++ [a]).getLast? = some a := by
  simp

/-- For `totalPages >= 1` and `1 <= currentPage <= totalPages` the list in closed form
starts with page 1, ends with page `totalPages`, contains `currentPage`,
and is well spaced: page numbers that stand next to each other are consecutive, and an
entry `'...'` stands between two page numbers, which then are not consecutive; the page
numbers increase strictly, and the ellipses mark exactly the gaps. -/
theorem pageList_spec (totalPages currentPage : Int) (ht : 1 ≤ totalPages)
    (h1 : 1 ≤ currentPage) (h2 : currentPage ≤ totalPages) :
    (pageList totalPages currentPage).head? = some (PageEntry.page 1) ∧
    (pageList totalPages currentPage).getLast? = some (PageEntry.page totalPages) ∧
    PageEntry.page currentPage ∈ pageList totalPages currentPage ∧
    wellSpaced (pageList totalPages currentPage) ∧
    List.Pairwise (fun a b => a < b) (pagesOf (pageList totalPages currentPage)) := by
  suffices h : (pageList totalPages currentPage).head? = some (PageEntry.page 1) ∧
      (pageList totalPages currentPage).getLast? = some (PageEntry.page totalPages) ∧
      PageEntry.page currentPage ∈ pageList totalPages currentPage ∧
      wellSpaced (pageList totalPages currentPage) from
    ⟨h.1, h.2.1, h.2.2.1, h.2.2.2,
      List.chain'_iff_pairwise.mp (wellSpaced_increasing _ h.2.2.2)⟩
  unfold pageList
  simp only []
  by_cases hs : totalPages ≤ 5 + 2
  · rw [if_pos hs]
    refine ⟨?_, ?_, mem_pagesFromTo 1 totalPages currentPage h1 h2, ?_⟩
    · rw [pagesFromTo_cons 1 totalPages ht]
      rfl
    · interval_cases totalPages <;> decide
    · have h := wellSpaced_run (totalPages - 1).toNat 1 totalPages [] (by omega) trivial
      simpa using h
  · rw [if_neg hs]
    have hc : currentPage ≤ 3 ∨ (4 ≤ currentPage ∧ currentPage < totalPages - 2) ∨
        (4 ≤ currentPage ∧ totalPages - 2 ≤ currentPage) := by omega
    rcases hc with hc | hc | hc
    · have e1 : ¬ (currentPage > 3) := by omega
      have e2 : currentPage < totalPages - 2 := by omega
      have e3 : max 2 (currentPage - 1) = 2 := by omega
      have e4 : min (totalPages - 1) (currentPage + 1) = currentPage + 1 := by omega
      rw [if_neg e1, if_pos e2, e3, e4]
      refine ⟨rfl, getLast?_snoc _ _, ?_, ?_⟩
      · by_cases h : currentPage = 1
        · simp [h]
        · have := mem_pagesFromTo 2 (currentPage + 1) currentPage (by omega) (by omega)
          simp [this]
      · have h := wellSpaced_run (currentPage - 1).toNat 2 (currentPage + 1)
          [PageEntry.ellipsis, PageEntry.page totalPages] (by omega) ⟨by omega, trivial⟩
        rw [pagesFromTo_cons 2 (currentPage + 1) (by omega)] at h ⊢
        exact ⟨rfl, by simpa using h⟩
    · have e1 : currentPage > 3 := by omega
      have e3 : max 2 (currentPage - 1) = currentPage - 1 := by omega
      have e4 : min (totalPages - 1) (currentPage + 1) = currentPage + 1 := by omega
      rw [if_pos e1, if_pos hc.2, e3, e4]
      refine ⟨rfl, getLast?_snoc _ _, ?_, ?_⟩
      · have := mem_pagesFromTo (currentPage - 1) (currentPage + 1) currentPage (by omega)
          (by omega)
        simp [this]
      · have h := wellSpaced_run 2 (currentPage - 1) (currentPage + 1)
          [PageEntry.ellipsis, PageEntry.page totalPages] (by omega) ⟨by omega, trivial⟩
        rw [pagesFromTo_cons (currentPage - 1) (currentPage + 1) (by omega)] at h ⊢
        exact ⟨by omega, by simpa using h⟩
    · have e1 : currentPage > 3 := by omega
      have e2 : ¬ (currentPage < totalPages - 2) := by omega
      have e3 : max 2 (currentPage - 1) = currentPage - 1 := by omega
      have e4 : min (totalPages - 1) (currentPage + 1) = totalPages - 1 := by omega
      rw [if_pos e1, if_neg e2, e3, e4]
      refine ⟨rfl, getLast?_snoc _ _, ?_, ?_⟩
      · by_cases h : currentPage = totalPages
        · simp [h]
        · have := mem_pagesFromTo (currentPage - 1) (totalPages - 1) currentPage (by omega)
            (by omega)
          simp [this]
      · have h := wellSpaced_run (totalPages - currentPage).toNat (currentPage - 1)
          (totalPages - 1) [PageEntry.page totalPages] (by omega) ⟨by omega, trivial⟩
        rw [pagesFromTo_cons (currentPage - 1) (totalPages - 1) (by omega)] at h ⊢
        exact ⟨by omega, by simpa using h⟩

/-- The counting loop below `2^53`, with enough fuel: it pushes the pages from `a` to `b`. -/
theorem pushPages_exact (fuel : Nat) (a b : Int) (pages : List PageEntry) (ha : 0 ≤ a)
    (hb : b < 9007199254740992) (hf : (b + 1 - a).toNat < fuel) :
    pushPages fuel a b pages = .ok (pages ++ pagesFromTo a b) := by
  induction fuel generalizing a pages with
  | zero => omega
  | succ k ih =>
    unfold pushPages
    by_cases hab : a ≤ b
    · rw [if_pos hab, roundInt_small (a + 1) (by omega) (by omega),
        ih (a + 1) _ (by omega) (by omega), pagesFromTo_cons a b hab, List.append_assoc]
      rfl
    · rw [if_neg hab, pagesFromTo_nil a b (by omega), List.append_nil]

/-- The counting loop at `2^53`: the step `i++` leaves `i` as it is, and the loop does not
end. -/
theorem pushPages_stuck (fuel : Nat) (pages : List PageEntry) :
    pushPages fuel 9007199254740992 9007199254740992 pages = .error .outOfFuel := by
  induction fuel generalizing pages with
  | zero => rfl
  | succ k ih =>
    unfold pushPages
    rw [if_pos (le_refl _)]
    have h : roundInt (9007199254740992 + 1) = 9007199254740992 := by decide
    rw [h]
    exact ih _

/-- C30, the claim as stated fails: for `totalPages = 9007199254740994` and
`currentPage = 9007199254740992` (both are numbers that the variables can hold) the loop of
line 819 runs from `2^53 - 1` to `2^53`; at `i = 2^53` the step `i++` gives `2^53` again, the
condition stays true and no list is returned, whatever the fuel. -/
theorem getPageNumbers_loops_above_safe_integers :
    roundInt 9007199254740994 = 9007199254740994 ∧
    roundInt 9007199254740992 = 9007199254740992 ∧
    ∀ fuel : Nat,
      getPageNumbers fuel 9007199254740994 9007199254740992 = .error .outOfFuel := by
  refine ⟨by decide, by decide, ?_⟩
  intro fuel
  unfold getPageNumbers
  have h1 : roundInt (9007199254740992 - 1) = 9007199254740991 := by decide
  have h2 : roundInt (9007199254740994 - 1) = 9007199254740992 := by decide
  have h3 : roundInt (9007199254740992 + 1) = 9007199254740992 := by decide
  simp only [h1, h2, h3]
  have hs : max (2 : Int) 9007199254740991 = 9007199254740991 := by decide
  have ht : min (9007199254740992 : Int) 9007199254740992 = 9007199254740992 := by decide
  rw [if_neg (by decide), hs, ht]
  cases fuel with
  | zero => rfl
  | succ k =>
    unfold pushPages
    rw [if_pos (by decide)]
    have h4 : roundInt (9007199254740991 + 1) = 9007199254740992 := by decide
    rw [h4, pushPages_stuck]

/-- C30, amended: let `totalPages >= 1` be an integer that a double holds and
`1 <= currentPage <= totalPages`, with `totalPages <= 2^53` or `currentPage <= 2^53 - 2`.
Then `getPageNumbers` returns, with a fuel of 8 or more, a list that starts with page 1, ends
with page `totalPages`, contains `currentPage`, and is well spaced: page numbers that stand
next to each other are consecutive, and an entry `'...'` stands between two page numbers,
which then are not consecutive; the page numbers increase strictly, and the ellipses mark
exactly the gaps. -/
theorem getPageNumbers_spec (fuel : Nat) (totalPages currentPage : Int) (hf : 8 ≤ fuel)
    (ht : 1 ≤ totalPages) (h1 : 1 ≤ currentPage) (h2 : currentPage ≤ totalPages)
    (hd : roundInt totalPages = totalPages)
    (hsafe : totalPages ≤ 9007199254740992 ∨ currentPage ≤ 9007199254740990) :
    ∃ pages, getPageNumbers fuel totalPages currentPage = .ok pages ∧
      pages.head? = some (PageEntry.page 1) ∧
      pages.getLast? = some (PageEntry.page totalPages) ∧
      PageEntry.page currentPage ∈ pages ∧
      wellSpaced pages ∧
      List.Pairwise (fun a b => a < b) (pagesOf pages) := by
  refine ⟨pageList totalPages currentPage, ?_, pageList_spec totalPages currentPage ht h1 h2⟩
  unfold getPageNumbers pageList
  simp only []
  by_cases hs : totalPages ≤ 5 + 2
  · rw [if_pos hs, if_pos hs, pushPages_exact fuel 1 totalPages [] (by omega) (by omega)
      (by omega)]
    rfl
  · rw [if_neg hs, if_neg hs]
    have hne : totalPages ≠ 9007199254740993 := by
      intro h
      rw [h] at hd
      exact absurd hd (by decide)
    have e1 : roundInt (currentPage - 1) = currentPage - 1 :=
      roundInt_small _ (by omega) (by omega)
    have e2 : min (roundInt (totalPages - 1)) (roundInt (currentPage + 1))
        = min (totalPages - 1) (currentPage + 1) := by
      rcases hsafe with hsafe | hsafe
      · rw [roundInt_small (totalPages - 1) (by omega) (by omega)]
        by_cases hc : currentPage = 9007199254740992
        · have : totalPages = 9007199254740992 := by omega
          rw [hc, this]
          decide
        · rw [roundInt_small (currentPage + 1) (by omega) (by omega)]
      · rw [roundInt_small (currentPage + 1) (by omega) (by omega)]
        by_cases hc : totalPages ≤ 9007199254740992
        · rw [roundInt_small (totalPages - 1) (by omega) (by omega)]
        · have := roundInt_large (totalPages - 1) (by omega)
          omega
    have e3 : (currentPage < roundInt (totalPages - 2)) ↔ (currentPage < totalPages - 2) := by
      by_cases hc : totalPages ≤ 9007199254740994
      · by_cases hc2 : totalPages = 9007199254740994
        · rw [hc2]
          have : roundInt (9007199254740994 - 2) = 9007199254740994 - 2 := by decide
          rw [this]
        · rw [roundInt_small (totalPages - 2) (by omega) (by omega)]
      · have := roundInt_large (totalPages - 2) (by omega)
        constructor <;> intro _ <;> omega
    have hstop : min (totalPages - 1) (currentPage + 1) < 9007199254740992 := by omega
    rw [e1, e2, pushPages_exact fuel _ _ _ (by omega) hstop (by omega)]
    simp only [e3, List.append_assoc]

/-- C30, amended, at `totalPages = 10`, `currentPage = 5`: the list is `1 ... 4 5 6 ... 10`. -/
theorem getPageNumbers_spec_witness :
    getPageNumbers 8 10 5 = .ok [PageEntry.page 1, PageEntry.ellipsis, PageEntry.page 4,
      PageEntry.page 5, PageEntry.page 6, PageEntry.ellipsis, PageEntry.page 10] ∧
    (∃ pages, getPageNumbers 8 10 5 = .ok pages ∧
      pages.head? = some (PageEntry.page 1) ∧
      pages.getLast? = some (PageEntry.page 10) ∧
      PageEntry.page 5 ∈ pages ∧
      wellSpaced pages ∧
      List.Pairwise (fun a b => a < b) (pagesOf pages)) :=
  ⟨by decide,
   getPageNumbers_spec 8 10 5 (by decide) (by decide) (by decide) (by decide) (by decide)
     (by decide)⟩

/-! ## The variation toggle -/

/-- C25: `toggleVariation` leaves the session (`currentMoveIndex`, `isInVariation`,
`lastClickedElement`, the board) as it is. Two calls on the block as it is rendered give the
collapsed block again: label `+`, no class `expanded`, content hidden (the inline display is
then `none` where the rendering had none, which line 817 treats alike). Two calls on any
block give back whether the content is collapsed, and three calls equal one call: from every
state that a call produces, expanded or collapsed, two more calls return exactly to it. -/
theorem toggleVariation_twice (s : Session) (el : ToggleEl) :
    (toggleVariation s el).1 = s ∧
    (toggleVariation s (toggleVariation s renderedToggle).2).2
      = { text := "+", expanded := false, line := some { content := some "none" } } ∧
    (toggleVariation s (toggleVariation s renderedToggle).2).2.collapsed
      = renderedToggle.collapsed ∧
    (toggleVariation s (toggleVariation s el).2).2.collapsed = el.collapsed ∧
    (toggleVariation s (toggleVariation s (toggleVariation s el).2).2).2
      = (toggleVariation s el).2 := by
  refine ⟨?_, by simp [toggleVariation, renderedToggle],
    by simp [toggleVariation, renderedToggle, ToggleEl.collapsed], ?_, ?_⟩
  · unfold toggleVariation
    split
    · rfl
    · split
      · rfl
      · split <;> rfl
  · obtain ⟨text, expanded, line⟩ := el
    cases line with
    | none => rfl
    | some line =>
      obtain ⟨content⟩ := line
      cases content with
      | none => rfl
      | some display =>
        by_cases h : display = "none" ∨ display = ""
        · simp [toggleVariation, ToggleEl.collapsed, h]
        · simp [toggleVariation, ToggleEl.collapsed, h]
          exact not_or.mp h
  · obtain ⟨text, expanded, line⟩ := el
    cases line with
    | none => rfl
    | some line =>
      obtain ⟨content⟩ := line
      cases content with
      | none => rfl
      | some display =>
        by_cases h : display = "none" ∨ display = ""
        · simp [toggleVariation, h]
        · simp [toggleVariation, h]

/-! ## Entering and leaving a variation -/

/-- The variation branch of `previousMove`: the state it leaves. -/
theorem previousMove_of_variation (s : Session) (b : Shown) (hb : s.currentBoard = some b)
    (hv : s.isInVariation = true) :
    (previousMove s).state.isInVariation = false ∧
    (previousMove s).state.currentMoveIndex = s.currentMoveIndex ∧
    (previousMove s).state.currentBoard
      = some (Shown.arg (fenAt s.mainlineFens s.currentMoveIndex)) ∧
    (previousMove s).state.mainlineMoves = s.mainlineMoves ∧
    (previousMove s).state.mainlineFens = s.mainlineFens := by
  unfold previousMove
  simp only [hb, hv, if_true]
  obtain ⟨a, ha⟩ := updateMovesHighlight_eq
    { s with isInVariation := false, lastClickedElement := none,
             currentBoard := some (Shown.arg (fenAt s.mainlineFens s.currentMoveIndex)) }
  rw [ha]
  split_ifs
  · split <;> rw [highlightLastMove_state] <;> exact ⟨rfl, rfl, rfl, rfl, rfl⟩
  · exact ⟨rfl, rfl, rfl, rfl, rfl⟩

/-- C28: on a loaded board with `currentMoveIndex = i`, in mainline state as in any other,
`goToPosition` with a non-empty FEN sets `isInVariation = true`, asks the board to show the FEN and keeps
`currentMoveIndex`; `previousMove()` after it sets `isInVariation = false`, keeps
`currentMoveIndex = i` and asks the board to show `mainlineFens[i]`. The two lists are not
changed on the way. -/
theorem goToPosition_previousMove_round_trip {P : Type} (R : Rules P) (s : Session) (b : Shown)
    (fen : String) (clickedElement : Option Element) (hb : s.currentBoard = some b)
    (hf : fen ≠ "") :
    (goToPosition R s (some fen) clickedElement).state.isInVariation = true ∧
    (goToPosition R s (some fen) clickedElement).state.currentBoard
      = some (Shown.arg (some fen)) ∧
    (goToPosition R s (some fen) clickedElement).state.currentMoveIndex
      = s.currentMoveIndex ∧
    (goToPosition R s (some fen) clickedElement).raised = none ∧
    (previousMove (goToPosition R s (some fen) clickedElement).state).state.isInVariation
      = false ∧
    (previousMove (goToPosition R s (some fen) clickedElement).state).state.currentMoveIndex
      = s.currentMoveIndex ∧
    (previousMove (goToPosition R s (some fen) clickedElement).state).state.currentBoard
      = some (Shown.arg (fenAt s.mainlineFens s.currentMoveIndex)) ∧
    (previousMove (goToPosition R s (some fen) clickedElement).state).state.mainlineMoves
      = s.mainlineMoves ∧
    (previousMove (goToPosition R s (some fen) clickedElement).state).state.mainlineFens
      = s.mainlineFens := by
  have hfal : ¬ (falsy (some fen) = true) := by
    simp only [falsy, List.isEmpty_iff]
    intro hc
    exact hf (String.ext hc)
  have hst : ∃ sq lc act, (goToPosition R s (some fen) clickedElement)
      = Ran.mk (updateButtons { s with currentBoard := some (Shown.arg (some fen)),
                                       isInVariation := true, squares := sq,
                                       lastClickedElement := lc, active := act }) none := by
    unfold goToPosition
    simp only [hb]
    rw [if_neg hfal]
    cases clickedElement with
    | none =>
      obtain ⟨q, hq⟩ := highlightMoveFromElement_eq R (clearAllMoveHighlights
        { s with currentBoard := some (Shown.arg (some fen)), isInVariation := true }) none
      simp only []
      rw [hq]
      exact ⟨_, _, _, rfl⟩
    | some e =>
      obtain ⟨q, hq⟩ := highlightMoveFromElement_eq R
        { clearAllMoveHighlights
            { s with currentBoard := some (Shown.arg (some fen)), isInVariation := true } with
          active := Active.clicked e, lastClickedElement := some e } (some e)
      simp only []
      rw [hq]
      exact ⟨_, _, _, rfl⟩
  obtain ⟨sq, lc, act, hgo⟩ := hst
  rw [hgo]
  have hprev := previousMove_of_variation
    (updateButtons { s with currentBoard := some (Shown.arg (some fen)),
                            isInVariation := true, squares := sq,
                            lastClickedElement := lc, active := act })
    (Shown.arg (some fen)) rfl rfl
  exact ⟨rfl, rfl, rfl, rfl, hprev.1, hprev.2.1, hprev.2.2.1, hprev.2.2.2.1, hprev.2.2.2.2⟩

/-- C28 at a concrete session: from the start of the mainline `e4 e5` a click on the
variation move `d4` and `previousMove()` lead back to index 0 and the start position. -/
theorem goToPosition_previousMove_round_trip_witness :
    (goToPosition sampleRules (resetBoard sampleSession).state (some "start d4")
      (some sampleElement)).state.isInVariation = true ∧
    (previousMove (goToPosition sampleRules (resetBoard sampleSession).state (some "start d4")
      (some sampleElement)).state).state.isInVariation = false ∧
    (previousMove (goToPosition sampleRules (resetBoard sampleSession).state (some "start d4")
      (some sampleElement)).state).state.currentMoveIndex = 0 ∧
    (previousMove (goToPosition sampleRules (resetBoard sampleSession).state (some "start d4")
      (some sampleElement)).state).state.currentBoard = some (Shown.arg (some "start")) :=
  have h := goToPosition_previousMove_round_trip sampleRules (resetBoard sampleSession).state
    (Shown.arg (some "start")) "start d4" (some sampleElement) (by decide) (by decide)
  ⟨h.1, h.2.2.2.2.1, h.2.2.2.2.2.1, h.2.2.2.2.2.2.1⟩

/-! ## The FEN before the last move -/

/-- C26, the claim as stated fails: in `1. e4 e5 2. Qh8#??` the collaborator rejects the
queen move. Before that token the scope holds `lastFenBeforeMove = start e4`, the FEN before
the last accepted move `e5`; the token is rejected (the `invalid` node, the position stays),
and `lastFenBeforeMove` is now `start e4 e5`, the FEN of the position the rejected move was
tried on. -/
theorem rejected_move_sets_lastFenBeforeMove :
    sampleScope.lastFenBeforeMove = "start e4" ∧
    sampleRules.move sampleScope.game "Qh8#" = none ∧
    (emitToken sampleRules false sampleScope 12 "Qh8#??".toList).html
      = sampleScope.html ++ [Node.invalid "Qh8#??"] ∧
    (emitToken sampleRules false sampleScope 12 "Qh8#??".toList).game = sampleScope.game ∧
    (emitToken sampleRules false sampleScope 12 "Qh8#??".toList).lastFenBeforeMove
      = "start e4 e5" := by
  refine ⟨by decide, by decide, by rfl, by decide, by decide⟩

/-- C26, amended: the scope variable `lastFenBeforeMove` is set at every SAN token, whether
the collaborator accepts the move or not, to the FEN of the position the move is tried on,
and no other token changes it. After an accepted move it is the FEN before that move; after
a rejected move the position is unchanged, so it is the FEN of the current position of the
scope. When the cursor meets `(` behind the token, the call raises the ReferenceError of
`findMatchingParen` before the variable is read: no variation is rendered from it. -/
theorem lastFenBeforeMove_spec {P : Type} (R : Rules P) (isVariation : Bool) (sc : Scope P)
    (pos : Nat) (rest : List Char) :
    (emitToken R isVariation sc pos rest).lastFenBeforeMove
      = (if readsMove rest = true then R.fen sc.game else sc.lastFenBeforeMove) ∧
    (∀ m, matchStart numRe rest = none → matchStart resRe rest = none →
      matchStart nagRe rest = none → matchStart moveRe rest = some m →
      R.move sc.game (String.mk ((m.grp 1).getD [])) = none →
      (emitToken R isVariation sc pos rest).game = sc.game ∧
      (emitToken R isVariation sc pos rest).lastFenBeforeMove
        = R.fen (emitToken R isVariation sc pos rest).game) ∧
    (∀ m r g, matchStart numRe rest = none → matchStart resRe rest = none →
      matchStart nagRe rest = none → matchStart moveRe rest = some m →
      R.move sc.game (String.mk ((m.grp 1).getD [])) = some (r, g) →
      (emitToken R isVariation sc pos rest).game = g ∧
      (emitToken R isVariation sc pos rest).lastFenBeforeMove = R.fen sc.game) ∧
    (∀ (fuel : Nat) (movesText after : List Char),
      movesText.drop ((emitToken R isVariation sc pos rest).pos +
          ((movesText.drop (emitToken R isVariation sc pos rest).pos).takeWhile isSpace).length)
        = '(' :: after →
      parseLoop R isVariation (fuel + 1) movesText (emitToken R isVariation sc pos rest)
        = .error (.referenceError "i")) := by
  refine ⟨?_, ?_, ?_, ?_⟩
  · unfold emitToken readsMove
    cases hnum : matchStart numRe rest with
    | some m =>
      simp only [emitNumber, Option.isNone_some, Bool.false_and, Bool.false_eq_true, if_false]
      split_ifs <;> rfl
    | none =>
      cases hres : matchStart resRe rest with
      | some m => simp
      | none =>
        cases hnag : matchStart nagRe rest with
        | some m =>
          simp only [emitNag, Option.isNone_some, Option.isNone_none, Bool.true_and,
            Bool.false_and, Bool.false_eq_true, if_false]
          split_ifs <;> rfl
        | none =>
          cases hmove : matchStart moveRe rest with
          | none => simp
          | some m =>
            simp only [emitMove, Option.isNone_none, Option.isSome_some, Bool.and_self,
              if_true]
            cases R.move sc.game (String.mk ((m.grp 1).getD [])) with
            | none => rfl
            | some p =>
              obtain ⟨r, g⟩ := p
              cases isVariation <;> rfl
  · intro m hnum hres hnag hmove hmv
    unfold emitToken
    rw [hnum, hres, hnag, hmove]
    simp only [emitMove]
    rw [hmv]
    exact ⟨rfl, rfl⟩
  · intro m r g hnum hres hnag hmove hmv
    unfold emitToken
    rw [hnum, hres, hnag, hmove]
    simp only [emitMove]
    rw [hmv]
    cases isVariation <;> exact ⟨rfl, rfl⟩
  · intro fuel movesText after h
    rw [parseLoop_succ, h]
    simp

/-- C26, amended, at the rejected queen move of `1. e4 e5 2. Qh8#??`: the position stays and
`lastFenBeforeMove` becomes its FEN. -/
theorem lastFenBeforeMove_spec_witness :
    (emitToken sampleRules false sampleScope 12 "Qh8#??".toList).game = ["e4", "e5"] ∧
    (emitToken sampleRules false sampleScope 12 "Qh8#??".toList).lastFenBeforeMove
      = "start e4 e5" :=
  (lastFenBeforeMove_spec sampleRules false sampleScope 12 "Qh8#??".toList).2.1
    { whole := "Qh8#??".toList, caps := [(2, "??".toList), (1, "Qh8#".toList)] }
    (by rfl) (by rfl) (by rfl) (by rfl) (by rfl)

/-! ## Move numbers and NAG tokens -/

/-- The match of the move-number pattern of line 643 on digits, dots and white space. -/
theorem numRe_head (number dots gap tail : List Char)
    (hn1 : number ≠ []) (hn2 : ∀ x ∈ number, isDigit x = true)
    (hd1 : dots ≠ []) (hd2 : ∀ x ∈ dots, (x == '.') = true)
    (hg : ∀ x ∈ gap, isSpace x = true)
    (htail : ∀ c t, tail = c :: t → isSpace c = false ∧ (gap = [] → c ≠ '.')) :
    matchStart numRe (number ++ (dots ++ (gap ++ tail)))
      = some { whole := number ++ (dots ++ gap), caps := [(2, dots), (1, number)] } := by
  have hrun : (Re.run numRe (number ++ (dots ++ (gap ++ tail)), [])).head?
      = some (tail, [(2, dots), (1, number)]) := by
    unfold numRe
    simp only [Re.cat]
    refine Re.head_seq _ _ _ (dots ++ (gap ++ tail), [(1, number)]) _ ?_ ?_
    · apply Re.head_group
      apply Re.head_plus_chr _ _ _ _ hn1 hn2
      intro x t h
      cases dots with
      | nil => exact absurd rfl hd1
      | cons d ds =>
        simp only [List.cons_append, List.cons.injEq] at h
        have := hd2 d (List.mem_cons_self _ _)
        have hd : d = '.' := by simpa using this
        rw [← h.1, hd]
        rfl
    refine Re.head_seq _ _ _ (gap ++ tail, [(2, dots), (1, number)]) _ ?_ ?_
    · apply Re.head_group
      unfold lit
      apply Re.head_plus_chr _ _ _ _ hd1 hd2
      intro x t h
      rw [beq_eq_false_iff_ne]
      intro hdot
      cases gap with
      | nil =>
        simp only [List.nil_append] at h
        exact (htail x t h).2 rfl hdot
      | cons g gs =>
        simp only [List.cons_append, List.cons.injEq] at h
        have := hg g (List.mem_cons_self _ _)
        rw [h.1, hdot] at this
        exact absurd this (by decide)
    · apply Re.head_star_chr _ _ _ _ hg
      intro x t h
      exact (htail x t h).1
  unfold matchStart
  rw [hrun]
  simp only [Option.map_some', List.length_append]
  congr 1
  have e : number.length + (dots.length + (gap.length + tail.length)) - tail.length
      = (number ++ (dots ++ gap)).length := by
    simp only [List.length_append]; omega
  rw [e, ← List.append_assoc dots gap tail, ← List.append_assoc number (dots ++ gap) tail,
    List.take_left']
  rfl

/-- C22, the claim as stated fails: in the text `0. e4` the single-dot token `0.` is the
first move number of the scope, no label has been shown yet, and still no label is emitted:
the scope variable `lastShownMoveNum` starts at 0. The token `1.` at the same place is
shown. And after the label `9007199254740992.` the token `9007199254740993.` is not shown,
although its number differs from the one of the last label: `parseInt` gives the same
double for both. -/
theorem moveNumber_zero_not_shown :
    parseNodes sampleRules "0. e4" false none = .ok [Node.mainMove 0 "start e4" "e4"] ∧
    parseNodes sampleRules "1. e4" false none
      = .ok [Node.moveNumber "1.", Node.mainMove 0 "start e4" "e4"] ∧
    parseNodes sampleRules "9007199254740992. e4 9007199254740993. e5" false none
      = .ok [Node.moveNumber "9007199254740992.", Node.mainMove 0 "start e4" "e4",
             Node.mainMove 1 "start e4 e5" "e5"] := by
  exact ⟨by rfl, by rfl, by rfl⟩

/-- C22, amended: at a move-number token (digits `N`, dots, white space) the renderer reads
the number of `N` with `parseInt`: `N` itself below `2^53`, the nearest double above. It
emits the label of that number with three dots whenever the token has more than one dot, and
leaves `lastShownMoveNum` as it is; for a single dot it emits the label of the number with
one dot if and only if the number differs from `lastShownMoveNum`, which then becomes the
number. The label holds the number as a template literal prints it: below `2^53` the digits
of `N` without leading zeros. The variable is 0 at the start of a scope and no other token
changes it: it is the number of the last single-dot label shown in the scope, and 0 while
none was shown. The cursor moves past the token. -/
theorem moveNumber_label {P : Type} (R : Rules P) (isVariation : Bool) (sc : Scope P)
    (pos : Nat) (number dots gap tail : List Char)
    (hn1 : number ≠ []) (hn2 : ∀ x ∈ number, isDigit x = true)
    (hd1 : dots ≠ []) (hd2 : ∀ x ∈ dots, (x == '.') = true)
    (hg : ∀ x ∈ gap, isSpace x = true)
    (htail : ∀ c t, tail = c :: t → isSpace c = false ∧ (gap = [] → c ≠ '.')) :
    (1 < dots.length →
      (emitToken R isVariation sc pos (number ++ (dots ++ (gap ++ tail)))).html
        = sc.html ++ [Node.moveNumber (numToString (parseInt number) ++ "...")] ∧
      (emitToken R isVariation sc pos (number ++ (dots ++ (gap ++ tail)))).lastShownMoveNum
        = sc.lastShownMoveNum) ∧
    (dots.length = 1 → parseInt number ≠ sc.lastShownMoveNum →
      (emitToken R isVariation sc pos (number ++ (dots ++ (gap ++ tail)))).html
        = sc.html ++ [Node.moveNumber (numToString (parseInt number) ++ ".")] ∧
      (emitToken R isVariation sc pos (number ++ (dots ++ (gap ++ tail)))).lastShownMoveNum
        = parseInt number) ∧
    (dots.length = 1 → parseInt number = sc.lastShownMoveNum →
      (emitToken R isVariation sc pos (number ++ (dots ++ (gap ++ tail)))).html = sc.html ∧
      (emitToken R isVariation sc pos (number ++ (dots ++ (gap ++ tail)))).lastShownMoveNum
        = sc.lastShownMoveNum) ∧
    (emitToken R isVariation sc pos (number ++ (dots ++ (gap ++ tail)))).pos
      = pos + (number.length + dots.length + gap.length) ∧
    (startScope R none).lastShownMoveNum = 0 ∧
    (∀ rest : List Char, matchStart numRe rest = none →
      (emitToken R isVariation sc pos rest).lastShownMoveNum = sc.lastShownMoveNum) ∧
    (digitsValue number < 9007199254740992 →
      parseInt number = digitsValue number ∧
      numToString (parseInt number) = toString (digitsValue number)) := by
  have hm := numRe_head number dots gap tail hn1 hn2 hd1 hd2 hg htail
  have he : emitToken R isVariation sc pos (number ++ (dots ++ (gap ++ tail)))
      = emitNumber sc pos number dots (number ++ (dots ++ gap)).length := by
    unfold emitToken
    rw [hm]
    rfl
  rw [he]
  unfold emitNumber
  refine ⟨?_, ?_, ?_, ?_, rfl, ?_, ?_⟩
  · intro h
    rw [if_pos h]
    exact ⟨rfl, rfl⟩
  · intro h hne
    have h1 : ¬ (1 < dots.length) := by omega
    rw [if_neg h1, if_pos hne]
    exact ⟨rfl, rfl⟩
  · intro h heq
    have h1 : ¬ (1 < dots.length) := by omega
    rw [if_neg h1, if_neg (not_not.mpr heq)]
    exact ⟨rfl, rfl⟩
  · simp only [List.length_append]
    split_ifs <;> simp only [] <;> omega
  · intro rest hnum
    unfold emitToken
    rw [hnum]
    simp only []
    cases matchStart resRe rest with
    | some m => rfl
    | none =>
      simp only []
      cases matchStart nagRe rest with
      | some m =>
        simp only [emitNag]
        split_ifs <;> rfl
      | none =>
        simp only []
        cases matchStart moveRe rest with
        | none => rfl
        | some m =>
          simp only [emitMove]
          cases R.move sc.game (String.mk ((m.grp 1).getD [])) with
          | none => rfl
          | some p =>
            obtain ⟨r, g⟩ := p
            cases isVariation <;> rfl
  · intro h
    have hs := toNumber_small (digitsValue number) h
    unfold parseInt
    rw [hs.1]
    exact ⟨rfl, hs.2⟩

/-- C22, amended, at the tokens `2.` and `2...` in a scope that has shown `2.` last
(`1. e4 e5 2.` is rendered): the restated `2.` is not shown, `2...` is. -/
theorem moveNumber_label_witness :
    (emitToken sampleRules false sampleScope 12 "2. Nf3".toList).html = sampleScope.html ∧
    (emitToken sampleRules false sampleScope 12 "2... Nf3".toList).html
      = sampleScope.html ++ [Node.moveNumber "2..."] :=
  ⟨((moveNumber_label sampleRules false sampleScope 12 "2".toList ".".toList " ".toList
      "Nf3".toList (by decide) (by decide) (by decide) (by decide) (by decide)
      (by intro c t h; cases h; exact ⟨by decide, by decide⟩)).2.2.1 rfl rfl).1,
   ((moveNumber_label sampleRules false sampleScope 12 "2".toList "...".toList " ".toList
      "Nf3".toList (by decide) (by decide) (by decide) (by decide) (by decide)
      (by intro c t h; cases h; exact ⟨by decide, by decide⟩)).1 (by decide)).1⟩

/-- A text outside the table of `convertNag` has the empty symbol. -/
theorem convertNag_unmapped (nag : String) (h : nag ∉ nagCodes) : convertNag nag = "" := by
  unfold convertNag
  split <;> first | rfl | (exfalso; exact h (by decide))

/-- The codes of the table of `convertNag` have a symbol. -/
theorem convertNag_mapped (nag : String) (h : nag ∈ nagCodes) : convertNag nag ≠ "" := by
  simp only [nagCodes, List.mem_cons, List.mem_singleton, List.not_mem_nil, or_false] at h
  rcases h with h | h | h | h | h | h | h | h | h | h | h | h | h | h | h | h | h | h | h | h |
    h | h <;> subst h <;> decide

/-- The match of the NAG pattern of line 667 on `$` and digits; the patterns of lines 643 and
660 do not match there. -/
theorem nagRe_head (ds tail : List Char) (hn1 : ds ≠ []) (hn2 : ∀ x ∈ ds, isDigit x = true)
    (htail : ∀ c t, tail = c :: t → isDigit c = false) :
    matchStart numRe ('$' :: (ds ++ tail)) = none ∧
    matchStart resRe ('$' :: (ds ++ tail)) = none ∧
    matchStart nagRe ('$' :: (ds ++ tail)) = some { whole := '$' :: ds, caps := [(1, ds)] } := by
  refine ⟨?_, ?_, ?_⟩
  · simp [matchStart, numRe, Re.cat, Re.plus, Re.run, isDigit]
  · simp [matchStart, resRe, resultAlt, lits, lit, Re.cat, Re.run]
  · have hrun : (Re.run nagRe ('$' :: (ds ++ tail), [])).head? = some (tail, [(1, ds)]) := by
      unfold nagRe
      refine Re.head_seq _ _ _ (ds ++ tail, []) _ ?_ ?_
      · unfold lit
        rw [Re.run_chr_cons _ _ _ _ (by decide)]
        rfl
      · apply Re.head_group
        exact Re.head_plus_chr _ _ _ _ hn1 hn2 htail
    unfold matchStart
    rw [hrun]
    simp only [Option.map_some', List.length_cons, List.length_append]
    congr 1
    have e : ds.length + tail.length + 1 - tail.length = ('$' :: ds).length := by
      simp only [List.length_cons]; omega
    rw [e, ← List.cons_append, List.take_left']
    rfl

/-- C23: `convertNag` maps `$1` to `!`, `$2` to `?`, `$3` to `!!`, `$4` to `??`, `$5` to
`!?`, `$6` to `?!` and `$16` to `±`; every code of its table has a non-empty symbol, and a
text `$...` outside the table has the empty one. At a NAG token (`$` and digits) the renderer
emits one NAG node with the symbol when the code is in the table and nothing otherwise; in
both cases the cursor moves past the token and the rest of the scope is unchanged. -/
theorem convertNag_spec {P : Type} (R : Rules P) (isVariation : Bool) (sc : Scope P)
    (pos : Nat) (ds tail : List Char) (hn1 : ds ≠ []) (hn2 : ∀ x ∈ ds, isDigit x = true)
    (htail : ∀ c t, tail = c :: t → isDigit c = false) :
    (convertNag "$1" = "!" ∧ convertNag "$2" = "?" ∧ convertNag "$3" = "!!" ∧
      convertNag "$4" = "??" ∧ convertNag "$5" = "!?" ∧ convertNag "$6" = "?!" ∧
      convertNag "$16" = "±") ∧
    (∀ code ∈ nagCodes, convertNag code ≠ "") ∧
    (∀ text : List Char, String.mk ('$' :: text) ∉ nagCodes →
      convertNag (String.mk ('$' :: text)) = "") ∧
    (String.mk ('$' :: ds) ∈ nagCodes →
      (emitToken R isVariation sc pos ('$' :: (ds ++ tail))).html
        = sc.html ++ [Node.nag (convertNag (String.mk ('$' :: ds)))]) ∧
    (String.mk ('$' :: ds) ∉ nagCodes →
      (emitToken R isVariation sc pos ('$' :: (ds ++ tail))).html = sc.html) ∧
    (emitToken R isVariation sc pos ('$' :: (ds ++ tail))).pos = pos + (1 + ds.length) ∧
    (emitToken R isVariation sc pos ('$' :: (ds ++ tail))).plyCount = sc.plyCount ∧
    (emitToken R isVariation sc pos ('$' :: (ds ++ tail))).game = sc.game := by
  obtain ⟨h1, h2, h3⟩ := nagRe_head ds tail hn1 hn2 htail
  have he : emitToken R isVariation sc pos ('$' :: (ds ++ tail))
      = emitNag sc pos ('$' :: ds) := by
    unfold emitToken
    rw [h1, h2, h3]
  rw [he]
  unfold emitNag
  refine ⟨⟨rfl, rfl, rfl, rfl, rfl, rfl, rfl⟩, convertNag_mapped,
    fun text h => convertNag_unmapped _ h, ?_, ?_, ?_, ?_, ?_⟩
  · intro h
    simp only []
    rw [if_neg (convertNag_mapped _ h)]
  · intro h
    simp only []
    rw [if_pos (convertNag_unmapped _ h)]
  · simp only [List.length_cons]
    split_ifs <;> simp only [] <;> omega
  · simp only []
    split_ifs <;> rfl
  · simp only []
    split_ifs <;> rfl

/-- C23 at the tokens `$16` and `$7` after `1. e4 e5 2.`: the first is in the table and is
rendered as `±`, the second is not and renders nothing. -/
theorem convertNag_spec_witness :
    (emitToken sampleRules false sampleScope 12 "$16 Nf3".toList).html
      = sampleScope.html ++ [Node.nag "±"] ∧
    (emitToken sampleRules false sampleScope 12 "$7 Nf3".toList).html = sampleScope.html ∧
    (emitToken sampleRules false sampleScope 12 "$7 Nf3".toList).pos = 14 :=
  ⟨(convertNag_spec sampleRules false sampleScope 12 "16".toList " Nf3".toList (by decide)
      (by decide) (by intro c t h; cases h; decide)).2.2.2.1 (by decide),
   (convertNag_spec sampleRules false sampleScope 12 "7".toList " Nf3".toList (by decide)
      (by decide) (by intro c t h; cases h; decide)).2.2.2.2.1 (by decide),
   (convertNag_spec sampleRules false sampleScope 12 "7".toList " Nf3".toList (by decide)
      (by decide) (by intro c t h; cases h; decide)).2.2.2.2.2.1⟩

/-! ## Openers that never close -/

/-- No index is found for a character that the text does not hold from `start` on. -/
theorem indexOfFrom_none (s : List Char) (c : Char) (start : Nat)
    (h : c ∉ s.drop start) : indexOfFrom s c start = none := by
  unfold indexOfFrom
  have : (s.drop start).findIdx? (fun d => d == c) = none := by
    rw [List.findIdx?_eq_none_iff]
    intro x hx
    rw [beq_eq_false_iff_ne]
    intro hxc
    exact h (hxc ▸ hx)
  rw [this]
  rfl

/-- C21, as the code behaves: when the cursor of `parseAndRenderPgn` stands on a `{` that no
`}` follows, the loop ends and returns what was rendered before, unchanged, without an
error: nothing after the opener is rendered. When it stands on a `(`, with or without a
matching `)`, the call raises a ReferenceError (the loop of `findMatchingParen`) and returns
nothing. -/
theorem parseLoop_unclosed {P : Type} (R : Rules P) (isVariation : Bool) (fuel : Nat)
    (movesText : List Char) (sc : Scope P) :
    (∀ after : List Char,
      movesText.drop (sc.pos + ((movesText.drop sc.pos).takeWhile isSpace).length)
        = '{' :: after →
      '}' ∉ after → parseLoop R isVariation (fuel + 1) movesText sc = .ok sc.html) ∧
    (∀ after : List Char,
      movesText.drop (sc.pos + ((movesText.drop sc.pos).takeWhile isSpace).length)
        = '(' :: after →
      parseLoop R isVariation (fuel + 1) movesText sc = .error (.referenceError "i")) := by
  constructor
  · intro after h hno
    have hidx : indexOfFrom movesText '}'
        (sc.pos + ((movesText.drop sc.pos).takeWhile isSpace).length) = none := by
      apply indexOfFrom_none
      rw [h]
      intro hc
      rcases List.mem_cons.mp hc with hc | hc
      · exact absurd hc (by decide)
      · exact hno hc
    unfold parseLoop
    simp only [h, if_true, hidx]
  · intro after h
    have hlen : sc.pos + ((movesText.drop sc.pos).takeWhile isSpace).length
        < movesText.length := by
      by_contra hc
      rw [List.drop_of_length_le (not_lt.mp hc)] at h
      exact List.noConfusion h
    unfold parseLoop
    simp only [h]
    simp [findMatchingParen, hlen]

/-- C21 at `e4 {abc e5` and `e4 (d4 e5` after the move `e4` was rendered: the unclosed
comment ends the render with the move `e4`, the unclosed variation raises. -/
theorem parseLoop_unclosed_witness :
    parseLoop sampleRules false 9 "e4 \x7babc e5".toList
        { startScope sampleRules none with
          html := [Node.mainMove 0 "start e4" "e4"], pos := 2, plyCount := 1, game := ["e4"] }
      = .ok [Node.mainMove 0 "start e4" "e4"] ∧
    parseLoop sampleRules false 9 "e4 (d4 e5".toList
        { startScope sampleRules none with
          html := [Node.mainMove 0 "start e4" "e4"], pos := 2, plyCount := 1, game := ["e4"] }
      = .error (.referenceError "i") ∧
    parseNodes sampleRules "e4 \x7babc e5" false none = .ok [Node.mainMove 0 "start e4" "e4"] ∧
    parseNodes sampleRules "e4 (d4 e5" false none = .error (.referenceError "i") :=
  ⟨(parseLoop_unclosed sampleRules false 8 "e4 \x7babc e5".toList _).1 "abc e5".toList
      (by rfl) (by decide),
   (parseLoop_unclosed sampleRules false 8 "e4 (d4 e5".toList _).2 "d4 e5".toList (by rfl),
   by rfl, by rfl⟩

/-! ## The store -/

mutual
/-- The clone of a JSON-like value is structurally equal to it. -/
theorem deepClone_jsonLike : ∀ v : JVal, v.jsonLike = true → deepClone v = v
  | JVal.undefined, _ => rfl
  | JVal.null, _ => rfl
  | JVal.bool _, _ => rfl
  | JVal.num _, _ => rfl
  | JVal.str _, _ => rfl
  | JVal.arr items props, h => by
    simp only [JVal.jsonLike, Bool.and_eq_true, List.isEmpty_iff] at h
    simp only [deepClone, deepCloneItems_jsonLike items h.1, h.2]
  | JVal.obj fields, h => by
    simp only [JVal.jsonLike] at h
    simp only [deepClone, deepCloneFields_jsonLike fields h]
/-- The clones of JSON-like items are the items. -/
theorem deepCloneItems_jsonLike : ∀ items : List JVal, jsonLikeItems items = true →
    deepCloneItems items = items
  | [], _ => rfl
  | v :: rest, h => by
    simp only [jsonLikeItems, Bool.and_eq_true] at h
    simp only [deepCloneItems, deepClone_jsonLike v h.1, deepCloneItems_jsonLike rest h.2]
/-- The clones of JSON-like properties are the properties. -/
theorem deepCloneFields_jsonLike : ∀ fields : List (String × JVal),
    jsonLikeFields fields = true → deepCloneFields fields = fields
  | [], _ => rfl
  | (k, v) :: rest, h => by
    simp only [jsonLikeFields, Bool.and_eq_true] at h
    simp only [deepCloneFields, deepClone_jsonLike v h.1, deepCloneFields_jsonLike rest h.2]
end

/-- A property reads the value that was assigned to it. -/
theorem lookupField_assignField (fields : List (String × JVal)) (k : String) (v : JVal) :
    lookupField (assignField fields k v) k = v := by
  induction fields with
  | nil => simp [assignField, lookupField]
  | cons f rest ih =>
    obtain ⟨name, w⟩ := f
    by_cases h : name = k
    · simp [assignField, lookupField, h]
    · simp [assignField, lookupField, h, ih]

/-- C29, as the code behaves: on the store as it is loaded, `setState('cache.lastFetch.x', 1)`
stores the value (a following `getState` returns 1) and then raises a ReferenceError instead
of returning 1, and `setState('user.name', 'John')` raises a TypeError, `user` being `null`,
and leaves the store as it was. For every store, every key with a dot and every value, the
call returns without an error only when it is silent or the path held a strictly equal
value before. What does hold: for a key without a dot on a store object the call returns
the value, and a following `getState` of the key returns its clone, which for a JSON-like
value is structurally equal to it. -/
theorem setState_round_trip :
    ((setState initialStore "cache.lastFetch.x" (JVal.num 1) false).result
        = .error (.referenceError "i") ∧
      getState (setState initialStore "cache.lastFetch.x" (JVal.num 1) false).store
        "cache.lastFetch.x" = JVal.num 1) ∧
    ((setState initialStore "user.name" (JVal.str "John") false).result = .error .typeError ∧
      (setState initialStore "user.name" (JVal.str "John") false).store = initialStore) ∧
    (∀ (state : JVal) (k : String) (keys : List String) (lastKey : String) (value v : JVal),
      (setStateAt state (k :: keys) lastKey value false).result = .ok v →
      ∃ state2 oldValue, setPath state (k :: keys) lastKey value = .ok (state2, oldValue) ∧
        strictNe oldValue value = false) ∧
    (∀ (fields : List (String × JVal)) (lastKey : String) (value : JVal) (silent : Bool),
      (setStateAt (JVal.obj fields) [] lastKey value silent).result = .ok value ∧
      getPath (setStateAt (JVal.obj fields) [] lastKey value silent).store [lastKey]
        = deepClone value ∧
      (value.jsonLike = true → deepClone value = value)) := by
  refine ⟨⟨by rfl, by rfl⟩, ⟨by rfl, by rfl⟩, ?_, ?_⟩
  · intro state k keys lastKey value v h
    unfold setStateAt at h
    cases hp : setPath state (k :: keys) lastKey value with
    | error e =>
      rw [hp] at h
      exact Except.noConfusion h
    | ok p =>
      obtain ⟨state2, oldValue⟩ := p
      rw [hp] at h
      refine ⟨state2, oldValue, rfl, ?_⟩
      cases hs : strictNe oldValue value with
      | false => rfl
      | true =>
        exfalso
        have hk : ((k :: keys).length : Int) - 1 ≥ 0 := by
          simp only [List.length_cons]
          omega
        simp only [hs, Bool.not_false, Bool.and_self, if_true, hk] at h
        exact Except.noConfusion h
  · intro fields lastKey value silent
    have hp : setPath (JVal.obj fields) [] lastKey value
        = .ok (JVal.obj (assignField fields lastKey value), lookupField fields lastKey) := rfl
    have hst : (setStateAt (JVal.obj fields) [] lastKey value silent)
        = { store := JVal.obj (assignField fields lastKey value), result := .ok value } := by
      unfold setStateAt
      rw [hp]
      simp only [List.length_nil]
      split_ifs with h1 h2
      · exact absurd h2 (by decide)
      · rfl
      · rfl
    rw [hst]
    refine ⟨rfl, ?_, deepClone_jsonLike value⟩
    simp only [getPath, JVal.isNullish, JVal.read, lookupField_assignField]
    rfl

/-- C29 at concrete calls: `setState('subscription.tier', 'free')` on the loaded store keeps
the value that was there and returns; `setState('user', ...)` returns the object, and its
clone is the object. -/
theorem setState_round_trip_witness :
    (setStateAt initialStore ["subscription"] "tier" (JVal.str "free") false).result
      = .ok (JVal.str "free") ∧
    (∃ state2 oldValue,
      setPath initialStore ["subscription"] "tier" (JVal.str "free") = .ok (state2, oldValue) ∧
      strictNe oldValue (JVal.str "free") = false) ∧
    deepClone (JVal.obj [("name", JVal.str "John")]) = JVal.obj [("name", JVal.str "John")] :=
  ⟨by rfl,
   setState_round_trip.2.2.1 initialStore "subscription" [] "tier" (JVal.str "free")
     (JVal.str "free") (by rfl),
   (setState_round_trip.2.2.2 [] "user" (JVal.obj [("name", JVal.str "John")]) false).2.2
     (by rfl)⟩

/-! ## Directives in comments -/

/-- The matches of a concatenation: those of the head, continued by the rest. -/
theorem Re.run_cat_cons {α : Type} (a : Re α) (l : List (Re α)) (st : MState α) :
    Re.run (Re.cat (a :: l)) st = (Re.run a st).flatMap (fun st2 => Re.run (Re.cat l) st2) := by
  cases l with
  | nil =>
    simp only [Re.cat, Re.run]
    induction Re.run a st with
    | nil => rfl
    | cons x xs ih => simp only [List.flatMap_cons, List.singleton_append, ← ih]
  | cons b l => rfl

/-- A literal text matches itself at the head of the input, in one way. -/
theorem run_lits_front (cs rest : List Char) (c : Caps Char) :
    Re.run (Re.cat (cs.map lit)) (cs ++ rest, c) = [(rest, c)] := by
  induction cs with
  | nil => rfl
  | cons x cs ih =>
    rw [List.map_cons, Re.run_cat_cons]
    have : Re.run (lit x) (x :: cs ++ rest, c) = [(cs ++ rest, c)] := by
      unfold lit
      exact Re.run_chr_cons _ _ _ _ (by simp)
    rw [this]
    simp only [List.flatMap_cons, List.flatMap_nil, List.append_nil]
    exact ih

/-- A literal text matches only itself. -/
theorem run_lits_mem (cs s : List Char) (c : Caps Char) (st : MState Char)
    (h : st ∈ Re.run (Re.cat (cs.map lit)) (s, c)) : s = cs ++ st.1 ∧ st.2 = c := by
  induction cs generalizing s with
  | nil =>
    simp only [List.map_nil, Re.cat, Re.run, List.mem_singleton] at h
    subst h
    exact ⟨rfl, rfl⟩
  | cons x cs ih =>
    rw [List.map_cons, Re.run_cat_cons, List.mem_flatMap] at h
    obtain ⟨st2, h2, h3⟩ := h
    cases s with
    | nil => simp [lit, Re.run] at h2
    | cons y t =>
      simp only [lit, Re.run] at h2
      split at h2
      · rename_i hy
        simp only [List.mem_singleton] at h2
        subst h2
        have hxy : y = x := by simpa using hy
        obtain ⟨e1, e2⟩ := ih t h3
        subst hxy
        exact ⟨by rw [e1]; rfl, e2⟩
      · simp at h2

/-- The directive pattern matches `[%name`, the characters up to the next `]`, and that
`]`. -/
theorem directiveRe_match (name : String) (body rest : List Char) (hb : ']' ∉ body) :
    matchStart (directiveRe name) (("[%" ++ name).toList ++ (body ++ ']' :: rest))
      = some { whole := ("[%" ++ name).toList ++ (body ++ [']']), caps := [] } := by
  have hrun : (Re.run (directiveRe name)
      (("[%" ++ name).toList ++ (body ++ ']' :: rest), [])).head? = some (rest, []) := by
    unfold directiveRe
    rw [Re.run_cat_cons]
    unfold lits
    rw [run_lits_front]
    simp only [List.flatMap_cons, List.flatMap_nil, List.append_nil]
    rw [Re.run_cat_cons]
    have h1 : (Re.run (Re.star (noneOf "]")) (body ++ ']' :: rest, [])).head?
        = some (']' :: rest, []) := by
      unfold noneOf
      apply Re.head_star_chr
      · intro x hx
        have : x ≠ ']' := fun h => hb (h ▸ hx)
        simp [this]
      · intro x t h
        simp only [List.cons.injEq] at h
        rw [← h.1]
        rfl
    cases hl : Re.run (Re.star (noneOf "]")) (body ++ ']' :: rest, []) with
    | nil => rw [hl] at h1; simp at h1
    | cons y ys =>
      rw [hl] at h1
      simp only [List.head?_cons, Option.some.injEq] at h1
      subst h1
      simp only [List.flatMap_cons, Re.cat, lit]
      rw [Re.run_chr_cons (fun d => d == ']') ']' rest [] rfl]
      rfl
  unfold matchStart
  rw [hrun]
  simp only [Option.map_some', List.length_append, List.length_cons]
  congr 1
  have e : ("[%" ++ name).toList.length + (body.length + (rest.length + 1)) - rest.length
      = (("[%" ++ name).toList ++ (body ++ [']'])).length := by
    simp only [List.length_append, List.length_cons, List.length_nil]; omega
  rw [e]
  have e2 : ("[%" ++ name).toList ++ (body ++ ']' :: rest)
      = (("[%" ++ name).toList ++ (body ++ [']'])) ++ rest := by simp
  rw [e2, List.take_left']
  rfl

/-- What the directive pattern matches is `[%name`, characters other than `]`, and `]`. -/
theorem directiveRe_shape (name : String) (t : List Char) (m : Match Char)
    (h : matchStart (directiveRe name) t = some m) :
    ∃ body rest, ']' ∉ body ∧ t = ("[%" ++ name).toList ++ (body ++ ']' :: rest) ∧
      m.whole = ("[%" ++ name).toList ++ (body ++ [']']) := by
  obtain ⟨rest, caps, hmem, _, _, _⟩ := matchStart_whole _ t m h
  unfold directiveRe at hmem
  rw [Re.run_cat_cons, List.mem_flatMap] at hmem
  obtain ⟨st1, h1, hmem⟩ := hmem
  obtain ⟨e1, _⟩ := run_lits_mem _ _ _ _ h1
  rw [Re.run_cat_cons, List.mem_flatMap] at hmem
  obtain ⟨st2, h2, hmem⟩ := hmem
  obtain ⟨st1a, st1b⟩ := st1
  simp only [Re.run] at h2
  obtain ⟨u, hu, hall, _⟩ := Re.starAux_chr_mem _ _ _ _ _ h2
  obtain ⟨st2a, st2b⟩ := st2
  have h3 : st2a = ']' :: rest := by
    cases st2a with
    | nil => simp [Re.cat, lit, Re.run] at hmem
    | cons y ys =>
      simp only [Re.cat, lit, Re.run] at hmem
      split at hmem
      · rename_i hy
        simp only [List.mem_singleton, Prod.mk.injEq] at hmem
        have : y = ']' := by simpa using hy
        rw [this, hmem.1]
      · simp at hmem
  have hb : ']' ∉ u := by
    intro hc
    have := hall _ hc
    simp [noneOf] at this
  have ht : t = ("[%" ++ name).toList ++ (u ++ ']' :: rest) := by
    simp only at e1 hu
    rw [e1, hu, h3]
  refine ⟨u, rest, hb, ht, ?_⟩
  have := directiveRe_match name u rest hb
  rw [← ht, h] at this
  simp only [Option.some.injEq] at this
  rw [this]

/-- A failed search: the pattern matches at no position of the input. -/
theorem search_none {α : Type} (r : Re α) (s : List α) (h : search r s = none)
    (pre post : List α) (hs : s = pre ++ post) : matchStart r post = none := by
  induction s generalizing pre with
  | nil =>
    have hp : post = [] := by
      have := congrArg List.length hs
      simp only [List.length_nil, List.length_append] at this
      exact List.length_eq_zero.mp (by omega)
    subst hp
    simp only [search, Option.map_eq_none'] at h
    exact h
  | cons c t ih =>
    simp only [search] at h
    split at h
    · exact Option.noConfusion h
    · rename_i hm
      simp only [Option.map_eq_none'] at h
      cases pre with
      | nil =>
        simp only [List.nil_append] at hs
        rw [← hs]
        exact hm
      | cons p pre =>
        simp only [List.cons_append, List.cons.injEq] at hs
        exact ih h pre hs.2

/-- A leftmost match: the input is the text before it, the match and a rest; the pattern
matches at the start of the match, and at no position before. -/
theorem search_some {α : Type} (r : Re α) (s before : List α) (m : Match α)
    (h : search r s = some (before, m)) :
    ∃ after, s = before ++ (m.whole ++ after) ∧ matchStart r (m.whole ++ after) = some m ∧
      ∀ b1 b2, before = b1 ++ b2 → b2 ≠ [] → matchStart r (b2 ++ (m.whole ++ after)) = none := by
  induction s generalizing before with
  | nil =>
    simp only [search, Option.map_eq_some'] at h
    obtain ⟨m2, hm2, he⟩ := h
    simp only [Prod.mk.injEq] at he
    obtain ⟨rest, caps, _, hw, _, _⟩ := matchStart_whole r [] m2 hm2
    have hw2 : m2.whole = [] := by rw [hw]; exact List.take_nil
    refine ⟨[], ?_, ?_, ?_⟩
    · rw [← he.1, ← he.2, hw2]; rfl
    · rw [← he.2, hw2]; exact hm2
    · intro b1 b2 hb hne
      rw [← he.1] at hb
      have := congrArg List.length hb
      simp only [List.length_nil, List.length_append] at this
      exact absurd (List.length_eq_zero.mp (by omega)) hne
  | cons c t ih =>
    simp only [search] at h
    split at h
    · rename_i m2 hm2
      simp only [Option.some.injEq, Prod.mk.injEq] at h
      obtain ⟨rest, caps, _, hw, _, _⟩ := matchStart_whole r (c :: t) m2 hm2
      have hsplit : c :: t = m2.whole ++ (c :: t).drop ((c :: t).length - rest.length) := by
        rw [hw, List.take_append_drop]
      refine ⟨(c :: t).drop ((c :: t).length - rest.length), ?_, ?_, ?_⟩
      · rw [← h.1, ← h.2]; exact hsplit
      · rw [← h.2, ← hsplit]; exact hm2
      · intro b1 b2 hb hne
        rw [← h.1] at hb
        have := congrArg List.length hb
        simp only [List.length_nil, List.length_append] at this
        exact absurd (List.length_eq_zero.mp (by omega)) hne
    · rename_i hm
      simp only [Option.map_eq_some'] at h
      obtain ⟨x, hx, he⟩ := h
      obtain ⟨x1, x2⟩ := x
      simp only [Prod.mk.injEq] at he
      obtain ⟨after, hs, hmm, hbefore⟩ := ih x1 (by rw [← he.2]; exact hx)
      refine ⟨after, ?_, hmm, ?_⟩
      · rw [← he.1, hs]; rfl
      · intro b1 b2 hb hne
        rw [← he.1] at hb
        cases b1 with
        | nil =>
          simp only [List.nil_append] at hb
          rw [← hb, List.cons_append, ← hs]
          exact hm
        | cons p b1 =>
          simp only [List.cons_append, List.cons.injEq] at hb
          exact hbefore b1 b2 hb.2 hne

/-- The opener of a directive. -/
theorem opener_eq (name : String) : ("[%" ++ name).toList = '[' :: '%' :: name.toList := by
  rw [String.toList, String.data_append]
  rfl

/-- The names of the directives have three characters, none of them a bracket. -/
theorem directiveNames_facts (name : String) (h : name ∈ directiveNames) :
    ∃ a b c, name.toList = [a, b, c] ∧ a ≠ '[' ∧ b ≠ '[' ∧ c ≠ '[' := by
  simp only [directiveNames, List.mem_cons, List.mem_singleton, List.not_mem_nil,
    or_false] at h
  rcases h with h | h | h <;> subst h
  · exact ⟨'e', 'v', 'p', rfl, by decide, by decide, by decide⟩
  · exact ⟨'c', 's', 'l', rfl, by decide, by decide, by decide⟩
  · exact ⟨'c', 'a', 'l', rfl, by decide, by decide, by decide⟩

/-- A text that holds `]` splits at the first one. -/
theorem split_at_first (c : Char) (l : List Char) (h : c ∈ l) :
    ∃ body rest, c ∉ body ∧ l = body ++ c :: rest := by
  induction l with
  | nil => simp at h
  | cons x l ih =>
    by_cases hx : x = c
    · exact ⟨[], l, by simp, by rw [hx]; rfl⟩
    · have hm : c ∈ l := by
        rcases List.mem_cons.mp h with h | h
        · exact absurd h.symm hx
        · exact h
      obtain ⟨body, rest, hb, hl⟩ := ih hm
      refine ⟨x :: body, rest, ?_, by rw [hl]; rfl⟩
      intro hc
      rcases List.mem_cons.mp hc with hc | hc
      · exact hx hc.symm
      · exact hb hc

/-- At a directive the pattern matches. -/
theorem directiveRe_matches (name : String) (mid post : List Char) :
    matchStart (directiveRe name) (("[%" ++ name).toList ++ (mid ++ ']' :: post)) ≠ none := by
  obtain ⟨body, rest, hb, hl⟩ := split_at_first ']' (mid ++ ']' :: post) (by simp)
  rw [hl, directiveRe_match name body rest hb]
  exact Option.some_ne_none _

/-- A text in which the pattern is found nowhere holds no directive of the name. -/
theorem search_none_hasDirective (name : String) (s : List Char)
    (h : search (directiveRe name) s = none) : ¬ hasDirective name s := by
  rintro ⟨pre, mid, post, hs⟩
  exact directiveRe_matches name mid post (search_none _ s h pre _ hs)

/-- A directive of a text is a directive of every text around it. -/
theorem hasDirective_inside (name : String) (a s b : List Char) (h : hasDirective name s) :
    hasDirective name (a ++ (s ++ b)) := by
  obtain ⟨pre, mid, post, hs⟩ := h
  refine ⟨a ++ pre, mid, post ++ b, ?_⟩
  rw [hs]
  simp [List.append_assoc]

/-- One round of the removal of the matches of a pattern, for a match that is not empty. -/
theorem replaceAllAux_step {α : Type} (r : Re α) (fuel : Nat) (s before after : List α)
    (m : Match α) (x : α) (w1 : List α) (hsearch : search r s = some (before, m))
    (hs : s = before ++ (m.whole ++ after)) (hw : m.whole = x :: w1) :
    replaceAllAux r [] (fuel + 1) s = before ++ replaceAllAux r [] fuel after := by
  have hdrop : s.drop (before.length + m.whole.length) = after := by
    rw [hs, ← List.append_assoc, ← List.length_append, List.drop_left]
  rw [hw] at hdrop
  simp only [replaceAllAux, hsearch, hdrop, hw, List.append_nil]

/-- The names of the directives hold no `]`. -/
theorem opener_no_close (d : String) (hd : d ∈ directiveNames) (x y : List Char)
    (h : '%' :: d.toList = x ++ y) : ']' ∉ x := by
  intro hx
  have hm : ']' ∈ '%' :: d.toList := by
    rw [h]
    exact List.mem_append_left _ hx
  simp only [directiveNames, List.mem_cons, List.mem_singleton, List.not_mem_nil,
    or_false] at hd
  rcases hd with hd | hd | hd <;> subst hd <;> exact absurd hm (by decide)

/-- The brackets of a part of a text with flat brackets are flat. -/
theorem flatBrackets_inside (a s b : List Char) (h : flatBrackets (a ++ (s ++ b))) :
    flatBrackets s := by
  intro pre mid post hs
  exact h (a ++ pre) mid (post ++ b) (by rw [hs]; simp [List.append_assoc])

/-- The removal of a bracket keeps the brackets flat: the text before a bracket, followed by
a text with flat brackets. -/
theorem flatBrackets_removal (before w1 after r2 : List Char)
    (hF : flatBrackets (before ++ ('[' :: w1 ++ after))) (hr2 : flatBrackets r2) :
    flatBrackets (before ++ r2) := by
  intro pre mid post hs
  rw [List.append_eq_append_iff] at hs
  rcases hs with ⟨a, hp, hr⟩ | ⟨c, hb, hc⟩
  · exact hr2 a mid post hr
  · cases c with
    | nil =>
      simp only [List.nil_append] at hc
      exact hr2 [] mid post hc.symm
    | cons x c =>
      simp only [List.cons_append, List.cons.injEq] at hc
      obtain ⟨hx, hc⟩ := hc
      subst hx
      -- the first bracket lies in `before`
      have hclosed := hF pre c (w1 ++ after) (by rw [hb]; simp [List.append_assoc])
      rw [List.append_eq_append_iff] at hc
      rcases hc with ⟨a, hmid, hr⟩ | ⟨c2, hcc, hr⟩
      · cases a with
        | nil =>
          rw [List.append_nil] at hmid
          rw [← hmid]
          exact hclosed
        | cons y a =>
          -- both brackets lie in `before`
          simp only [List.cons_append, List.cons.injEq] at hr
          obtain ⟨hy, hr⟩ := hr
          subst hy
          exact hF pre mid (a ++ ('[' :: w1 ++ after))
            (by rw [hb, hmid]; simp [List.append_assoc])
      · -- the second bracket lies in `r2`
        rw [hcc]
        exact List.mem_append_left _ hclosed

/-- One removal of a directive: the text before the leftmost match, followed by a text `r2`
that replaces what comes after the match. When the brackets are flat, a directive of
`before ++ r2` lies in `r2`, or it starts in `before` and is a directive of the original
text. -/
theorem removal_step (d : String) (hd : d ∈ directiveNames) (before w1 after r2 : List Char)
    (hF : flatBrackets (before ++ ('[' :: w1 ++ after)))
    (hclose : ']' ∈ w1)
    (h : hasDirective d (before ++ r2)) :
    hasDirective d r2 ∨
      ∃ p c, before = p ++ c ∧ c ≠ [] ∧
        ∃ mid post, c ++ ('[' :: w1 ++ after) = ("[%" ++ d).toList ++ (mid ++ ']' :: post) := by
  obtain ⟨pre, mid, post, hs⟩ := h
  rw [List.append_eq_append_iff] at hs
  rcases hs with ⟨a, hp, hr⟩ | ⟨c, hb, hc⟩
  · left
    exact ⟨a, mid, post, hr⟩
  · cases c with
    | nil =>
      left
      simp only [List.nil_append] at hc
      exact ⟨[], mid, post, by rw [← hc]; rfl⟩
    | cons x c =>
      right
      refine ⟨pre, x :: c, hb, List.cons_ne_nil _ _, ?_⟩
      obtain ⟨b1, b2, _, hw⟩ := split_at_first ']' w1 hclose
      rw [List.append_eq_append_iff] at hc
      rcases hc with ⟨a, hopen, hr⟩ | ⟨c2, hcc, hr⟩
      · -- the opener lies in `before`
        refine ⟨a ++ '[' :: b1, b2 ++ after, ?_⟩
        rw [hopen, hw]
        simp [List.append_assoc]
      · cases c2 with
        | nil =>
          -- the opener is the end of `before`
          rw [List.append_nil] at hcc
          refine ⟨'[' :: b1, b2 ++ after, ?_⟩
          rw [← hcc, hw]
          simp [List.append_assoc]
        | cons y c2 =>
          -- the opener goes on in `r2`: the brackets would be nested
          exfalso
          rw [opener_eq] at hcc
          simp only [List.cons_append, List.cons.injEq] at hcc
          obtain ⟨hx, hc2⟩ := hcc
          subst hx
          have hno := opener_no_close d hd c (y :: c2) hc2
          exact hno (hF pre c (w1 ++ after) (by rw [hb]; simp [List.append_assoc]))

/-- One pass of `cleanComment` over a text with flat brackets: the result holds no directive
of the name of the pass, no directive of another name that the text did not hold, and its
brackets are flat. -/
theorem replaceAllAux_pass (n : String) (hn : n ∈ directiveNames) (fuel : Nat)
    (s : List Char) (hf : s.length < fuel) (hF : flatBrackets s) :
    flatBrackets (replaceAllAux (directiveRe n) [] fuel s) ∧
    ¬ hasDirective n (replaceAllAux (directiveRe n) [] fuel s) ∧
    ∀ d ∈ directiveNames, ¬ hasDirective d s →
      ¬ hasDirective d (replaceAllAux (directiveRe n) [] fuel s) := by
  induction fuel generalizing s with
  | zero => exact absurd hf (Nat.not_lt_zero _)
  | succ fuel ih =>
    cases hsearch : search (directiveRe n) s with
    | none =>
      have hr : replaceAllAux (directiveRe n) [] (fuel + 1) s = s := by
        simp only [replaceAllAux, hsearch]
      rw [hr]
      exact ⟨hF, search_none_hasDirective n s hsearch, fun d _ h => h⟩
    | some p =>
      obtain ⟨before, m⟩ := p
      obtain ⟨after, hs, hmatch, hleft⟩ := search_some _ s before m hsearch
      obtain ⟨body, rest, hb, ht, hwhole⟩ := directiveRe_shape n _ m hmatch
      rw [opener_eq] at hwhole
      replace hwhole : m.whole = '[' :: ('%' :: (n.toList ++ (body ++ [']']))) := by
        rw [hwhole]; rfl
      have hw1 : ']' ∈ '%' :: (n.toList ++ (body ++ [']'])) := by simp
      have hr := replaceAllAux_step (directiveRe n) fuel s before after m '['
        ('%' :: (n.toList ++ (body ++ [']']))) hsearch hs hwhole
      rw [hr]
      have hlen : after.length < fuel := by
        have := congrArg List.length hs
        simp only [List.length_append, hwhole, List.length_cons] at this
        omega
      have hF1 : flatBrackets (before ++ ('[' :: ('%' :: (n.toList ++ (body ++ [']'])))
          ++ after)) := by
        rw [← hwhole, ← hs]
        exact hF
      have hFafter : flatBrackets after := by
        have : flatBrackets ((before ++ m.whole) ++ (after ++ [])) := by
          rw [List.append_nil, List.append_assoc, ← hs]
          exact hF
        exact flatBrackets_inside _ _ _ this
      obtain ⟨ihF, ihn, ihd⟩ := ih after hlen hFafter
      have key : ∀ d ∈ directiveNames,
          hasDirective d (before ++ replaceAllAux (directiveRe n) [] fuel after) →
          hasDirective d (replaceAllAux (directiveRe n) [] fuel after) ∨
          ∃ p c, before = p ++ c ∧ c ≠ [] ∧ ∃ mid post,
            c ++ ('[' :: ('%' :: (n.toList ++ (body ++ [']']))) ++ after)
              = ("[%" ++ d).toList ++ (mid ++ ']' :: post) :=
        fun d hd h => removal_step d hd before _ after _ hF1 hw1 h
      refine ⟨flatBrackets_removal before _ after _ hF1 ihF, ?_, ?_⟩
      · intro h
        rcases key n hn h with h1 | ⟨p, c, hbc, hne, mid, post, hmp⟩
        · exact ihn h1
        · have := hleft p c hbc hne
          rw [hwhole, hmp] at this
          exact directiveRe_matches n mid post this
      · intro d hd hnot h
        rcases key d hd h with h1 | ⟨p, c, hbc, hne, mid, post, hmp⟩
        · refine ihd d hd ?_ h1
          intro hafter
          apply hnot
          rw [hs]
          have := hasDirective_inside d (before ++ m.whole) after [] hafter
          simpa [List.append_assoc] using this
        · apply hnot
          refine ⟨p, mid, post, ?_⟩
          rw [hs, hbc, hwhole, List.append_assoc, hmp]

/-- What `trim` returns lies inside the text. -/
theorem trim_inside (s : List Char) : ∃ a b, s = a ++ (trim s ++ b) := by
  unfold trim
  have h1 : ∀ l : List Char, ∃ a, l = a ++ l.dropWhile isSpace := fun l =>
    ⟨l.takeWhile isSpace, (List.takeWhile_append_dropWhile _ l).symm⟩
  obtain ⟨a, ha⟩ := h1 s
  obtain ⟨b, hb⟩ := h1 (s.dropWhile isSpace).reverse
  refine ⟨a, b.reverse, ?_⟩
  have := congrArg List.reverse hb
  rw [List.reverse_reverse, List.reverse_append] at this
  rw [← this]
  exact ha

/-- C24, the claim as stated fails: in the comment text `[%c[%cal a]al b]` the pass for
`%cal` removes the inner directive, and what is left, `[%cal b]`, is a directive again,
which `cleanComment` returns. -/
theorem cleanComment_leaves_directive :
    cleanComment "[%c[%cal a]al b]".toList = "[%cal b]".toList ∧
    hasDirective "cal" (cleanComment "[%c[%cal a]al b]".toList) := by
  have h : cleanComment "[%c[%cal a]al b]".toList = "[%cal b]".toList := by decide
  refine ⟨h, ?_⟩
  rw [h]
  exact ⟨[], " b".toList, [], rfl⟩

/-- C24, amended: for every comment text whose square brackets are not nested (between two
`[` stands a `]`), the text that `cleanComment` returns holds no directive: no `[%evp`,
`[%csl` or `[%cal` that a `]` follows. And when the cursor of `parseAndRenderPgn` stands on
a `{` that is closed at index `e`, the loop goes on behind the `}` with one comment node
more, which carries the cleaned text, if and only if the cleaned text is not empty. -/
theorem cleanComment_spec {P : Type} (R : Rules P) (isVariation : Bool) :
    (∀ text : List Char, flatBrackets text →
      ∀ d ∈ directiveNames, ¬ hasDirective d (cleanComment text)) ∧
    (∀ (fuel : Nat) (movesText after : List Char) (sc : Scope P) (e : Nat),
      movesText.drop (sc.pos + ((movesText.drop sc.pos).takeWhile isSpace).length)
        = '{' :: after →
      indexOfFrom movesText '}' (sc.pos + ((movesText.drop sc.pos).takeWhile isSpace).length)
        = some e →
      parseLoop R isVariation (fuel + 1) movesText sc
        = parseLoop R isVariation fuel movesText
            { sc with
              html :=
                if (cleanComment (trim (slice movesText
                    (sc.pos + ((movesText.drop sc.pos).takeWhile isSpace).length + 1)
                    e))).isEmpty
                then sc.html
                else sc.html ++ [Node.comment (String.mk (cleanComment (trim (slice movesText
                    (sc.pos + ((movesText.drop sc.pos).takeWhile isSpace).length + 1) e))))],
              pos := e + 1 }) := by
  constructor
  · intro text hW d hd
    unfold cleanComment
    split_ifs with hempty
    · rintro ⟨pre, mid, post, h⟩
      have := congrArg List.length h
      rw [opener_eq] at this
      simp at this
      omega
    · intro h
      obtain ⟨a, b, hab⟩ := trim_inside (replaceAll (directiveRe "cal") []
        (replaceAll (directiveRe "csl") [] (replaceAll (directiveRe "evp") [] text)))
      have h2 := hasDirective_inside d a _ b h
      rw [← hab] at h2
      have p1 := replaceAllAux_pass "evp" (by decide) (text.length + 1) text (by omega) hW
      have p2 := replaceAllAux_pass "csl" (by decide) _
        (replaceAll (directiveRe "evp") [] text) (Nat.lt_succ_self _) p1.1
      have p3 := replaceAllAux_pass "cal" (by decide) _
        (replaceAll (directiveRe "csl") [] (replaceAll (directiveRe "evp") [] text))
        (Nat.lt_succ_self _) p2.1
      have e1 : ¬ hasDirective "evp" (replaceAll (directiveRe "cal") []
          (replaceAll (directiveRe "csl") [] (replaceAll (directiveRe "evp") [] text))) :=
        p3.2.2 "evp" (by decide) (p2.2.2 "evp" (by decide) p1.2.1)
      have e2 : ¬ hasDirective "csl" (replaceAll (directiveRe "cal") []
          (replaceAll (directiveRe "csl") [] (replaceAll (directiveRe "evp") [] text))) :=
        p3.2.2 "csl" (by decide) p2.2.1
      have e3 : ¬ hasDirective "cal" (replaceAll (directiveRe "cal") []
          (replaceAll (directiveRe "csl") [] (replaceAll (directiveRe "evp") [] text))) :=
        p3.2.1
      simp only [directiveNames, List.mem_cons, List.mem_singleton, List.not_mem_nil,
        or_false] at hd
      rcases hd with hd | hd | hd <;> subst hd
      · exact e1 h2
      · exact e2 h2
      · exact e3 h2
  · intro fuel movesText after sc e h hidx
    conv_lhs => unfold parseLoop
    simp only [h, if_true, hidx]

/-- The scan decides that the brackets are flat. -/
theorem flatScan_sound (inside : Bool) (s : List Char) (h : flatScan inside s = true) :
    flatBrackets s ∧ (inside = true → ∀ mid post, s = mid ++ '[' :: post → ']' ∈ mid) := by
  induction s generalizing inside with
  | nil =>
    refine ⟨?_, ?_⟩
    · intro pre mid post hs
      have := congrArg List.length hs
      simp at this
      omega
    · intro _ mid post hs
      have := congrArg List.length hs
      simp at this
      omega
  | cons c rest ih =>
    cases inside with
    | false =>
      have h2 : flatScan (c == '[') rest = true := h
      obtain ⟨i1, i2⟩ := ih _ h2
      refine ⟨?_, fun hc => absurd hc (by decide)⟩
      intro pre mid post hs
      cases pre with
      | nil =>
        simp only [List.nil_append, List.cons.injEq] at hs
        exact i2 (by rw [hs.1]; rfl) mid post hs.2
      | cons p pre =>
        simp only [List.cons_append, List.cons.injEq] at hs
        exact i1 pre mid post hs.2
    | true =>
      have hc : c ≠ '[' := by
        intro hc
        simp [flatScan, hc] at h
      have h2 : flatScan (c != ']') rest = true := by
        simpa [flatScan, hc] using h
      obtain ⟨i1, i2⟩ := ih _ h2
      refine ⟨?_, ?_⟩
      · intro pre mid post hs
        cases pre with
        | nil =>
          simp only [List.nil_append, List.cons.injEq] at hs
          exact absurd hs.1 hc
        | cons p pre =>
          simp only [List.cons_append, List.cons.injEq] at hs
          exact i1 pre mid post hs.2
      · intro _ mid post hs
        cases mid with
        | nil =>
          simp only [List.nil_append, List.cons.injEq] at hs
          exact absurd hs.1 hc
        | cons x mid =>
          simp only [List.cons_append, List.cons.injEq] at hs
          by_cases hx : c = ']'
          · rw [← hs.1, hx]
            exact List.mem_cons_self _ _
          · have hb : (c != ']') = true := by simpa using hx
            exact List.mem_cons_of_mem _ (i2 hb mid post hs.2)

/-- C24, amended, at the comment text `see [Kasparov] [%clk 0:05:00] [%csl Gd4][%cal Ge2e4]
idea`: the brackets are not nested, the directives are removed, the other brackets stay. -/
theorem cleanComment_spec_witness :
    flatBrackets "see [Kasparov] [%clk 0:05:00] [%csl Gd4][%cal Ge2e4] idea".toList ∧
    cleanComment "see [Kasparov] [%clk 0:05:00] [%csl Gd4][%cal Ge2e4] idea".toList
      = "see [Kasparov] [%clk 0:05:00]  idea".toList ∧
    ¬ hasDirective "cal"
      (cleanComment "see [Kasparov] [%clk 0:05:00] [%csl Gd4][%cal Ge2e4] idea".toList) :=
  have hF := (flatScan_sound false
    "see [Kasparov] [%clk 0:05:00] [%csl Gd4][%cal Ge2e4] idea".toList (by decide)).1
  ⟨hF, by decide,
   (cleanComment_spec sampleRules false).1 _ hF "cal" (by decide)⟩

/-! ## Comments are opaque -/

/-- The token step appends to `html` and adds to the cursor: what it appends and adds, and
the other variables it leaves, are those of the step from the empty `html` and cursor 0. -/
theorem emitToken_normal {P : Type} (R : Rules P) (isVariation : Bool) (sc : Scope P)
    (pos : Nat) (rest : List Char) :
    emitToken R isVariation sc pos rest
      = { emitToken R isVariation { sc with html := [], pos := 0 } 0 rest with
          html := sc.html ++ (emitToken R isVariation { sc with html := [], pos := 0 } 0 rest).html,
          pos := pos + (emitToken R isVariation { sc with html := [], pos := 0 } 0 rest).pos } := by
  unfold emitToken
  cases matchStart numRe rest with
  | some m =>
    simp only [emitNumber]
    split_ifs <;> simp
  | none =>
    simp only []
    cases matchStart resRe rest with
    | some m => simp
    | none =>
      simp only []
      cases matchStart nagRe rest with
      | some m =>
        simp only [emitNag]
        split_ifs <;> simp
      | none =>
        simp only []
        cases matchStart moveRe rest with
        | none => simp
        | some m =>
          simp only [emitMove]
          cases R.move sc.game (String.mk ((m.grp 1).getD [])) with
          | none => simp
          | some p =>
            obtain ⟨r, g⟩ := p
            cases isVariation <;> simp

/-- The cursor behind the white space stands at the text without its leading white space. -/
theorem drop_skip_space (l : List Char) (p : Nat) :
    l.drop (p + ((l.drop p).takeWhile isSpace).length) = (l.drop p).dropWhile isSpace := by
  rw [← List.drop_drop]
  generalize l.drop p = u
  induction u with
  | nil => rfl
  | cons x u ih =>
    by_cases hx : isSpace x = true
    · simp only [List.takeWhile_cons, hx, if_true, List.length_cons, List.drop_succ_cons,
        List.dropWhile_cons]
      exact ih
    · simp [List.takeWhile_cons, List.dropWhile_cons, hx]

/-- The index of a character from a position on, by the text from that position on. -/
theorem indexOfFrom_drop (l : List Char) (c : Char) (p : Nat) :
    indexOfFrom l c p = ((l.drop p).findIdx? (fun d => d == c)).map (fun k => p + k) := rfl

/-- A slice that starts behind a position, by the text from that position on. -/
theorem slice_drop (l : List Char) (p k : Nat) :
    slice l (p + 1) (p + k) = ((l.drop p).take k).drop 1 := by
  unfold slice
  rw [← List.drop_drop, List.drop_take]
  congr 2
  omega

/-- The render loop reads the text from the cursor on, behind its white space, and appends
to `html`: two runs whose texts agree there and whose scopes agree but for the cursor and
the start of `html` have the same result behind those starts. -/
theorem parseLoop_congr {P : Type} (R : Rules P) (isVariation : Bool) (fuel : Nat)
    (text1 text2 : List Char) (H1 H2 : List Node) (sc1 sc2 : Scope P) (t : List Node)
    (hcore : sc1.core = sc2.core) (h1 : sc1.html = H1 ++ t) (h2 : sc2.html = H2 ++ t)
    (hdrop : (text1.drop sc1.pos).dropWhile isSpace = (text2.drop sc2.pos).dropWhile isSpace) :
    sameBehind H1 H2 (parseLoop R isVariation fuel text1 sc1)
      (parseLoop R isVariation fuel text2 sc2) := by
  induction fuel generalizing sc1 sc2 t with
  | zero => exact Or.inl ⟨.outOfFuel, rfl, rfl⟩
  | succ n ih =>
    rw [parseLoop_succ, parseLoop_succ]
    have e1 := drop_skip_space text1 sc1.pos
    have e2 := drop_skip_space text2 sc2.pos
    rw [hdrop] at e1
    generalize hq1 : sc1.pos + ((text1.drop sc1.pos).takeWhile isSpace).length = q1 at e1 ⊢
    generalize hq2 : sc2.pos + ((text2.drop sc2.pos).takeWhile isSpace).length = q2 at e2 ⊢
    generalize hrem : (text2.drop sc2.pos).dropWhile isSpace = rem at e1 e2
    rw [e1, e2]
    cases rem with
    | nil => exact Or.inr ⟨t, by rw [h1], by rw [h2]⟩
    | cons char after =>
      simp only []
      by_cases hc1 : char = '{'
      · simp only [hc1, if_true]
        rw [indexOfFrom_drop, indexOfFrom_drop, e1, e2]
        cases hk : (char :: after).findIdx? (fun d => d == '}') with
        | none =>
          simp only [Option.map_none']
          exact Or.inr ⟨t, by rw [h1], by rw [h2]⟩
        | some k =>
          simp only [Option.map_some']
          rw [slice_drop, slice_drop, e1, e2]
          have hd1 : text1.drop (q1 + k + 1) = (char :: after).drop (k + 1) := by
            rw [← e1, List.drop_drop, Nat.add_assoc]
          have hd2 : text2.drop (q2 + k + 1) = (char :: after).drop (k + 1) := by
            rw [← e2, List.drop_drop, Nat.add_assoc]
          split_ifs with hempty
          · exact ih _ _ t hcore h1 h2 (by simp only []; rw [hd1, hd2])
          · exact ih _ _ (t ++ [Node.comment _]) hcore
              (by simp only []; rw [h1, List.append_assoc])
              (by simp only []; rw [h2, List.append_assoc])
              (by simp only []; rw [hd1, hd2])
      · simp only [hc1, if_false]
        by_cases hc2 : char = '('
        · simp only [hc2, if_true]
          exact Or.inl ⟨_, rfl, rfl⟩
        · simp only [hc2, if_false]
          have n1 := emitToken_normal R isVariation sc1 q1 (char :: after)
          have n2 := emitToken_normal R isVariation sc2 q2 (char :: after)
          have hc : ({ sc1 with html := [], pos := 0 } : Scope P)
              = { sc2 with html := [], pos := 0 } := hcore
          rw [hc] at n1
          refine ih _ _ (t ++ (emitToken R isVariation { sc2 with html := [], pos := 0 } 0
            (char :: after)).html) ?_ ?_ ?_ ?_
          · rw [n1, n2]
            rfl
          · rw [n1]
            simp only []
            rw [h1, List.append_assoc]
          · rw [n2]
            simp only []
            rw [h2, List.append_assoc]
          · rw [n1, n2]
            simp only []
            rw [← List.drop_drop, ← List.drop_drop, e1, e2]

/-! ## Matches do not look behind a character that the pattern rejects -/

/-- The greedy loop gives the same matches with any fuel that covers the input. -/
theorem Re.starAux_fuel {α : Type} (step : MState α → List (MState α)) (fuel1 fuel2 : Nat)
    (st : MState α) (h1 : st.1.length ≤ fuel1) (h2 : st.1.length ≤ fuel2) :
    Re.starAux step fuel1 st = Re.starAux step fuel2 st := by
  induction fuel1 generalizing fuel2 st with
  | zero =>
    cases fuel2 with
    | zero => rfl
    | succ m =>
      have h0 : st.1.length = 0 := by omega
      simp [Re.starAux, h0]
  | succ k ih =>
    cases fuel2 with
    | zero =>
      have h0 : st.1.length = 0 := by omega
      simp [Re.starAux, h0]
    | succ m =>
      simp only [Re.starAux]
      congr 1
      apply List.flatMap_congr
      intro x hx
      simp only [List.mem_filter, decide_eq_true_eq] at hx
      exact ih m x (by omega) (by omega)

/-- The greedy loop in front of a tail that its pattern does not read. -/
theorem Re.starAux_append {α : Type} (a : Re α) (b : List α)
    (ha : ∀ (s : List α) (caps : Caps α),
      Re.run a (s ++ b, caps) = (Re.run a (s, caps)).map (fun st => (st.1 ++ b, st.2)))
    (fuel : Nat) (s : List α) (caps : Caps α) :
    Re.starAux (fun st => Re.run a st) fuel (s ++ b, caps)
      = (Re.starAux (fun st => Re.run a st) fuel (s, caps)).map (fun st => (st.1 ++ b, st.2)) := by
  induction fuel generalizing s caps with
  | zero => rfl
  | succ n ih =>
    simp only [Re.starAux, ha, List.filter_map, List.flatMap_map, List.map_append,
      List.map_flatMap, List.map_cons, List.map_nil]
    congr 1
    have hf : ((fun st2 : MState α => decide (st2.1.length < (s ++ b).length)) ∘
        fun st : MState α => (st.1 ++ b, st.2))
        = fun st2 : MState α => decide (st2.1.length < s.length) := by
      funext st2
      simp only [Function.comp, List.length_append, Nat.add_lt_add_iff_right]
    rw [hf]
    apply List.flatMap_congr
    intro x _
    exact ih x.1 x.2

/-- A pattern without `$` matches in front of a tail as it matches without the tail, when
the tail is empty or starts with a character that no class of the pattern holds. -/
theorem Re.run_append {α : Type} (r : Re α) (hr : r.noEos = true) (b : List α)
    (hb : ∀ c t, b = c :: t → r.rejects c = true) (s : List α) (caps : Caps α) :
    Re.run r (s ++ b, caps) = (Re.run r (s, caps)).map (fun st => (st.1 ++ b, st.2)) := by
  induction r generalizing s caps with
  | eps => rfl
  | chr p =>
    cases s with
    | nil =>
      cases b with
      | nil => rfl
      | cons c t =>
        have := hb c t rfl
        simp only [Re.rejects, Bool.not_eq_true'] at this
        simp [Re.run, this]
    | cons x s =>
      simp only [List.cons_append, Re.run]
      split <;> rfl
  | seq a c iha ihc =>
    simp only [Re.noEos, Bool.and_eq_true] at hr
    have hba : ∀ x t, b = x :: t → a.rejects x = true := fun x t h => by
      have := hb x t h
      simp only [Re.rejects, Bool.and_eq_true] at this
      exact this.1
    have hbc : ∀ x t, b = x :: t → c.rejects x = true := fun x t h => by
      have := hb x t h
      simp only [Re.rejects, Bool.and_eq_true] at this
      exact this.2
    simp only [Re.run, iha hr.1 hba, List.flatMap_map, List.map_flatMap]
    apply List.flatMap_congr
    intro x _
    exact ihc hr.2 hbc x.1 x.2
  | alt a c iha ihc =>
    simp only [Re.noEos, Bool.and_eq_true] at hr
    have hba : ∀ x t, b = x :: t → a.rejects x = true := fun x t h => by
      have := hb x t h
      simp only [Re.rejects, Bool.and_eq_true] at this
      exact this.1
    have hbc : ∀ x t, b = x :: t → c.rejects x = true := fun x t h => by
      have := hb x t h
      simp only [Re.rejects, Bool.and_eq_true] at this
      exact this.2
    simp only [Re.run, iha hr.1 hba, ihc hr.2 hbc, List.map_append]
  | opt a iha =>
    simp only [Re.noEos] at hr
    have hba : ∀ x t, b = x :: t → a.rejects x = true := fun x t h => by
      have := hb x t h
      simpa only [Re.rejects] using this
    simp only [Re.run, iha hr hba, List.filter_map, List.map_append, List.map_cons,
      List.map_nil]
    congr 2
    apply List.filter_congr
    intro x _
    simp only [Function.comp, List.length_append, Nat.add_lt_add_iff_right]
  | star a iha =>
    simp only [Re.noEos] at hr
    have hba : ∀ x t, b = x :: t → a.rejects x = true := fun x t h => by
      have := hb x t h
      simpa only [Re.rejects] using this
    simp only [Re.run]
    rw [Re.starAux_append a b (fun s caps => iha hr hba s caps)]
    congr 1
    exact Re.starAux_fuel _ _ _ _ (by simp) (le_refl _)
  | group n a iha =>
    simp only [Re.noEos] at hr
    have hba : ∀ x t, b = x :: t → a.rejects x = true := fun x t h => by
      have := hb x t h
      simpa only [Re.rejects] using this
    simp only [Re.run, iha hr hba, List.map_map]
    apply List.map_congr_left
    intro x hx
    have hle := Re.run_length_le a (s, caps) x hx
    simp only [Function.comp, List.length_append, Prod.mk.injEq, List.cons.injEq, true_and,
      and_true]
    have e : s.length + b.length - (x.1.length + b.length) = s.length - x.1.length := by omega
    rw [e, List.take_append_of_le_length (by omega)]
  | eos => simp [Re.noEos] at hr

/-- Every result of the quantifier loop leaves a rest of the input it was given. -/
theorem Re.starAux_suffix {α : Type} (step : MState α → List (MState α))
    (hstep : ∀ st st2, st2 ∈ step st → ∃ z, st.1 = z ++ st2.1)
    (fuel : Nat) (st st2 : MState α)
    (h : st2 ∈ Re.starAux step fuel st) : ∃ z, st.1 = z ++ st2.1 := by
  induction fuel generalizing st with
  | zero =>
    simp only [Re.starAux, List.mem_singleton] at h
    exact ⟨[], by rw [h]; rfl⟩
  | succ n ih =>
    simp only [Re.starAux, List.mem_append, List.mem_flatMap, List.mem_filter,
      List.mem_singleton] at h
    rcases h with ⟨x, ⟨hx1, _⟩, hx3⟩ | h
    · obtain ⟨z1, hz1⟩ := hstep st x hx1
      obtain ⟨z2, hz2⟩ := ih x hx3
      exact ⟨z1 ++ z2, by rw [hz1, hz2, List.append_assoc]⟩
    · exact ⟨[], by rw [h]; rfl⟩

/-- A match leaves a rest of the input it was given. -/
theorem Re.run_suffix {α : Type} (r : Re α) (st st2 : MState α) (h : st2 ∈ Re.run r st) :
    ∃ z, st.1 = z ++ st2.1 := by
  induction r generalizing st st2 with
  | eps =>
    simp only [Re.run, List.mem_singleton] at h
    exact ⟨[], by rw [h]; rfl⟩
  | chr p =>
    obtain ⟨s, c⟩ := st
    cases s with
    | nil => simp [Re.run] at h
    | cons a t =>
      simp only [Re.run] at h
      split at h
      · simp only [List.mem_singleton] at h
        exact ⟨[a], by rw [h]; rfl⟩
      · simp at h
  | seq a b iha ihb =>
    simp only [Re.run, List.mem_flatMap] at h
    obtain ⟨x, hx1, hx2⟩ := h
    obtain ⟨z1, hz1⟩ := iha st x hx1
    obtain ⟨z2, hz2⟩ := ihb x st2 hx2
    exact ⟨z1 ++ z2, by rw [hz1, hz2, List.append_assoc]⟩
  | alt a b iha ihb =>
    simp only [Re.run, List.mem_append] at h
    rcases h with h | h
    · exact iha st st2 h
    · exact ihb st st2 h
  | opt a iha =>
    simp only [Re.run, List.mem_append, List.mem_filter, List.mem_singleton] at h
    rcases h with ⟨h, _⟩ | h
    · exact iha st st2 h
    · exact ⟨[], by rw [h]; rfl⟩
  | star a iha =>
    simp only [Re.run] at h
    exact Re.starAux_suffix _ (fun x y hy => iha x y hy) _ _ _ h
  | group n a iha =>
    simp only [Re.run, List.mem_map] at h
    obtain ⟨x, hx1, hx2⟩ := h
    rw [← hx2]
    exact iha st x hx1
  | eos =>
    simp only [Re.run] at h
    split at h
    · simp only [List.mem_singleton] at h
      exact ⟨[], by rw [h]; rfl⟩
    · simp at h

/-- The match of a pattern without `$` in front of a tail that it does not read. -/
theorem matchStart_append {α : Type} (r : Re α) (hr : r.noEos = true) (b : List α)
    (hb : ∀ c t, b = c :: t → r.rejects c = true) (s : List α) :
    matchStart r (s ++ b) = matchStart r s := by
  unfold matchStart
  rw [Re.run_append r hr b hb, List.head?_map]
  cases hh : (Re.run r (s, [])).head? with
  | none => rfl
  | some x =>
    have hle := Re.run_length_le r (s, []) x (List.mem_of_mem_head? hh)
    simp only [Option.map_some', List.length_append, Option.some.injEq]
    have e : s.length + b.length - (x.1.length + b.length) = s.length - x.1.length := by omega
    rw [e, List.take_append_of_le_length (by omega)]

/-- A character at which a token ends: `{` or white space. No class of the token patterns
holds it. -/
theorem rejects_stop (c : Char) (h : c = '{' ∨ isSpace c = true) :
    numCoreRe.rejects c = true ∧ resRe.rejects c = true ∧ nagRe.rejects c = true ∧
      moveRe.rejects c = true := by
  rcases h with h | h
  · subst h
    exact ⟨by rfl, by rfl, by rfl, by rfl⟩
  · have hd : isDigit c = false := by
      cases hdc : isDigit c with
      | false => rfl
      | true => rw [isSpace_of_isDigit c hdc] at h; exact absurd h (by decide)
    have hne : ∀ d : Char, isSpace d = false → (c == d) = false := by
      intro d hdd
      rw [beq_eq_false_iff_ne]
      intro hcd
      rw [hcd, hdd] at h
      exact absurd h (by decide)
    have hk := kind_space c h
    refine ⟨?_, ?_, ?_, ?_⟩
    · simp only [numCoreRe, Re.rejects, Re.plus, lit, hd, hne '.' (by decide), Bool.not_false,
        Bool.and_self]
    · simp only [resRe, resultAlt, lits, lit, Re.cat, Re.rejects, String.toList, List.map,
        hne '1' (by decide), hne '-' (by decide), hne '0' (by decide), hne '/' (by decide),
        hne '2' (by decide), hne '*' (by decide), Bool.not_false, Bool.and_self]
    · simp only [nagRe, Re.rejects, Re.plus, lit, hd, hne '$' (by decide), Bool.not_false,
        Bool.and_self]
    · have hsan : sanRe.rejects c = true := by
        rw [sanRe_eq_comap, Re.rejects_comap, hk]
        decide
      have hgl : (oneOf "!?").rejects c = true := by
        simp only [oneOf, Re.rejects, Bool.not_eq_true', List.contains_eq_any_beq,
          List.any_eq_false]
        intro x hx
        have hx2 : x = '!' ∨ x = '?' := by simpa using hx
        rcases hx2 with hx2 | hx2 <;> subst hx2
        · rw [Bool.not_eq_true, beq_eq_false_iff_ne]
          exact fun hc => absurd (hc ▸ h) (by decide)
        · rw [Bool.not_eq_true, beq_eq_false_iff_ne]
          exact fun hc => absurd (hc ▸ h) (by decide)
      show (Re.rejects c sanRe && (Re.rejects c (oneOf "!?") && Re.rejects c (oneOf "!?")))
        = true
      rw [hsan, hgl]
      rfl

/-- The first character that `dropWhile` leaves does not satisfy the test. -/
theorem dropWhile_head {α : Type} (p : α → Bool) (l : List α) (x : α) (t : List α)
    (h : l.dropWhile p = x :: t) : p x = false := by
  induction l with
  | nil => simp at h
  | cons y l ih =>
    by_cases hy : p y = true
    · simp only [List.dropWhile_cons, hy, if_true] at h
      exact ih h
    · simp only [List.dropWhile_cons, hy] at h
      simp only [Bool.false_eq_true, if_false, List.cons.injEq] at h
      rw [← h.1]
      simpa using hy

/-- The move-number pattern by its part without the trailing white space: the match reads
on over the white space that follows. -/
theorem numRe_via_core (t : List Char) :
    matchStart numRe t = ((Re.run numCoreRe (t, [])).head?).map
      (fun x => { whole := t.take (t.length - (x.1.dropWhile isSpace).length), caps := x.2 }) := by
  have hrun : Re.run numRe (t, [])
      = (Re.run numCoreRe (t, [])).flatMap (fun x => Re.run (Re.star (Re.chr isSpace)) x) := by
    show (Re.run (Re.group 1 (Re.plus (Re.chr isDigit))) (t, [])).flatMap
        (fun x => (Re.run (Re.group 2 (Re.plus (lit '.'))) x).flatMap
          (fun y => Re.run (Re.star (Re.chr isSpace)) y))
      = ((Re.run (Re.group 1 (Re.plus (Re.chr isDigit))) (t, [])).flatMap
          (fun x => Re.run (Re.group 2 (Re.plus (lit '.'))) x)).flatMap
          (fun y => Re.run (Re.star (Re.chr isSpace)) y)
    rw [List.flatMap_assoc]
  have hhead : ∀ l : List (MState Char),
      (l.flatMap (fun x => Re.run (Re.star (Re.chr isSpace)) x)).head?
        = l.head?.map (fun x => (x.1.dropWhile isSpace, x.2)) := by
    intro l
    cases l with
    | nil => rfl
    | cons x xs =>
      obtain ⟨x1, x2⟩ := x
      have h := Re.head_star_chr isSpace (x1.takeWhile isSpace) (x1.dropWhile isSpace) x2
        (fun y hy => (List.mem_takeWhile_imp hy))
        (fun y t hyt => dropWhile_head isSpace x1 y t hyt)
      rw [List.takeWhile_append_dropWhile] at h
      simp only [List.flatMap_cons, List.head?_append, h, Option.or_some, List.head?_cons,
        Option.map_some']
  unfold matchStart
  rw [hrun, hhead, Option.map_map]
  rfl

/-- The token step moves the cursor by at most the text it was given. -/
theorem emitToken_pos_le {P : Type} (R : Rules P) (isVariation : Bool) (sc : Scope P)
    (s : List Char) (hs : s ≠ []) : (emitToken R isVariation sc 0 s).pos ≤ s.length := by
  have h1 : 1 ≤ s.length := by
    cases s with
    | nil => exact absurd rfl hs
    | cons x t => simp
  unfold emitToken
  cases hnum : matchStart numRe s with
  | some m =>
    have := (matchStart_length numRe s m (by rfl) hnum).2
    simp only [emitNumber]
    split_ifs <;> simp only [] <;> omega
  | none =>
    simp only []
    cases hres : matchStart resRe s with
    | some m =>
      have := (matchStart_length resRe s m (by rfl) hres).2
      simp only []
      omega
    | none =>
      simp only []
      cases hnag : matchStart nagRe s with
      | some m =>
        have := (matchStart_length nagRe s m (by rfl) hnag).2
        simp only [emitNag]
        split_ifs <;> simp only [] <;> omega
      | none =>
        simp only []
        cases hmove : matchStart moveRe s with
        | none => simp only []; omega
        | some m =>
          have := (matchStart_length moveRe s m (by rfl) hmove).2
          simp only [emitMove]
          cases R.move sc.game (String.mk ((m.grp 1).getD [])) with
          | none => simp only []; omega
          | some p =>
            obtain ⟨r, g⟩ := p
            cases isVariation <;> simp <;> omega

/-- Dropping white space twice is dropping it once. -/
theorem dropWhile_idem {α : Type} (p : α → Bool) (l : List α) :
    (l.dropWhile p).dropWhile p = l.dropWhile p := by
  cases h : l.dropWhile p with
  | nil => rfl
  | cons x t =>
    have := dropWhile_head p l x t h
    simp [List.dropWhile_cons, this]

/-- The number step reads its length argument for the cursor only. -/
theorem emitNumber_len {P : Type} (sc : Scope P) (digits dots : List Char) (len1 len2 : Nat) :
    (emitNumber sc 0 digits dots len1).core = (emitNumber sc 0 digits dots len2).core ∧
    (emitNumber sc 0 digits dots len1).html = (emitNumber sc 0 digits dots len2).html ∧
    (emitNumber sc 0 digits dots len1).pos = len1 := by
  unfold emitNumber Scope.core
  by_cases h1 : 1 < dots.length
  · simp only [if_pos h1, Nat.zero_add, and_self]
  · by_cases h2 : parseInt digits ≠ sc.lastShownMoveNum
    · simp only [if_neg h1, if_pos h2, Nat.zero_add, and_self]
    · simp only [if_neg h1, if_neg h2, Nat.zero_add, and_self]

/-- Every result of the quantifier loop has read characters that the step reads. -/
theorem Re.starAux_consumed {α : Type} (step : MState α → List (MState α)) (good : α → Prop)
    (hstep : ∀ st st2, st2 ∈ step st → ∃ z, st.1 = z ++ st2.1 ∧ ∀ c ∈ z, good c)
    (fuel : Nat) (st st2 : MState α)
    (h : st2 ∈ Re.starAux step fuel st) : ∃ z, st.1 = z ++ st2.1 ∧ ∀ c ∈ z, good c := by
  induction fuel generalizing st with
  | zero =>
    simp only [Re.starAux, List.mem_singleton] at h
    exact ⟨[], by rw [h]; rfl, by simp⟩
  | succ n ih =>
    simp only [Re.starAux, List.mem_append, List.mem_flatMap, List.mem_filter,
      List.mem_singleton] at h
    rcases h with ⟨x, ⟨hx1, _⟩, hx3⟩ | h
    · obtain ⟨z1, hz1, hg1⟩ := hstep st x hx1
      obtain ⟨z2, hz2, hg2⟩ := ih x hx3
      refine ⟨z1 ++ z2, by rw [hz1, hz2, List.append_assoc], ?_⟩
      intro c hc
      rcases List.mem_append.mp hc with hc | hc
      · exact hg1 c hc
      · exact hg2 c hc
    · exact ⟨[], by rw [h]; rfl, by simp⟩

/-- A match reads only characters that a class of the pattern holds. -/
theorem Re.run_consumed {α : Type} (r : Re α) (st st2 : MState α) (h : st2 ∈ Re.run r st) :
    ∃ z, st.1 = z ++ st2.1 ∧ ∀ c ∈ z, r.rejects c = false := by
  induction r generalizing st st2 with
  | eps =>
    simp only [Re.run, List.mem_singleton] at h
    exact ⟨[], by rw [h]; rfl, by simp⟩
  | chr p =>
    obtain ⟨s, c⟩ := st
    cases s with
    | nil => simp [Re.run] at h
    | cons a t =>
      simp only [Re.run] at h
      split at h
      · rename_i hp
        simp only [List.mem_singleton] at h
        refine ⟨[a], by rw [h]; rfl, ?_⟩
        intro x hx
        rw [List.mem_singleton] at hx
        rw [hx]
        simp [Re.rejects, hp]
      · simp at h
  | seq a b iha ihb =>
    simp only [Re.run, List.mem_flatMap] at h
    obtain ⟨x, hx1, hx2⟩ := h
    obtain ⟨z1, hz1, hg1⟩ := iha st x hx1
    obtain ⟨z2, hz2, hg2⟩ := ihb x st2 hx2
    refine ⟨z1 ++ z2, by rw [hz1, hz2, List.append_assoc], ?_⟩
    intro c hc
    rcases List.mem_append.mp hc with hc | hc
    · simp [Re.rejects, hg1 c hc]
    · simp [Re.rejects, hg2 c hc]
  | alt a b iha ihb =>
    simp only [Re.run, List.mem_append] at h
    rcases h with h | h
    · obtain ⟨z, hz, hg⟩ := iha st st2 h
      exact ⟨z, hz, fun c hc => by simp [Re.rejects, hg c hc]⟩
    · obtain ⟨z, hz, hg⟩ := ihb st st2 h
      exact ⟨z, hz, fun c hc => by simp [Re.rejects, hg c hc]⟩
  | opt a iha =>
    simp only [Re.run, List.mem_append, List.mem_filter, List.mem_singleton] at h
    rcases h with ⟨h, _⟩ | h
    · obtain ⟨z, hz, hg⟩ := iha st st2 h
      exact ⟨z, hz, fun c hc => by simp [Re.rejects, hg c hc]⟩
    · exact ⟨[], by rw [h]; rfl, by simp⟩
  | star a iha =>
    simp only [Re.run] at h
    obtain ⟨z, hz, hg⟩ := Re.starAux_consumed _ (fun c => a.rejects c = false)
      (fun x y hy => iha x y hy) _ _ _ h
    exact ⟨z, hz, fun c hc => by simp [Re.rejects, hg c hc]⟩
  | group n a iha =>
    simp only [Re.run, List.mem_map] at h
    obtain ⟨x, hx1, hx2⟩ := h
    rw [← hx2]
    obtain ⟨z, hz, hg⟩ := iha st x hx1
    exact ⟨z, hz, fun c hc => by simp [Re.rejects, hg c hc]⟩
  | eos =>
    simp only [Re.run] at h
    split at h
    · simp only [List.mem_singleton] at h
      exact ⟨[], by rw [h]; rfl, by simp⟩
    · simp at h

/-- The text of a match at the start of `s` is a start of `s` made of characters that a
class of the pattern holds. -/
theorem matchStart_consumed {α : Type} (r : Re α) (s : List α) (m : Match α)
    (h : matchStart r s = some m) :
    s.take m.whole.length = m.whole ∧ ∀ c ∈ m.whole, r.rejects c = false := by
  unfold matchStart at h
  cases hh : (Re.run r (s, [])).head? with
  | none => simp [hh] at h
  | some x =>
    rw [hh] at h
    simp only [Option.map_some', Option.some.injEq] at h
    obtain ⟨z, hz, hg⟩ := Re.run_consumed r (s, []) x (List.mem_of_mem_head? hh)
    simp only at hz
    have hw : m.whole = z := by
      rw [← h]
      simp only []
      conv_lhs => rw [hz]
      simp
    rw [hw]
    exact ⟨by rw [hz]; simp, hg⟩

/-- The token step does not read an opening brace: the text it moves the cursor over holds
none, when the text does not start with one. -/
theorem emitToken_no_brace {P : Type} (R : Rules P) (isVariation : Bool) (sc : Scope P)
    (s : List Char) (hhead : ∀ c t, s = c :: t → c ≠ '{') :
    '{' ∉ s.take (emitToken R isVariation sc 0 s).pos := by
  have key : ∀ (r : Re Char) (m : Match Char), r.rejects '{' = true → matchStart r s = some m →
      '{' ∉ s.take (0 + m.whole.length) := by
    intro r m hr hm hmem
    obtain ⟨e, hg⟩ := matchStart_consumed r s m hm
    rw [Nat.zero_add, e] at hmem
    rw [hg _ hmem] at hr
    exact absurd hr (by decide)
  unfold emitToken
  split
  · rename_i m hm
    rw [(emitNumber_len sc _ _ _ 0).2.2, ← Nat.zero_add m.whole.length]
    exact key numRe m (by rfl) hm
  · split
    · rename_i m hm
      exact key resRe m (by rfl) hm
    · split
      · rename_i m hm
        have hp : (emitNag sc 0 m.whole).pos = 0 + m.whole.length := by
          unfold emitNag
          simp only []
          split <;> rfl
        rw [hp]
        exact key nagRe m (by rfl) hm
      · split
        · rename_i m hm
          have hp : ∀ a b, (emitMove R isVariation sc 0 a b m.whole.length).pos
              = 0 + m.whole.length := by
            intro a b
            unfold emitMove
            simp only []
            split
            · split <;> rfl
            · rfl
          rw [hp]
          exact key moveRe m (by rfl) hm
        · cases s with
          | nil => simp
          | cons c t =>
            have := hhead c t rfl
            simp only [Nat.zero_add, List.take_succ_cons, List.take_zero, List.mem_singleton]
            exact fun h => this h.symm

/-- The token step in front of two tails, each empty or starting with `{` or white space:
the two steps leave the same variables but for the cursor, and both cursors stand, up to
white space, at the same rest of the text in front of the tails. -/
theorem emitToken_append {P : Type} (R : Rules P) (isVariation : Bool) (sc : Scope P)
    (s b1 b2 : List Char) (hs : s ≠ []) (hhead : ∀ c t, s = c :: t → c ≠ '{')
    (hb1 : ∀ c t, b1 = c :: t → c = '{' ∨ isSpace c = true)
    (hb2 : ∀ c t, b2 = c :: t → c = '{' ∨ isSpace c = true) :
    (emitToken R isVariation sc 0 (s ++ b1)).core = (emitToken R isVariation sc 0 (s ++ b2)).core ∧
    (emitToken R isVariation sc 0 (s ++ b1)).html = (emitToken R isVariation sc 0 (s ++ b2)).html ∧
    ∃ z s2, z ≠ [] ∧ '{' ∉ z ∧ s = z ++ s2 ∧
      ((s ++ b1).drop (emitToken R isVariation sc 0 (s ++ b1)).pos).dropWhile isSpace
        = (s2 ++ b1).dropWhile isSpace ∧
      ((s ++ b2).drop (emitToken R isVariation sc 0 (s ++ b2)).pos).dropWhile isSpace
        = (s2 ++ b2).dropWhile isSpace := by
  have rj : ∀ b : List Char, (∀ c t, b = c :: t → c = '{' ∨ isSpace c = true) →
      (∀ c t, b = c :: t → numCoreRe.rejects c = true) ∧
      (∀ c t, b = c :: t → resRe.rejects c = true) ∧
      (∀ c t, b = c :: t → nagRe.rejects c = true) ∧
      (∀ c t, b = c :: t → moveRe.rejects c = true) := fun b hb =>
    ⟨fun c t h => (rejects_stop c (hb c t h)).1, fun c t h => (rejects_stop c (hb c t h)).2.1,
     fun c t h => (rejects_stop c (hb c t h)).2.2.1,
     fun c t h => (rejects_stop c (hb c t h)).2.2.2⟩
  cases hcore : (Re.run numCoreRe (s, [])).head? with
  | none =>
    have key : ∀ b : List Char, (∀ c t, b = c :: t → c = '{' ∨ isSpace c = true) →
        emitToken R isVariation sc 0 (s ++ b) = emitToken R isVariation sc 0 s := by
      intro b hb
      obtain ⟨r1, r2, r3, r4⟩ := rj b hb
      have n1 : matchStart numRe (s ++ b) = none := by
        rw [numRe_via_core, Re.run_append numCoreRe (by rfl) b r1, List.head?_map, hcore]
        rfl
      have n0 : matchStart numRe s = none := by
        rw [numRe_via_core, hcore]
        rfl
      unfold emitToken
      rw [n1, n0, matchStart_append resRe (by rfl) b r2, matchStart_append nagRe (by rfl) b r3,
        matchStart_append moveRe (by rfl) b r4]
    rw [key b1 hb1, key b2 hb2]
    have hlo := emitToken_pos R isVariation sc 0 s
    have hhi := emitToken_pos_le R isVariation sc s hs
    refine ⟨rfl, rfl, s.take (emitToken R isVariation sc 0 s).pos,
      s.drop (emitToken R isVariation sc 0 s).pos, ?_, emitToken_no_brace R isVariation sc s hhead,
      (List.take_append_drop _ _).symm, ?_, ?_⟩
    · intro h
      have := congrArg List.length h
      simp only [List.length_take, List.length_nil] at this
      omega
    · rw [List.drop_append_of_le_length hhi]
    · rw [List.drop_append_of_le_length hhi]
  | some x =>
    obtain ⟨y, caps⟩ := x
    have hmem := List.mem_of_mem_head? hcore
    obtain ⟨z, hz, hg⟩ := Re.run_consumed numCoreRe (s, []) (y, caps) hmem
    have hlt := Re.run_length_lt numCoreRe (s, []) (y, caps) (by rfl) hmem
    simp only at hz hlt
    have hzne : z ≠ [] := by
      intro h
      rw [h, List.nil_append] at hz
      rw [hz] at hlt
      exact absurd hlt (lt_irrefl _)
    have key : ∀ b : List Char, (∀ c t, b = c :: t → c = '{' ∨ isSpace c = true) →
        emitToken R isVariation sc 0 (s ++ b)
          = emitNumber sc 0
              ((({ whole := [], caps := caps } : Match Char).grp 1).getD [])
              ((({ whole := [], caps := caps } : Match Char).grp 2).getD [])
              ((s ++ b).length - ((y ++ b).dropWhile isSpace).length) ∧
        (s ++ b).drop ((s ++ b).length - ((y ++ b).dropWhile isSpace).length)
          = (y ++ b).dropWhile isSpace := by
      intro b hb
      obtain ⟨r1, _, _, _⟩ := rj b hb
      have n1 : matchStart numRe (s ++ b)
          = some { whole := (s ++ b).take ((s ++ b).length - ((y ++ b).dropWhile isSpace).length),
                   caps := caps } := by
        rw [numRe_via_core, Re.run_append numCoreRe (by rfl) b r1, List.head?_map, hcore]
        rfl
      have hsplit : s ++ b = (z ++ (y ++ b).takeWhile isSpace) ++ (y ++ b).dropWhile isSpace := by
        rw [List.append_assoc, List.takeWhile_append_dropWhile, hz, List.append_assoc]
      have hlen : (s ++ b).length - ((y ++ b).dropWhile isSpace).length
          = (z ++ (y ++ b).takeWhile isSpace).length := by
        have := congrArg List.length hsplit
        simp only [List.length_append] at this ⊢
        omega
      constructor
      · unfold emitToken
        rw [n1]
        simp only [Match.grp, List.length_take]
        congr 1
        omega
      · rw [hlen]
        conv_lhs => rw [hsplit]
        rw [List.drop_left]
    obtain ⟨k1, d1⟩ := key b1 hb1
    obtain ⟨k2, d2⟩ := key b2 hb2
    rw [k1, k2]
    have hbr : '{' ∉ z := by
      intro hm
      have h1 := hg _ hm
      have h2 : numCoreRe.rejects '{' = true := by rfl
      rw [h1] at h2
      exact absurd h2 (by decide)
    refine ⟨(emitNumber_len sc _ _ _ _).1, (emitNumber_len sc _ _ _ _).2.1, z, y, hzne, hbr, hz,
      ?_, ?_⟩
    · rw [(emitNumber_len sc _ _ _ 0).2.2, d1, dropWhile_idem]
    · rw [(emitNumber_len sc _ _ _ 0).2.2, d2, dropWhile_idem]


/-! ## A comment put into the text of a scope -/

/-- More fuel does not change a result of the render loop that is not the end of the
fuel. -/
theorem parseLoop_mono {P : Type} (R : Rules P) (isVariation : Bool) (movesText : List Char)
    (fuel : Nat) (sc : Scope P)
    (h : parseLoop R isVariation fuel movesText sc ≠ .error .outOfFuel) :
    parseLoop R isVariation (fuel + 1) movesText sc = parseLoop R isVariation fuel movesText sc := by
  induction fuel generalizing sc with
  | zero => exact absurd rfl h
  | succ n ih =>
    rw [parseLoop_succ] at h
    rw [parseLoop_succ R isVariation (n + 1), parseLoop_succ R isVariation n]
    split
    · rfl
    · rename_i char after hd
      rw [hd] at h
      simp only [] at h
      by_cases h1 : char = '{'
      · simp only [h1, if_true] at h ⊢
        split
        · rfl
        · rename_i e he
          rw [he] at h
          exact ih _ h
      · simp only [h1, if_false] at h ⊢
        by_cases h2 : char = '('
        · simp only [h2, if_true]
        · simp only [h2, if_false] at h ⊢
          exact ih _ h

/-- A result of the render loop that is not the end of the fuel is the result with any
larger fuel. -/
theorem parseLoop_mono_le {P : Type} (R : Rules P) (isVariation : Bool) (movesText : List Char)
    (fuel more : Nat) (sc : Scope P)
    (h : parseLoop R isVariation fuel movesText sc ≠ .error .outOfFuel) :
    parseLoop R isVariation (fuel + more) movesText sc
      = parseLoop R isVariation fuel movesText sc := by
  induction more with
  | zero => rfl
  | succ k ih =>
    rw [← Nat.add_assoc, parseLoop_mono R isVariation movesText (fuel + k) sc (by rw [ih]; exact h), ih]

/-- The scan outside a comment passes over a text without an opening brace. -/
theorem braceScan_no_brace (z s : List Char) (hz : '{' ∉ z) :
    braceScan false (z ++ s) = braceScan false s := by
  induction z with
  | nil => rfl
  | cons c z ih =>
    have hc : (c == '{') = false := by
      rw [beq_eq_false_iff_ne]
      exact fun h => hz (by rw [h]; exact List.mem_cons_self _ _)
    show braceScan (c == '{') (z ++ s) = _
    rw [hc]
    exact ih (fun h => hz (List.mem_cons_of_mem _ h))

/-- A text that the scan inside a comment ends outside of holds a closing brace, and the
scan goes on outside behind the first one. -/
theorem braceScan_comment (t : List Char) (h : braceScan true t = true) :
    ∃ k, t.findIdx? (fun d => d == '}') = some k ∧ k < t.length ∧
      braceScan false (t.drop (k + 1)) = true := by
  induction t with
  | nil => exact absurd h (by decide)
  | cons c t ih =>
    by_cases hc : c = '}'
    · subst hc
      refine ⟨0, by simp [List.findIdx?_cons], by simp, ?_⟩
      simpa [braceScan] using h
    · have hb : (c != '}') = true := by simpa using hc
      have hb2 : (c == '}') = false := by simpa using hc
      have h2 : braceScan true t = true := by
        have : braceScan (c != '}') t = true := h
        rwa [hb] at this
      obtain ⟨k, hk, hlt, hs⟩ := ih h2
      refine ⟨k + 1, ?_, by simp; omega, by simpa using hs⟩
      rw [List.findIdx?_cons, hb2]
      simp [hk]

/-- The text behind the leading white space, in front of a tail. -/
theorem dropWhile_append_cons {α : Type} (p : α → Bool) (s b : List α) (c : α) (t : List α)
    (h : s.dropWhile p = c :: t) : (s ++ b).dropWhile p = c :: (t ++ b) := by
  induction s with
  | nil => simp at h
  | cons x s ih =>
    by_cases hx : p x = true
    · simp only [List.dropWhile_cons, hx, if_true] at h
      simp only [List.cons_append, List.dropWhile_cons, hx, if_true]
      exact ih h
    · simp only [List.dropWhile_cons, hx] at h
      simp only [Bool.false_eq_true, if_false] at h
      simp only [List.cons_append, List.dropWhile_cons, hx, Bool.false_eq_true, if_false]
      rw [← List.cons_append, h]
      rfl

/-- The leading white space of a tail behind a text of white space. -/
theorem dropWhile_append_nil {α : Type} (p : α → Bool) (s b : List α)
    (h : s.dropWhile p = []) : (s ++ b).dropWhile p = b.dropWhile p := by
  induction s with
  | nil => rfl
  | cons x s ih =>
    by_cases hx : p x = true
    · simp only [List.dropWhile_cons, hx, if_true] at h
      simp only [List.cons_append, List.dropWhile_cons, hx, if_true]
      exact ih h
    · simp [List.dropWhile_cons, hx] at h

/-- The first closing brace of a text that holds one, in front of a tail. -/
theorem findIdx_append (s b : List Char) (k : Nat)
    (h : s.findIdx? (fun d => d == '}') = some k) :
    (s ++ b).findIdx? (fun d => d == '}') = some k := by
  induction s generalizing k with
  | nil => simp at h
  | cons x s ih =>
    rw [List.cons_append, List.findIdx?_cons]
    rw [List.findIdx?_cons] at h
    by_cases hx : (x == '}') = true
    · simpa [hx] using h
    · simp only [hx, Bool.false_eq_true, if_false] at h ⊢
      rw [List.findIdx?_succ] at h ⊢
      cases hs : s.findIdx? (fun d => d == '}') with
      | none => simp [hs] at h
      | some j =>
        rw [ih j hs]
        rw [hs] at h
        exact h

/-- The first closing brace behind a text that holds none. -/
theorem findIdx_body (body rest : List Char) (hbody : '}' ∉ body) :
    (body ++ '}' :: rest).findIdx? (fun d => d == '}') = some body.length := by
  induction body with
  | nil => simp [List.findIdx?_cons]
  | cons x body ih =>
    have hx : (x == '}') = false := by
      rw [beq_eq_false_iff_ne]
      exact fun h => hbody (by rw [h]; exact List.mem_cons_self _ _)
    rw [List.cons_append, List.findIdx?_cons, hx]
    simp [ih (fun h => hbody (List.mem_cons_of_mem _ h))]

/-- The loop at the comment that was put in: the text with the comment `{body}` at the
cursor renders the nodes of that comment and goes on as the text without it. -/
theorem parseLoop_cross {P : Type} (R : Rules P) (isVariation : Bool) (fuel : Nat)
    (text1 text2 : List Char) (sc1 sc2 : Scope P) (body rest : List Char)
    (hbody : '}' ∉ body) (hcore : sc1.core = sc2.core) (hhtml : sc1.html = sc2.html)
    (h1 : (text1.drop sc1.pos).dropWhile isSpace = rest.dropWhile isSpace)
    (h2 : (text2.drop sc2.pos).dropWhile isSpace = '{' :: (body ++ '}' :: rest))
    (hfuel : text1.length - sc1.pos + 1 < fuel) :
    insertedComment body (parseLoop R isVariation fuel text1 sc1)
      (parseLoop R isVariation fuel text2 sc2) := by
  cases fuel with
  | zero => omega
  | succ n =>
    have hne : parseLoop R isVariation n text1 sc1 ≠ .error .outOfFuel :=
      parseLoop_fuel R isVariation text1 n sc1 (by omega)
    rw [parseLoop_mono R isVariation text1 n sc1 hne, parseLoop_succ]
    have e2 := drop_skip_space text2 sc2.pos
    rw [h2] at e2
    generalize hq2 : sc2.pos + ((text2.drop sc2.pos).takeWhile isSpace).length = q2 at e2 ⊢
    rw [e2]
    simp only [if_true]
    rw [indexOfFrom_drop, e2, List.findIdx?_cons]
    have hb : ('{' == '}') = false := by decide
    simp only [hb, Bool.false_eq_true, if_false]
    rw [List.findIdx?_succ, findIdx_body body rest hbody]
    simp only [Option.map_some']
    have hsl : slice text2 (q2 + 1) (q2 + (body.length + 1)) = body := by
      rw [slice_drop, e2]
      simp
    rw [hsl]
    have hd : text2.drop (q2 + (body.length + 1) + 1) = rest := by
      rw [show q2 + (body.length + 1) + 1 = q2 + (body.length + 2) from by omega,
        ← List.drop_drop, e2]
      simp
    have hhtml2 : (if (cleanComment (trim body)).isEmpty then sc2.html
        else sc2.html ++ [Node.comment (String.mk (cleanComment (trim body)))])
        = sc1.html ++ commentNodes body := by
      unfold commentNodes
      rw [hhtml]
      split <;> simp
    rw [hhtml2]
    have hc := parseLoop_congr R isVariation n text1 text2 sc1.html
      (sc1.html ++ commentNodes body) sc1
      { sc2 with html := sc1.html ++ commentNodes body, pos := q2 + (body.length + 1) + 1 } []
      hcore (by simp) (by simp) (by simp only []; rw [h1, hd])
    rcases hc with ⟨e, he1, he2⟩ | ⟨t, ht1, ht2⟩
    · exact Or.inl ⟨e, he1, he2⟩
    · exact Or.inr ⟨sc1.html, t, ht1, by rw [ht2, List.append_assoc]⟩

/-- The scan outside a comment passes over leading white space. -/
theorem closedComments_dropWhile (s : List Char) :
    closedComments (s.dropWhile isSpace) = closedComments s := by
  unfold closedComments
  conv_rhs => rw [← List.takeWhile_append_dropWhile isSpace s]
  rw [braceScan_no_brace]
  intro h
  have := List.mem_takeWhile_imp h
  exact absurd this (by decide)

/-- The loop in front of the place where the comment is put in: while the cursors stand in
the text `s` before that place, and `s` ends outside a comment, both loops take the same
steps. -/
theorem parseLoop_before {P : Type} (R : Rules P) (isVariation : Bool)
    (body rest b1 b2 : List Char) (hbody : '}' ∉ body)
    (hb1 : ∀ c t, b1 = c :: t → c = '{' ∨ isSpace c = true)
    (hb2 : ∀ c t, b2 = c :: t → c = '{' ∨ isSpace c = true)
    (hx1 : b1.dropWhile isSpace = rest.dropWhile isSpace)
    (hx2 : b2.dropWhile isSpace = '{' :: (body ++ '}' :: rest))
    (fuel : Nat) (s : List Char) (hs : closedComments s = true)
    (text1 text2 : List Char) (sc1 sc2 : Scope P)
    (hcore : sc1.core = sc2.core) (hhtml : sc1.html = sc2.html)
    (h1 : (text1.drop sc1.pos).dropWhile isSpace = (s ++ b1).dropWhile isSpace)
    (h2 : (text2.drop sc2.pos).dropWhile isSpace = (s ++ b2).dropWhile isSpace)
    (hfuel : text1.length - sc1.pos + 1 < fuel) :
    insertedComment body (parseLoop R isVariation fuel text1 sc1)
      (parseLoop R isVariation fuel text2 sc2) := by
  induction fuel generalizing s sc1 sc2 with
  | zero => omega
  | succ n ih =>
    cases hsd : s.dropWhile isSpace with
    | nil =>
      rw [dropWhile_append_nil isSpace s b1 hsd, hx1] at h1
      rw [dropWhile_append_nil isSpace s b2 hsd, hx2] at h2
      exact parseLoop_cross R isVariation (n + 1) text1 text2 sc1 sc2 body rest hbody hcore hhtml
        h1 h2 hfuel
    | cons c t =>
      rw [dropWhile_append_cons isSpace s b1 c t hsd] at h1
      rw [dropWhile_append_cons isSpace s b2 c t hsd] at h2
      have hct : braceScan false (c :: t) = true := by
        have := closedComments_dropWhile s
        rw [hsd, hs] at this
        exact this
      rw [parseLoop_succ, parseLoop_succ]
      have e1 := drop_skip_space text1 sc1.pos
      have e2 := drop_skip_space text2 sc2.pos
      rw [h1] at e1
      rw [h2] at e2
      generalize hq1 : sc1.pos + ((text1.drop sc1.pos).takeWhile isSpace).length = q1 at e1 ⊢
      generalize hq2 : sc2.pos + ((text2.drop sc2.pos).takeWhile isSpace).length = q2 at e2 ⊢
      have hlen : q1 < text1.length := by
        by_contra hc
        rw [List.drop_of_length_le (not_lt.mp hc)] at e1
        exact List.noConfusion e1
      have hle : sc1.pos ≤ q1 := by omega
      rw [e1, e2]
      simp only []
      by_cases hc1 : c = '{'
      · subst hc1
        simp only [if_true]
        obtain ⟨k, hk, hklt, hrest⟩ := braceScan_comment t hct
        have hf : ∀ b : List Char,
            ('{' :: (t ++ b)).findIdx? (fun d => d == '}') = some (k + 1) := by
          intro b
          have hb : ('{' == '}') = false := by decide
          rw [List.findIdx?_cons, hb, List.findIdx?_succ, findIdx_append t b k hk]
          rfl
        have hsl : ∀ b : List Char, (('{' :: (t ++ b)).take (k + 1)).drop 1 = t.take k := by
          intro b
          simp only [List.take_succ_cons, List.drop_succ_cons, List.drop_zero]
          rw [List.take_append_of_le_length (by omega)]
        have hdr : ∀ b : List Char, ('{' :: (t ++ b)).drop (k + 1 + 1) = t.drop (k + 1) ++ b := by
          intro b
          simp only [List.drop_succ_cons]
          rw [List.drop_append_of_le_length (by omega)]
        rw [indexOfFrom_drop, indexOfFrom_drop, e1, e2, hf b1, hf b2]
        simp only [Option.map_some']
        rw [slice_drop, slice_drop, e1, e2, hsl b1, hsl b2, hhtml]
        refine ih (t.drop (k + 1)) hrest _ _ hcore rfl ?_ ?_ ?_
        · simp only []
          rw [show q1 + (k + 1) + 1 = q1 + (k + 1 + 1) from by omega, ← List.drop_drop, e1, hdr b1]
        · simp only []
          rw [show q2 + (k + 1) + 1 = q2 + (k + 1 + 1) from by omega, ← List.drop_drop, e2, hdr b2]
        · simp only []
          omega
      · simp only [hc1, if_false]
        by_cases hc2 : c = '('
        · simp only [hc2, if_true]
          exact Or.inl ⟨_, rfl, rfl⟩
        · simp only [hc2, if_false]
          have n1 := emitToken_normal R isVariation sc1 q1 (c :: (t ++ b1))
          have n2 := emitToken_normal R isVariation sc2 q2 (c :: (t ++ b2))
          have hc : ({ sc1 with html := [], pos := 0 } : Scope P)
              = { sc2 with html := [], pos := 0 } := hcore
          rw [hc] at n1
          obtain ⟨t1, t2, z, s2, hz, hbr, hzs, d1, d2⟩ :=
            emitToken_append R isVariation { sc2 with html := [], pos := 0 } (c :: t) b1 b2
              (List.cons_ne_nil _ _) (fun x y hxy => by
                have := (List.cons.inj hxy).1
                rw [← this]
                exact hc1) hb1 hb2
          have hp := emitToken_pos R isVariation sc1 q1 (c :: (t ++ b1))
          have hs2 : closedComments s2 = true := by
            unfold closedComments
            rw [hzs, braceScan_no_brace z s2 hbr] at hct
            exact hct
          refine ih s2 hs2 _ _ ?_ ?_ ?_ ?_ (by omega)
          · rw [n1, n2]
            exact t1
          · rw [n1, n2]
            simp only []
            rw [hhtml]
            exact congrArg _ t2
          · rw [n1]
            simp only []
            rw [← List.drop_drop, e1]
            exact d1
          · rw [n2]
            simp only []
            rw [← List.drop_drop, e2]
            exact d2

/-- The scan does not depend on white space at the end of the text. -/
theorem braceScan_concat_space (inside : Bool) (s : List Char) (x : Char)
    (hx : isSpace x = true) : braceScan inside (s ++ [x]) = braceScan inside s := by
  have h1 : (x == '{') = false := by
    rw [beq_eq_false_iff_ne]
    exact fun h => absurd (h ▸ hx) (by decide)
  have h2 : (x != '}') = true := by
    rw [bne_iff_ne]
    exact fun h => absurd (h ▸ hx) (by decide)
  induction s generalizing inside with
  | nil =>
    cases inside
    · show braceScan (x == '{') [] = braceScan false []
      rw [h1]
    · show braceScan (x != '}') [] = braceScan true []
      rw [h2]
  | cons c s ih =>
    cases inside
    · exact ih (c == '{')
    · exact ih (c != '}')

/-- C27, the claim as stated fails: white space stands directly before the place in front of
`e5` in the comment of `e4 {a e5} Nf3`, and the comment `{x}` put in there closes the comment
that was open: its text becomes `a {x`, `e5` is rendered as a move of the scope, and the move
node of `Nf3` changes its ply index from 1 to 2 and its after-FEN. -/
theorem comment_inside_comment_changes_moves :
    whitespacePosition "e4 \x7ba ".toList "e5\x7d Nf3".toList = true ∧
    '}' ∉ "x".toList ∧
    "e4 \x7ba e5\x7d Nf3".toList = "e4 \x7ba ".toList ++ "e5\x7d Nf3".toList ∧
    "e4 \x7ba \x7bx\x7de5\x7d Nf3".toList
      = "e4 \x7ba ".toList ++ '{' :: ("x".toList ++ '}' :: "e5\x7d Nf3".toList) ∧
    parseNodes sampleRules "e4 \x7ba e5\x7d Nf3" false none
      = .ok [Node.mainMove 0 "start e4" "e4", Node.comment "a e5",
             Node.mainMove 1 "start e4 Nf3" "Nf3"] ∧
    parseNodes sampleRules "e4 \x7ba \x7bx\x7de5\x7d Nf3" false none
      = .ok [Node.mainMove 0 "start e4" "e4", Node.comment "a \x7bx",
             Node.mainMove 1 "start e4 e5" "e5", Node.mainMove 2 "start e4 e5 Nf3" "Nf3"] :=
  ⟨by decide, by decide, by decide, by decide, by rfl, by rfl⟩

/-- C27, amended: let `a ++ b` be the text of a scope, split at a white-space position (an
end of the text, or white space directly before or behind the place) that lies outside the
comments of the text (`a` ends outside a comment), and let `body` hold no `}`, whatever
parentheses it holds. Then the text with `{body}` put in at that place renders as the text
without it: both raise the same error, or the nodes are the same, in the same order, but for
the nodes of the comment `body` (one comment node with the cleaned text, none when that is
empty) that stand between them. No variation block is added and no other node changes. -/
theorem comment_insertion_spec {P : Type} (R : Rules P) (isVariation : Bool)
    (startingFen : Option String) (a b body : List Char)
    (hbody : '}' ∉ body) (ha : closedComments a = true)
    (hws : whitespacePosition a b = true) :
    insertedComment body (parseNodes R (String.mk (a ++ b)) isVariation startingFen)
      (parseNodes R (String.mk (a ++ '{' :: (body ++ '}' :: b))) isVariation startingFen) := by
  unfold parseNodes
  have hl2 : (String.mk (a ++ '{' :: (body ++ '}' :: b))).length + 1
      = ((String.mk (a ++ b)).length + 1) + (body.length + 2) := by
    show (a ++ '{' :: (body ++ '}' :: b)).length + 1 = ((a ++ b).length + 1) + (body.length + 2)
    simp only [List.length_append, List.length_cons]
    omega
  have hne : parseLoop R isVariation ((String.mk (a ++ b)).length + 1) (String.mk (a ++ b)).toList
      (startScope R startingFen) ≠ .error .outOfFuel :=
    parseAndRenderPgn_returns R (String.mk (a ++ b)) isVariation startingFen
  rw [hl2, ← parseLoop_mono_le R isVariation _ _ (body.length + 2) _ hne]
  show insertedComment body
    (parseLoop R isVariation ((a ++ b).length + 1 + (body.length + 2)) (a ++ b)
      (startScope R startingFen))
    (parseLoop R isVariation ((a ++ b).length + 1 + (body.length + 2))
      (a ++ '{' :: (body ++ '}' :: b)) (startScope R startingFen))
  have hp : (startScope R startingFen).pos = 0 := rfl
  have hfuel : (a ++ b).length - (startScope R startingFen).pos + 1
      < (a ++ b).length + 1 + (body.length + 2) := by
    rw [hp]
    omega
  have hbrace : ∀ l : List Char, ('{' :: l).dropWhile isSpace = '{' :: l := by
    intro l
    have : isSpace '{' = false := by decide
    simp [List.dropWhile_cons, this]
  have hcase : ∀ (s b1 b2 : List Char), closedComments s = true →
      (∀ c t, b1 = c :: t → c = '{' ∨ isSpace c = true) →
      (∀ c t, b2 = c :: t → c = '{' ∨ isSpace c = true) →
      b1.dropWhile isSpace = b.dropWhile isSpace →
      b2.dropWhile isSpace = '{' :: (body ++ '}' :: b) →
      a ++ b = s ++ b1 → a ++ '{' :: (body ++ '}' :: b) = s ++ b2 →
      insertedComment body
        (parseLoop R isVariation ((a ++ b).length + 1 + (body.length + 2)) (a ++ b)
          (startScope R startingFen))
        (parseLoop R isVariation ((a ++ b).length + 1 + (body.length + 2))
          (a ++ '{' :: (body ++ '}' :: b)) (startScope R startingFen)) := by
    intro s b1 b2 hs hb1 hb2 hx1 hx2 e1 e2
    refine parseLoop_before R isVariation body b b1 b2 hbody hb1 hb2 hx1 hx2 _ s hs _ _ _ _ rfl rfl
      ?_ ?_ hfuel
    · rw [hp, List.drop_zero, e1]
    · rw [hp, List.drop_zero, e2]
  have hb2 : ∀ c t, '{' :: (body ++ '}' :: b) = c :: t → c = '{' ∨ isSpace c = true :=
    fun c t h => Or.inl (List.cons.inj h).1.symm
  simp only [whitespacePosition, Bool.or_eq_true] at hws
  rcases hws with ((hws | hws) | hws) | hws
  · have : a = [] := by simpa using hws
    subst this
    exact parseLoop_cross R isVariation _ _ _ _ _ body b hbody rfl rfl
      (by rw [hp, List.drop_zero]; rfl) (by rw [hp, List.drop_zero]; exact hbrace _) hfuel
  · have : b = [] := by simpa using hws
    subst this
    exact hcase a [] ('{' :: (body ++ '}' :: [])) ha (fun c t h => List.noConfusion h) hb2 rfl
      (hbrace _) rfl rfl
  · rcases List.eq_nil_or_concat a with hnil | ⟨s, x, hax⟩
    · rw [hnil] at hws
      simp at hws
    · rw [List.concat_eq_append] at hax
      subst hax
      have hx : isSpace x = true := by simpa using hws
      have hsp : ∀ l : List Char, (x :: l).dropWhile isSpace = l.dropWhile isSpace := by
        intro l
        simp [List.dropWhile_cons, hx]
      refine hcase s (x :: b) (x :: '{' :: (body ++ '}' :: b)) ?_
        (fun c t h => Or.inr ((List.cons.inj h).1 ▸ hx))
        (fun c t h => Or.inr ((List.cons.inj h).1 ▸ hx)) (hsp _) ?_ ?_ ?_
      · unfold closedComments at ha ⊢
        rw [braceScan_concat_space false s x hx] at ha
        exact ha
      · rw [hsp, hbrace]
      · simp
      · simp
  · cases b with
    | nil => simp at hws
    | cons y b =>
      have hy : isSpace y = true := by simpa using hws
      exact hcase a (y :: b) ('{' :: (body ++ '}' :: (y :: b))) ha
        (fun c t h => Or.inr ((List.cons.inj h).1 ▸ hy)) hb2 rfl (hbrace _) rfl rfl

/-- C27, amended, at Scenario E of the spec, `1. e4 {note (see also) here} e5`: the comment
stands at a white-space position outside the comments of `1. e4  e5`, it renders as one
comment node whose text is `note (see also) here`, no variation block is rendered, and the
other nodes are those of the text without the comment. -/
theorem comment_insertion_spec_witness :
    '}' ∉ "note (see also) here".toList ∧
    closedComments "1. e4 ".toList = true ∧
    whitespacePosition "1. e4 ".toList " e5".toList = true ∧
    commentNodes "note (see also) here".toList = [Node.comment "note (see also) here"] ∧
    insertedComment "note (see also) here".toList
      (parseNodes sampleRules "1. e4  e5" false none)
      (parseNodes sampleRules "1. e4 \x7bnote (see also) here\x7d e5" false none) ∧
    parseNodes sampleRules "1. e4  e5" false none
      = .ok [Node.moveNumber "1.", Node.mainMove 0 "start e4" "e4",
             Node.mainMove 1 "start e4 e5" "e5"] ∧
    parseNodes sampleRules "1. e4 \x7bnote (see also) here\x7d e5" false none
      = .ok [Node.moveNumber "1.", Node.mainMove 0 "start e4" "e4",
             Node.comment "note (see also) here", Node.mainMove 1 "start e4 e5" "e5"] :=
  ⟨by decide, by decide, by decide, by rfl,
   comment_insertion_spec sampleRules false none "1. e4 ".toList " e5".toList
     "note (see also) here".toList (by decide) (by decide) (by decide),
   by rfl, by rfl⟩

/-! ## The preview of a variation: the first move -/

/-- The move that the grammar reads first: the pattern leaves the rest of the text, whatever
the groups recorded so far, the move is not empty and holds characters of the grammar only. -/
theorem firstSan_run (san rest : List Char) (h : firstSan (san ++ rest) = some san) :
    (∀ caps : Caps Char, (Re.run sanRe (san ++ rest, caps)).head? = some (rest, caps)) ∧
    san ≠ [] ∧ ∀ c ∈ san, sanRe.rejects c = false := by
  have hsimple : sanRe.simple = true := by rfl
  unfold firstSan at h
  cases hm : matchStart sanRe (san ++ rest) with
  | none => rw [hm] at h; simp at h
  | some m =>
    rw [hm] at h
    simp only [Option.map_some', Option.some.injEq] at h
    obtain ⟨rest2, caps2, hmem, hw, _, hhead⟩ := matchStart_whole sanRe (san ++ rest) m hm
    obtain ⟨z, hz, hg⟩ := Re.run_consumed sanRe (san ++ rest, []) (rest2, caps2) hmem
    simp only at hz
    have hzs : z = san := by
      have : m.whole = z := by
        rw [hw]
        conv_lhs => rw [hz]
        simp
      rw [← this, h]
    subst hzs
    have hr : rest2 = rest := (List.append_cancel_left hz).symm
    subst hr
    have hlt := Re.run_length_lt sanRe (z ++ rest2, []) (rest2, caps2) (by rfl) hmem
    refine ⟨?_, ?_, hg⟩
    · intro caps
      rw [Re.run_rests sanRe hsimple] at hhead ⊢
      rw [List.head?_map] at hhead ⊢
      cases hh : (Re.rests sanRe (z ++ rest2)).head? with
      | none => rw [hh] at hhead; simp at hhead
      | some t =>
        rw [hh] at hhead
        simp only [Option.map_some', Option.some.injEq, Prod.mk.injEq] at hhead ⊢
        exact ⟨hhead.1, trivial⟩
    · intro hnil
      subst hnil
      simp at hlt

/-- The front of the preview pattern (number, dots, white space, SAN) reads the front of a
first move and records the groups 1 to 3. -/
theorem preview_front (number dots gap san rest : List Char) (tailRe : Re Char)
    (st : MState Char)
    (hn1 : number ≠ []) (hn2 : ∀ x ∈ number, isDigit x = true)
    (hd1 : dots ≠ []) (hd2 : ∀ x ∈ dots, (x == '.') = true)
    (hg : ∀ x ∈ gap, isSpace x = true) (hsan : firstSan (san ++ rest) = some san)
    (htail : (Re.run tailRe (rest, [(3, san), (2, dots), (1, number)])).head? = some st) :
    (Re.run (Re.seq (Re.group 1 (Re.plus (Re.chr isDigit)))
        (Re.seq (Re.group 2 (Re.plus (lit '.')))
          (Re.seq (Re.star (Re.chr isSpace)) (Re.seq (Re.group 3 sanRe) tailRe))))
      (number ++ (dots ++ (gap ++ (san ++ rest))), [])).head? = some st := by
  obtain ⟨hrun, hne, hcons⟩ := firstSan_run san rest hsan
  obtain ⟨sc, st2, hsc⟩ : ∃ c t, san = c :: t := by
    cases san with
    | nil => exact absurd rfl hne
    | cons c t => exact ⟨c, t, rfl⟩
  have hscr : sanRe.rejects sc = false := hcons sc (by rw [hsc]; exact List.mem_cons_self _ _)
  have hdot : sc ≠ '.' := by
    intro h
    rw [h] at hscr
    exact absurd hscr (by decide)
  have hspace : isSpace sc = false := by
    cases hs : isSpace sc with
    | false => rfl
    | true =>
      have hm := (rejects_stop sc (Or.inr hs)).2.2.2
      have hm2 : (Re.rejects sc sanRe && (Re.rejects sc (oneOf "!?") &&
          Re.rejects sc (oneOf "!?"))) = true := hm
      rw [hscr, Bool.false_and] at hm2
      exact absurd hm2 (by decide)
  refine Re.head_seq _ _ _ (dots ++ (gap ++ (san ++ rest)), [(1, number)]) _ ?_ ?_
  · apply Re.head_group
    apply Re.head_plus_chr _ _ _ _ hn1 hn2
    intro x t h
    cases dots with
    | nil => exact absurd rfl hd1
    | cons d ds =>
      simp only [List.cons_append, List.cons.injEq] at h
      have := hd2 d (List.mem_cons_self _ _)
      have hd : d = '.' := by simpa using this
      rw [← h.1, hd]
      rfl
  refine Re.head_seq _ _ _ (gap ++ (san ++ rest), [(2, dots), (1, number)]) _ ?_ ?_
  · apply Re.head_group
    unfold lit
    apply Re.head_plus_chr _ _ _ _ hd1 hd2
    intro x t h
    rw [beq_eq_false_iff_ne]
    intro hdx
    cases gap with
    | nil =>
      rw [hsc] at h
      simp only [List.nil_append, List.cons_append, List.cons.injEq] at h
      exact hdot (h.1.trans hdx)
    | cons g gs =>
      simp only [List.cons_append, List.cons.injEq] at h
      have hgs := hg g (List.mem_cons_self _ _)
      rw [h.1, hdx] at hgs
      exact absurd hgs (by decide)
  refine Re.head_seq _ _ _ (san ++ rest, [(2, dots), (1, number)]) _ ?_ ?_
  · apply Re.head_star_chr _ _ _ _ hg
    intro x t h
    rw [hsc] at h
    simp only [List.cons_append, List.cons.injEq] at h
    rw [← h.1]
    exact hspace
  refine Re.head_seq _ _ _ (rest, [(3, san), (2, dots), (1, number)]) _ ?_ htail
  apply Re.head_group
  exact hrun _

/-- The match of the preview pattern on a first move followed by `tail`: what is left is
`tail`. -/
theorem previewRe_head (number dots gap san glyphs tail : List Char)
    (nag : Option (List Char × List Char))
    (hn1 : number ≠ []) (hn2 : ∀ x ∈ number, isDigit x = true)
    (hd1 : dots ≠ []) (hd2 : ∀ x ∈ dots, (x == '.') = true)
    (hg : ∀ x ∈ gap, isSpace x = true)
    (hsan : firstSan (san ++ (nagText nag ++ (glyphs ++ tail))) = some san)
    (hnag : ∀ sp ds, nag = some (sp, ds) →
      (∀ x ∈ sp, isSpace x = true) ∧ ds ≠ [] ∧ ∀ x ∈ ds, isDigit x = true)
    (hgl : ∀ x ∈ glyphs, "!?".toList.contains x = true)
    (htg : ∀ x t, tail = x :: t → "!?".toList.contains x = false)
    (htn : ∀ sp ds, nag = some (sp, ds) → ∀ x t, glyphs ++ tail = x :: t → isDigit x = false)
    (htd : nag = none → startsNag (glyphs ++ tail) = false) :
    (Re.run previewRe
      (number ++ (dots ++ (gap ++ (san ++ (nagText nag ++ (glyphs ++ tail))))), [])).head?
      = some (tail,
          (if glyphs = [] then [] else [(5, glyphs)]) ++
          (nagCaps nag ++ [(3, san), (2, dots), (1, number)])) := by
  -- the glyph group
  have hO5 : ∀ c : Caps Char,
      (Re.run (Re.opt (Re.group 5 (Re.star (oneOf "!?")))) (glyphs ++ tail, c)).head?
        = some (tail, (if glyphs = [] then [] else [(5, glyphs)]) ++ c) := by
    intro c
    by_cases hge : glyphs = []
    · subst hge
      simp only [List.nil_append, if_true]
      exact glyphOpt_skip tail c htg
    · simp only [hge, if_false, List.singleton_append]
      exact glyphOpt_head glyphs tail c hge hgl htg
  unfold previewRe
  simp only [Re.cat]
  cases nag with
  | none =>
    simp only [nagText, nagCaps, List.nil_append] at hsan ⊢
    apply preview_front number dots gap san _ _ _ hn1 hn2 hd1 hd2 hg hsan
    exact Re.head_seq _ _ _ (glyphs ++ tail, _) _ (nagOpt_skip _ _ (htd rfl)) (hO5 _)
  | some p =>
    obtain ⟨sp, ds⟩ := p
    obtain ⟨hsp, hdne, hds⟩ := hnag sp ds rfl
    simp only [nagText, nagCaps, List.singleton_append] at hsan ⊢
    apply preview_front number dots gap san _ _ _ hn1 hn2 hd1 hd2 hg hsan
    exact Re.head_seq _ _ _ (glyphs ++ tail, _) _
      (nagOpt_head sp ds (glyphs ++ tail) _ hsp hdne hds (htn sp ds rfl)) (hO5 _)

/-- The preview of a body that is split into its first move and what follows it. -/
theorem getVariationPreview_label (f : FirstMove) (tail : List Char)
    (hwf : f.wellFormed = true) (htail : endsFirstMove f tail = true) :
    getVariationPreview (String.mk (f.text ++ tail)) = f.label := by
  obtain ⟨number, dots, gap, san, nag, glyphs⟩ := f
  simp only [FirstMove.wellFormed, Bool.and_eq_true, Bool.not_eq_true', List.all_eq_true,
    List.isEmpty_eq_false] at hwf
  obtain ⟨⟨⟨⟨⟨⟨hn1, hn2⟩, hd1⟩, hd2⟩, hg⟩, hnag⟩, hgl⟩ := hwf
  simp only [endsFirstMove, Bool.and_eq_true, beq_iff_eq] at htail
  obtain ⟨⟨hsan, htl⟩, htn0⟩ := htail
  have hl : "!?".toList = ['!', '?'] := rfl
  have hgl2 : ∀ x ∈ glyphs, "!?".toList.contains x = true := by
    intro x hx
    have := hgl x hx
    rw [hl]
    simpa using this
  have hnag2 : ∀ sp ds, nag = some (sp, ds) →
      (∀ x ∈ sp, isSpace x = true) ∧ ds ≠ [] ∧ ∀ x ∈ ds, isDigit x = true := by
    intro sp ds h
    rw [h] at hnag
    simp only [Bool.and_eq_true, Bool.not_eq_true', List.all_eq_true,
      List.isEmpty_eq_false] at hnag
    exact ⟨hnag.1.1, hnag.1.2, hnag.2⟩
  have htg : ∀ x t, tail = x :: t → "!?".toList.contains x = false := by
    intro x t h
    rw [h] at htl
    rw [hl]
    simpa using htl
  have htn : ∀ sp ds, nag = some (sp, ds) → ∀ x t, glyphs ++ tail = x :: t →
      isDigit x = false := by
    intro sp ds h x t hx
    rw [h] at htn0
    simp only [] at htn0
    rw [hx] at htn0
    simpa using htn0
  have htd : nag = none → startsNag (glyphs ++ tail) = false := by
    intro h
    rw [h] at htn0
    simpa using htn0
  have hhead := previewRe_head number dots gap san glyphs tail nag hn1 hn2 hd1 hd2 hg hsan
    hnag2 hgl2 htg htn htd
  have htext : (String.mk (FirstMove.text ⟨number, dots, gap, san, nag, glyphs⟩ ++ tail)).toList
      = number ++ (dots ++ (gap ++ (san ++ (nagText nag ++ (glyphs ++ tail))))) := by
    show FirstMove.text ⟨number, dots, gap, san, nag, glyphs⟩ ++ tail = _
    simp only [FirstMove.text, List.append_assoc]
  unfold getVariationPreview
  rw [htext]
  unfold matchStart
  rw [hhead]
  simp only [Option.map_some', FirstMove.label]
  cases nag with
  | none =>
    by_cases hge : glyphs = []
    · subst hge
      simp [Match.grp, List.find?, nagCaps]
    · simp [Match.grp, List.find?, hge, nagCaps]
  | some p =>
    obtain ⟨sp, ds⟩ := p
    obtain ⟨hsp, hdne, hds⟩ := hnag2 sp ds rfl
    have htrim := trim_nag sp ds hsp hdne hds
    by_cases hge : glyphs = []
    · subst hge
      simp [Match.grp, List.find?, htrim, nagCaps]
    · simp [Match.grp, List.find?, hge, htrim, nagCaps]

/-- Every text that starts with a move number, dots, white space or none and a move of the
grammar is split into a first move and what follows it. -/
theorem firstMove_split (number dots gap rest : List Char)
    (hn1 : number ≠ []) (hn2 : ∀ x ∈ number, isDigit x = true)
    (hd1 : dots ≠ []) (hd2 : ∀ x ∈ dots, (x == '.') = true)
    (hg : ∀ x ∈ gap, isSpace x = true) (hs : (firstSan rest).isSome = true) :
    ∃ (f : FirstMove) (tail : List Char), f.number = number ∧ f.dots = dots ∧ f.gap = gap ∧
      firstSan rest = some f.san ∧
      number ++ (dots ++ (gap ++ rest)) = f.text ++ tail ∧
      f.wellFormed = true ∧ endsFirstMove f tail = true := by
  obtain ⟨san, hsan⟩ := Option.isSome_iff_exists.mp hs
  -- the text behind the SAN
  obtain ⟨r1, hr1⟩ : ∃ r1, rest = san ++ r1 := by
    unfold firstSan at hsan
    cases hm : matchStart sanRe rest with
    | none => rw [hm] at hsan; simp at hsan
    | some m =>
      rw [hm] at hsan
      simp only [Option.map_some', Option.some.injEq] at hsan
      have := (matchStart_consumed sanRe rest m hm).1
      rw [hsan] at this
      exact ⟨rest.drop san.length, by
        conv_lhs => rw [← List.take_append_drop san.length rest]
        rw [this]⟩
  have hwfbase : (!number.isEmpty && number.all isDigit && !dots.isEmpty &&
      dots.all (fun c => c == '.') && gap.all isSpace) = true := by
    simp only [Bool.and_eq_true, Bool.not_eq_true', List.all_eq_true, List.isEmpty_eq_false]
    exact ⟨⟨⟨⟨hn1, hn2⟩, hd1⟩, hd2⟩, hg⟩
  have hglall : ∀ r : List Char,
      (r.takeWhile (fun c => c == '!' || c == '?')).all (fun c => c == '!' || c == '?') = true := by
    intro r
    rw [List.all_eq_true]
    intro x hx
    exact List.mem_takeWhile_imp (p := fun c => c == '!' || c == '?') hx
  have hgltail : ∀ r : List Char,
      (match r.dropWhile (fun c => c == '!' || c == '?') with
       | [] => true
       | c :: _ => !(c == '!' || c == '?')) = true := by
    intro r
    cases hd : r.dropWhile (fun c => c == '!' || c == '?') with
    | nil => rfl
    | cons c t =>
      have := dropWhile_head (fun c => c == '!' || c == '?') r c t hd
      simp only [] at this ⊢
      rw [this]
      rfl
  cases hsn : startsNag r1 with
  | false =>
    refine ⟨⟨number, dots, gap, san, none, r1.takeWhile (fun c => c == '!' || c == '?')⟩,
      r1.dropWhile (fun c => c == '!' || c == '?'), rfl, rfl, rfl, hsan, ?_, ?_, ?_⟩
    · simp only [FirstMove.text, nagText, List.nil_append, List.append_assoc,
        List.takeWhile_append_dropWhile, hr1]
    · simp only [FirstMove.wellFormed, hwfbase, hglall, Bool.and_self]
    · simp only [endsFirstMove, nagText, List.nil_append, List.takeWhile_append_dropWhile,
        ← hr1, hsan, beq_self_eq_true, hgltail, hsn, Bool.not_false, Bool.and_self]
  | true =>
    unfold startsNag at hsn
    cases hdw : r1.dropWhile isSpace with
    | nil => rw [hdw] at hsn; exact absurd hsn (by decide)
    | cons x t =>
      rw [hdw] at hsn
      cases t with
      | nil =>
        exfalso
        revert hsn
        split <;> simp_all
      | cons d t2 =>
        have hx : x = '$' ∧ isDigit d = true := by
          revert hsn
          split
          · rename_i d2 t3 heq
            intro h
            simp only [List.cons.injEq] at heq
            exact ⟨heq.1, by rw [heq.2.1]; exact h⟩
          · intro h
            exact absurd h (by decide)
        obtain ⟨hx1, hx2⟩ := hx
        subst hx1
        have hspall : (r1.takeWhile isSpace).all isSpace = true := by
          rw [List.all_eq_true]
          intro y hy
          exact List.mem_takeWhile_imp hy
        have hdsall : ((d :: t2).takeWhile isDigit).all isDigit = true := by
          rw [List.all_eq_true]
          intro y hy
          exact List.mem_takeWhile_imp hy
        have hdsne : ((d :: t2).takeWhile isDigit).isEmpty = false := by
          simp [List.takeWhile_cons, hx2]
        have hnd : (match ((d :: t2).dropWhile isDigit).takeWhile (fun c => c == '!' || c == '?')
              ++ ((d :: t2).dropWhile isDigit).dropWhile (fun c => c == '!' || c == '?') with
            | [] => true
            | c :: _ => !isDigit c) = true := by
          rw [List.takeWhile_append_dropWhile]
          cases hdd : (d :: t2).dropWhile isDigit with
          | nil => rfl
          | cons c t3 =>
            have := dropWhile_head isDigit (d :: t2) c t3 hdd
            simp only [this, Bool.not_false]
        refine ⟨⟨number, dots, gap, san,
            some (r1.takeWhile isSpace, (d :: t2).takeWhile isDigit),
            ((d :: t2).dropWhile isDigit).takeWhile (fun c => c == '!' || c == '?')⟩,
          ((d :: t2).dropWhile isDigit).dropWhile (fun c => c == '!' || c == '?'),
          rfl, rfl, rfl, hsan, ?_, ?_, ?_⟩
        · simp only [FirstMove.text, nagText, List.append_assoc, List.cons_append,
            List.takeWhile_append_dropWhile]
          rw [← hdw, List.takeWhile_append_dropWhile, hr1]
        · simp only [FirstMove.wellFormed, hwfbase, hglall, hspall, hdsall, hdsne,
            Bool.not_false, Bool.and_self]
        · have htxt : san ++ (nagText (some (r1.takeWhile isSpace, (d :: t2).takeWhile isDigit))
              ++ (((d :: t2).dropWhile isDigit).takeWhile (fun c => c == '!' || c == '?') ++
                ((d :: t2).dropWhile isDigit).dropWhile (fun c => c == '!' || c == '?')))
              = rest := by
            simp only [nagText, List.append_assoc, List.cons_append,
              List.takeWhile_append_dropWhile]
            rw [← hdw, List.takeWhile_append_dropWhile, hr1]
          simp only [endsFirstMove, htxt, hsan, beq_self_eq_true, hgltail, hnd, Bool.and_self]

/-- C9, amended: for every variation body that starts with a move number followed by a SAN
move (digits, dots, white space or none, and the move that the move grammar reads there),
split into that first move and what follows it, each part read as far as it goes,
`getVariationPreview` returns the number with its dots, one space, the SAN, the symbol of the
NAG that stands directly behind the SAN (white space allowed before it, nothing for a code
outside the table) and the glyphs that stand directly behind the SAN or that NAG; what stands
after that, a NAG after the glyphs or a second NAG included, is not shown. Every body that
starts with a move number and a SAN move is split in this way. -/
theorem getVariationPreview_first_move :
    (∀ (f : FirstMove) (tail : List Char), f.wellFormed = true → endsFirstMove f tail = true →
      getVariationPreview (String.mk (f.text ++ tail)) = f.label) ∧
    (∀ number dots gap rest : List Char,
      number ≠ [] → (∀ x ∈ number, isDigit x = true) →
      dots ≠ [] → (∀ x ∈ dots, (x == '.') = true) →
      (∀ x ∈ gap, isSpace x = true) → (firstSan rest).isSome = true →
      ∃ (f : FirstMove) (tail : List Char), f.number = number ∧ f.dots = dots ∧ f.gap = gap ∧
        firstSan rest = some f.san ∧
        number ++ (dots ++ (gap ++ rest)) = f.text ++ tail ∧
        f.wellFormed = true ∧ endsFirstMove f tail = true ∧
        getVariationPreview (String.mk (number ++ (dots ++ (gap ++ rest)))) = f.label) := by
  refine ⟨getVariationPreview_label, ?_⟩
  intro number dots gap rest hn1 hn2 hd1 hd2 hg hs
  obtain ⟨f, tail, e1, e2, e3, e4, e5, e6, e7⟩ :=
    firstMove_split number dots gap rest hn1 hn2 hd1 hd2 hg hs
  exact ⟨f, tail, e1, e2, e3, e4, e5, e6, e7, by rw [e5]; exact getVariationPreview_label f tail e6 e7⟩

/-- The body `1. d4 d5` of scenario B has the preview `1. d4`, and so has `1. d4 $x`; the
body `12...Nxe4+ $16!? Kf1` has the preview `12... Nxe4+±!?`, also when a second NAG or text
without white space follows. -/
theorem getVariationPreview_first_move_witness :
    sampleFirstMove.wellFormed = true ∧ endsFirstMove sampleFirstMove " d5".toList = true ∧
    getVariationPreview "1. d4 d5" = "1. d4" ∧
    getVariationPreview "1. d4 $x" = "1. d4" ∧
    getVariationPreview "12...Nxe4+ $16!? Kf1" = "12... Nxe4+±!?" ∧
    getVariationPreview "12...Nxe4+ $16!? $18 Kf1" = "12... Nxe4+±!?" ∧
    getVariationPreview "12...Nxe4+ $16!?Kf1" = "12... Nxe4+±!?" :=
  ⟨by decide, by decide,
    getVariationPreview_first_move.1 sampleFirstMove " d5".toList (by decide) (by decide),
    getVariationPreview_first_move.1 sampleFirstMove " $x".toList (by decide) (by decide),
    getVariationPreview_first_move.1 sampleFirstMoveNag " Kf1".toList (by decide) (by decide),
    getVariationPreview_first_move.1 sampleFirstMoveNag " $18 Kf1".toList (by decide)
      (by decide),
    getVariationPreview_first_move.1 sampleFirstMoveNag "Kf1".toList (by decide) (by decide)⟩


end SuperChessPrep
